import Mathlib

/-! # hibp-server: index builder and range query server

A shallow embedding of `cmd/root.go`, `cmd/generate.go` and `cmd/serve.go`.

Conventions of the embedding:

* a Go `byte` is a `Nat` (real bytes are below 256), a `[]byte` or a Go `string`
  is a `List Nat` of its bytes;
* a `uint32` is a `Nat` kept below `2^32`: every `uint32` operation of the
  source that can wrap is written with an explicit `% 2^32`;
* the corpus is the sequence of the lines of the source file, each ended by a
  newline, without carriage return; `scanner.Scan()` yields them in order, up to
  the first line that does not fit the buffer of the scanner;
* the functions of the Go libraries that the source calls (`strconv.ParseUint`,
  `strutil.ParseUintBytes`, `hex.Decode`, `hex.EncodeToString`, `binary.Write`,
  `binary.Read`, `ReadAt`) are written out from their library sources;
* a run-time panic (slice index out of range) is an explicit outcome;
* failures of the operating system (open, seek, write, read of the header) and
  the log output are outside the model.
-/

namespace Hibp

/-! ## Definitions -/

/-- Bytes of an ASCII string literal. -/
def ascii (s : String) : List Nat := s.toList.map Char.toNat

/-- The constant `addrMapSize = (1<<24 + 1)` of `cmd/root.go`. -/
def addrMapSize : Nat := (1 <<< 24) + 1

/-- The maximum token size of the scanner of `generateDB`, set by
`scanner.Buffer(make([]byte, 16*1024*1024), 16*1024*1024)`: a line fits the
buffer together with its newline when it has fewer than `maxTokenSize` bytes;
at a line of `maxTokenSize` bytes or more `scanner.Scan()` returns false, with
the error `bufio.ErrTooLong`. -/
def maxTokenSize : Nat := 16 * 1024 * 1024

/-- Digit value of one byte in `ParseUint` / `ParseUintBytes`: the switch over
`'0'..'9'`, `'a'..'z'`, `'A'..'Z'`; `none` is the default branch. -/
def digitVal (d : Nat) : Option Nat :=
  if 48 ≤ d ∧ d ≤ 57 then some (d - 48)
  else if 97 ≤ d ∧ d ≤ 122 then some (d - 97 + 10)
  else if 65 ≤ d ∧ d ≤ 90 then some (d - 65 + 10)
  else none

/-- The digit loop of `ParseUint`: `n` is the `uint64` accumulator, `none` is
any error return (invalid digit, digit not below the base, overflow of
`n*base`, overflow of `n+v` or a value above `maxVal`). -/
def parseLoop (base maxVal cutoff : Nat) : List Nat → Nat → Option Nat
  | [], n => some n
  | d :: ds, n =>
    match digitVal d with
    | none => none
    | some v =>
      if v ≥ base then none
      else if n ≥ cutoff then none
      else
        let n0 := n * base
        let n1 := (n0 + v) % 2 ^ 64
        if n1 < n0 ∨ n1 > maxVal then none
        else parseLoop base maxVal cutoff ds n1

/-- Library function `strutil.ParseUintBytes(s, base, bitSize)` for a base
between 2 and 36 and a bit size between 1 and 64; `none` stands for a non-nil
error. -/
def ParseUintBytes (s : List Nat) (base bitSize : Nat) : Option Nat :=
  if s.length < 1 then none
  else parseLoop base (2 ^ bitSize - 1) ((2 ^ 64 - 1) / base + 1) s 0

/-- Library function `strconv.ParseUint(s, base, bitSize)`: the same digit
loop over the bytes of the string. -/
def ParseUint (s : List Nat) (base bitSize : Nat) : Option Nat :=
  if s.length < 1 then none
  else parseLoop base (2 ^ bitSize - 1) ((2 ^ 64 - 1) / base + 1) s 0

/-- Helper `fromHexChar` of `encoding/hex`: value of one hexadecimal digit. -/
def fromHexChar (c : Nat) : Option Nat :=
  if 48 ≤ c ∧ c ≤ 57 then some (c - 48)
  else if 97 ≤ c ∧ c ≤ 102 then some (c - 97 + 10)
  else if 65 ≤ c ∧ c ≤ 70 then some (c - 65 + 10)
  else none

/-- Library function `hex.Decode(dst, src)`: the bytes written to `dst`
(`len(src)/2` of them), or `none` for a non-nil error (an invalid byte, or an
odd length). -/
def Decode : List Nat → Option (List Nat)
  | [] => some []
  | [_] => none
  | p :: q :: rest =>
    match fromHexChar p, fromHexChar q with
    | some a, some b =>
      match Decode rest with
      | some bs => some ((a * 16 + b) :: bs)
      | none => none
    | _, _ => none

/-- The table `hextable = "0123456789abcdef"` of `encoding/hex`. -/
def hextable : List Nat := [48, 49, 50, 51, 52, 53, 54, 55, 56, 57, 97, 98, 99, 100, 101, 102]

/-- Library function `hex.EncodeToString(src)`: two digits of `hextable` for
each byte, `hextable[b>>4]` then `hextable[b&0x0f]`. -/
def EncodeToString : List Nat → List Nat
  | [] => []
  | b :: bs => hextable.getD (b / 16) 0 :: hextable.getD (b % 16) 0 :: EncodeToString bs

/-- One `uint32` in little-endian byte order. -/
def putUint32 (v : Nat) : List Nat :=
  [v % 256, v / 256 % 256, v / 65536 % 256, v / 16777216 % 256]

/-- What `binary.Write(db, binary.LittleEndian, addresses)` writes. -/
def encodeTable : List Nat → List Nat
  | [] => []
  | v :: vs => putUint32 v ++ encodeTable vs

/-- What `binary.Read(db, binary.LittleEndian, addresses)` stores, from the
bytes it consumed: one `uint32` for every four bytes. -/
def decodeTable : List Nat → List Nat
  | b0 :: b1 :: b2 :: b3 :: rest =>
    (b0 + 256 * b1 + 65536 * b2 + 16777216 * b3) :: decodeTable rest
  | _ => []

/-- The loop `for k := lo; k <= hi; k++ { addresses[k] = v }` of `generateDB`;
`none` is the panic of an index out of range. -/
def fillLoop (v hi : Nat) (k : Nat) (addresses : List Nat) : Option (List Nat) :=
  if k ≤ hi then
    if k < addresses.length then fillLoop v hi (k + 1) (addresses.set k v)
    else none
  else some addresses
termination_by hi + 1 - k

/-- The local variables of `generateDB` that live across loop iterations,
and the bytes handed to `writer` so far. -/
structure GenState where
  addresses : List Nat
  currentOffset : Nat
  previousPrefix : Nat
  written : List Nat
deriving DecidableEq

/-- How `generateDB` can stop early: its three error returns (each quotes the
offending line) and the run-time panic of a table index out of range. -/
inductive GenError where
  | parseLine (line : List Nat)
  | parsePrefix (line : List Nat)
  | decodeHash (line : List Nat)
  | indexOutOfRange
deriving DecidableEq

/-- The state before the first line: a zeroed table of `addrMapSize` entries,
`currentOffset = 0`, `previousPrefix = 0`. -/
def genInit : GenState :=
  { addresses := List.replicate addrMapSize 0, currentOffset := 0, previousPrefix := 0,
    written := [] }

/-- The body of the `for scanner.Scan()` loop of `generateDB` for one line:
the length check, the prefix `line[0:6]`, the update of the table, the
decoding of `line[6:40]` into the 17-byte buffer `hash` (34 characters fill
it whole), the write of `hash` and the increment of the `uint32` counter. -/
def genStep (st : GenState) (line : List Nat) : Except GenError GenState :=
  if line.length < 40 then .error (.parseLine line)
  else
    match ParseUintBytes (line.take 6) 16 32 with
    | none => .error (.parsePrefix line)
    | some pfx =>
      let updated : Option (List Nat × Nat) :=
        if pfx ≠ st.previousPrefix then
          match fillLoop st.currentOffset pfx (st.previousPrefix + 1) st.addresses with
          | some addresses => some (addresses, pfx)
          | none => none
        else some (st.addresses, st.previousPrefix)
      match updated with
      | none => .error .indexOutOfRange
      | some (addresses, previousPrefix) =>
        match Decode ((line.take 40).drop 6) with
        | none => .error (.decodeHash line)
        | some hash =>
          .ok { addresses := addresses
                currentOffset := (st.currentOffset + 1) % 2 ^ 32
                previousPrefix := previousPrefix
                written := st.written ++ hash }

/-- The whole `for scanner.Scan()` loop on the lines of the source file, in
order. The loop ends when `scanner.Scan()` returns false, which is at the end
of the file and also at the first line of `maxTokenSize` bytes or more (the
source never reads `scanner.Err()`, so the run goes on with the final fill as
at the end of the file); it returns at the first error of the loop body. -/
def genLoop : GenState → List (List Nat) → Except GenError GenState
  | st, [] => .ok st
  | st, line :: rest =>
    if maxTokenSize ≤ line.length then .ok st
    else
      match genStep st line with
      | .error e => .error e
      | .ok st1 => genLoop st1 rest

/-- The database that a successful `generateDB` leaves behind: the final
address table and the suffix records written after the header. -/
structure Database where
  addresses : List Nat
  records : List Nat
deriving DecidableEq

/-- The bytes of the destination file: the table written at offset 0 by
`binary.Write`, then the bytes that `writer` put after the header. -/
def Database.file (db : Database) : List Nat :=
  encodeTable db.addresses ++ db.records

/-- Function `generateDB` on a corpus, the lines of the source file: the scan
loop, the final fill of the table from `previousPrefix + 1` to
`addrMapSize - 1`, and the header. -/
def generateDB (corpus : List (List Nat)) : Except GenError Database :=
  match genLoop genInit corpus with
  | .error e => .error e
  | .ok st =>
    match fillLoop st.currentOffset (addrMapSize - 1) (st.previousPrefix + 1) st.addresses with
    | none => .error .indexOutOfRange
    | some addresses => .ok { addresses := addresses, records := st.written }

/-- The `Server` struct: the table in memory and the database file. -/
structure Server where
  addresses : List Nat
  db : List Nat
deriving DecidableEq

/-- Start-up of `serve`: `binary.Read` fills the table from the first
`4 * addrMapSize` bytes of the file; `none` is the fatal exit on a short
file. -/
def serve (file : List Nat) : Option Server :=
  if file.length < 4 * addrMapSize then none
  else some { addresses := decodeTable (file.take (4 * addrMapSize)), db := file }

/-- Positioned read `db.ReadAt(buf, off)` into a fresh zeroed buffer of `n`
bytes: the bytes available at `off`, at most `n`, the rest of the buffer is
left zero (the source ignores the returned count and error). -/
def ReadAt (file : List Nat) (n off : Nat) : List Nat :=
  let got := (file.drop off).take n
  got ++ List.replicate (n - got.length) 0

/-- Go slice expression `xs[lo:hi]`; `none` is the panic when the bounds are
out of range. -/
def slice (xs : List Nat) (lo hi : Nat) : Option (List Nat) :=
  if lo ≤ hi ∧ hi ≤ xs.length then some ((xs.take hi).drop lo) else none

/-- The loop `for i := 0; i < int(len); i++` of `fetchPrefix` from index `i`
on: the hex strings for `i, i+1, ..`, or `none` when a slice panics. -/
def encodeLoop (hashes : List Nat) (len : Nat) (i : Nat) : Option (List (List Nat)) :=
  if i < len then
    match slice hashes (i * 17) ((i + 1) * 17) with
    | none => none
    | some h =>
      match encodeLoop hashes len (i + 1) with
      | none => none
      | some rest => some (EncodeToString h :: rest)
  else some []
termination_by len - i

/-- What a request can end in: an `http.Error` reply with a status code and a
message, the JSON array of hex strings with status 200, or a panic of the
handler. -/
inductive Outcome where
  | httpError (msg : String) (code : Nat)
  | json (hashesHex : List (List Nat))
  | panicked
deriving DecidableEq

/-- The fixed message of both `http.Error` calls of `fetchPrefix`. -/
def badPrefixMsg : String := "prefix should be the first 6 characters of the SHA-1 password"

/-- The two table reads `s.addresses[pfx]` and `s.addresses[pfx+1]` of
`fetchPrefix`; `none` is the panic of an index out of range. -/
def lookupOffsets (addresses : List Nat) (pfx : Nat) : Option (Nat × Nat) :=
  match addresses[pfx]? with
  | none => none
  | some startOffset =>
    match addresses[pfx + 1]? with
    | none => none
    | some endOffset => some (startOffset, endOffset)

/-- The part of `fetchPrefix` after the prefix is parsed: look up the
offsets, read the records, encode them. -/
def fetchRange (s : Server) (pfx : Nat) : Outcome :=
  match lookupOffsets s.addresses pfx with
  | none => .panicked
  | some (startOffset, endOffset) =>
    let len := (endOffset + 2 ^ 32 - startOffset) % 2 ^ 32
    let hashes := ReadAt s.db (17 * len % 2 ^ 32) (4 * addrMapSize + startOffset * 17)
    match encodeLoop hashes len 0 with
    | none => .panicked
    | some hashesHex => .json hashesHex

/-- Method `Server.fetchPrefix` on the request parameter `prefixString`. -/
def fetchPrefix (s : Server) (prefixString : List Nat) : Outcome :=
  if prefixString.length ≠ 6 then .httpError badPrefixMsg 400
  else
    match ParseUint prefixString 16 32 with
    | none => .httpError badPrefixMsg 400
    | some pfx => fetchRange s pfx


/-! ### The lines that the scan loop receives -/

/-- The lines that `scanner.Scan()` yields to the loop body: the lines of the
source file that come before the first line of `maxTokenSize` bytes or
more. -/
def scanLines (corpus : List (List Nat)) : List (List Nat) :=
  corpus.takeWhile (fun line => decide (line.length < maxTokenSize))

/-- The loop body of `generateDB` run over lines that the scanner has
yielded, stopping at the first error. -/
def foldLines : GenState → List (List Nat) → Except GenError GenState
  | st, [] => .ok st
  | st, line :: rest =>
    match genStep st line with
    | .error e => .error e
    | .ok st1 => foldLines st1 rest

/-- The run of `generateDB` from the lines that its scanner yields: the loop
body over these lines, the final fill and the header. -/
def buildLines (lines : List (List Nat)) : Except GenError Database :=
  match foldLines genInit lines with
  | .error e => .error e
  | .ok st =>
    match fillLoop st.currentOffset (addrMapSize - 1) (st.previousPrefix + 1) st.addresses with
    | none => .error .indexOutOfRange
    | some addresses => .ok { addresses := addresses, records := st.written }

/-! ### Vocabulary of the specification -/

/-- Whether a byte is a hexadecimal digit (`0-9`, `a-f`, `A-F`). -/
def isHex (c : Nat) : Bool := (fromHexChar c).isSome

/-- Numeric value of a string of hexadecimal digits, most significant digit
first, starting from the accumulator `n`. -/
def hexFold (n : Nat) (s : List Nat) : Nat :=
  s.foldl (fun acc c => acc * 16 + (fromHexChar c).getD 0) n

/-- Numeric value of a string of hexadecimal digits. -/
def hexVal (s : List Nat) : Nat := hexFold 0 s

/-- A well-formed corpus line: at least 40 bytes, the first 40 of them
hexadecimal digits. -/
def lineOk (line : List Nat) : Bool := decide (40 ≤ line.length) && (line.take 40).all isHex

/-- The prefix of a line as a number: the value of its leading 6 hexadecimal
characters. -/
def pfxOf (line : List Nat) : Nat := hexVal (line.take 6)

/-- The suffix of a line as text: its characters 6 through 39. -/
def suffixOf (line : List Nat) : List Nat := (line.take 40).drop 6

/-- The suffix record of a line: the bytes that its characters 6 through 39
decode to. -/
def recordOf (line : List Nat) : List Nat := (Decode (suffixOf line)).getD []

/-- The hash of a line as a number: the value of its leading 40 hexadecimal
characters. -/
def hashOf (line : List Nat) : Nat := hexVal (line.take 40)

/-- A corpus sorted ascending by hash. -/
def SortedByHash (corpus : List (List Nat)) : Prop :=
  corpus.Pairwise (fun a b => hashOf a ≤ hashOf b)

/-- The prefix of the last line of a corpus, `0` for the empty corpus: the
value of `previousPrefix` when the scan loop ends. -/
def lastPfx (corpus : List (List Nat)) : Nat :=
  match corpus.getLast? with
  | none => 0
  | some line => pfxOf line

/-- Number of corpus lines whose prefix is below `p`. -/
def countBelow (corpus : List (List Nat)) (p : Nat) : Nat :=
  corpus.countP (fun line => decide (pfxOf line < p))

/-- The corpus lines whose prefix, as a number, is `p`, in corpus order. -/
def linesWith (corpus : List (List Nat)) (p : Nat) : List (List Nat) :=
  corpus.filter (fun line => decide (pfxOf line = p))

/-- Lower-case form of one character of a hexadecimal string: `A-F` become
`a-f`, everything else is kept. -/
def lowerHex (c : Nat) : Nat := if 65 ≤ c ∧ c ≤ 70 then c + 32 else c

/-- A corpus without duplicate hashes. -/
def NoDupHash (corpus : List (List Nat)) : Prop :=
  corpus.Pairwise (fun a b => hashOf a ≠ hashOf b)

/-- A corpus line with prefix `000000` and a suffix of 34 zeros. -/
def lineZero : List Nat := ascii "0000000000000000000000000000000000000000"

/-- A corpus line with prefix `000001` and a suffix of 34 zeros. -/
def lineOne : List Nat := ascii "0000010000000000000000000000000000000000"

/-- A corpus line with prefix `000001` and a suffix of 34 times `f`. -/
def lineOneF : List Nat := ascii "000001ffffffffffffffffffffffffffffffffff"

/-- A corpus line in upper case, prefix `000000` and a suffix of 34 times
`A`. -/
def lineUpper : List Nat := ascii "000000AAAAAAAAAAAAAAAAAAAAAAAAAAAAAAAAAA"

/-- A corpus line whose prefix is written in upper case, `ABCDEF`, with a
suffix of 34 zeros. -/
def lineUpperPfx : List Nat := ascii "ABCDEF0000000000000000000000000000000000"

/-- The `w` hexadecimal digits, in lower case, of `i` modulo `16^w`. -/
def toHex : Nat → Nat → List Nat
  | 0, _ => []
  | w + 1, i => toHex w (i / 16) ++ [hextable.getD (i % 16) 0]

/-- The corpus line with prefix `000000` whose suffix is the number `i`
written with 34 hexadecimal digits. -/
def hexLine (i : Nat) : List Nat := ascii "000000" ++ toHex 34 i

/-- The number of lines at which the `uint32` record counter of `generateDB`
is back at zero. -/
def wrapCount : Nat := 2 ^ 32

/-- The least number of records `count` for which the product `17*count`
does not fit 32 bits. -/
def fullCount : Nat := 252645136

/-- The three lines of the concrete scenario, as written: 38, 38 and 40
characters. -/
def scenarioCorpus : List (List Nat) :=
  [ascii "00000000000000000000000000000000000000", ascii "00000100000000000000000000000000000000",
    ascii "fffffe0000000000000000000000000000000000"]

/-- The scenario with its first two lines completed by zeros to 40
characters. -/
def paddedCorpus : List (List Nat) :=
  [ascii "0000000000000000000000000000000000000000", ascii "0000010000000000000000000000000000000000",
    ascii "fffffe0000000000000000000000000000000000"]

/-- A corpus line with prefix `000000` and a suffix of 34 times `f`. -/
def lineZeroF : List Nat := ascii "000000ffffffffffffffffffffffffffffffffff"

/-- A corpus line with prefix `000002` and a suffix of 34 zeros. -/
def lineTwo : List Nat := ascii "0000020000000000000000000000000000000000"

/-- The line `lineOne` followed by zeros up to `maxTokenSize` bytes: the
shortest line with the first 40 characters of `lineOne` that does not fit the
buffer of the scanner. -/
def lineOneLong : List Nat := lineOne ++ List.replicate (maxTokenSize - 40) 48

/-- A corpus of three lines, sorted ascending by hash and without duplicate
hashes, whose second line does not fit the buffer of the scanner. -/
def longCorpus : List (List Nat) := [lineZero, lineOneLong, lineTwo]

/-- A character of a lower-case hexadecimal string: `0-9` or `a-f`. -/
def isLowerHexChar (c : Nat) : Bool := decide ((48 ≤ c ∧ c ≤ 57) ∨ (97 ≤ c ∧ c ≤ 102))

/-- Byte-wise lexicographic order of two strings, `a <= b`: the order of
string comparison. -/
def lexLe : List Nat → List Nat → Bool
  | [], _ => true
  | _ :: _, [] => false
  | a :: as, b :: bs => decide (a < b) || (decide (a = b) && lexLe as bs)

/-- The local variables of `generateDB` with the two that serve the progress
report, `timerTime` and `timerOffset`; `reads` counts the readings of the
clock taken so far and `log` holds the pairs printed by
`log.Printf("Parsed %d hashes, total: %d", ..)`. -/
structure TimedState where
  gen : GenState
  reads : Nat
  timerTime : Int
  timerOffset : Nat
  log : List (Nat × Nat)

/-- The state before the first line when the clock is read: `timerTime :=
time.Now()` is the reading number 0, `timerOffset := currentOffset`. -/
def timedInit (clock : Nat → Int) : TimedState :=
  { gen := genInit, reads := 1, timerTime := clock 0, timerOffset := 0, log := [] }

/-- The body of the scan loop with its last block, the progress report:
`time.Since(timerTime)` is one reading of the clock, in nanoseconds, compared
with `10*time.Second`; when it is larger a line is logged, `timerOffset` is
reset and `time.Now()` is read once more. -/
def timedStep (clock : Nat → Int) (ts : TimedState) (line : List Nat) :
    Except GenError TimedState :=
  match genStep ts.gen line with
  | .error e => .error e
  | .ok st =>
    if clock ts.reads - ts.timerTime > 10 * 1000000000 then
      .ok { gen := st
            reads := ts.reads + 2
            timerTime := clock (ts.reads + 1)
            timerOffset := st.currentOffset
            log := ts.log ++ [((st.currentOffset + 2 ^ 32 - ts.timerOffset) % 2 ^ 32,
              st.currentOffset)] }
    else
      .ok { gen := st
            reads := ts.reads + 1
            timerTime := ts.timerTime
            timerOffset := ts.timerOffset
            log := ts.log }

/-- The scan loop with the progress report. -/
def timedLoop (clock : Nat → Int) : TimedState → List (List Nat) → Except GenError TimedState
  | ts, [] => .ok ts
  | ts, line :: rest =>
    if maxTokenSize ≤ line.length then .ok ts
    else
      match timedStep clock ts line with
      | .error e => .error e
      | .ok ts1 => timedLoop clock ts1 rest

/-- Function `generateDB` run against a clock: the database and the progress
lines that were logged. -/
def generateDBTimed (clock : Nat → Int) (corpus : List (List Nat)) :
    Except GenError (Database × List (Nat × Nat)) :=
  match timedLoop clock (timedInit clock) corpus with
  | .error e => .error e
  | .ok ts =>
    match fillLoop ts.gen.currentOffset (addrMapSize - 1) (ts.gen.previousPrefix + 1)
        ts.gen.addresses with
    | none => .error .indexOutOfRange
    | some addresses => .ok ({ addresses := addresses, records := ts.gen.written }, ts.log)

/-- The indices `k` of the assignments `addresses[k] = v` that the loop
`for k := lo; k <= hi; k++` executes, in order, on a table of `size` entries;
an index out of range is the last one (the assignment panics). -/
def fillWrites (size hi : Nat) (k : Nat) : List Nat :=
  if k ≤ hi then k :: (if k < size then fillWrites size hi (k + 1) else []) else []
termination_by hi + 1 - k

/-- The table indices assigned while `generateDB` handles one line. -/
def genStepWrites (st : GenState) (line : List Nat) : List Nat :=
  if line.length < 40 then []
  else
    match ParseUintBytes (line.take 6) 16 32 with
    | none => []
    | some pfx =>
      if pfx ≠ st.previousPrefix then
        fillWrites st.addresses.length pfx (st.previousPrefix + 1)
      else []

/-- The table indices assigned during the scan loop, up to its end or to the
line that stops it. -/
def genLoopWrites : GenState → List (List Nat) → List Nat
  | _, [] => []
  | st, line :: rest =>
    if maxTokenSize ≤ line.length then []
    else
      genStepWrites st line ++
        (match genStep st line with
        | .error _ => []
        | .ok st1 => genLoopWrites st1 rest)

/-- All the table indices that `generateDB` assigns: those of the scan loop,
then those of the final fill loop when the scan loop ends without error. -/
def generateDBWrites (corpus : List (List Nat)) : List Nat :=
  genLoopWrites genInit corpus ++
    (match genLoop genInit corpus with
    | .error _ => []
    | .ok st => fillWrites st.addresses.length (addrMapSize - 1) (st.previousPrefix + 1))

/-- What `generateDB` reads of a line: whether it is shorter than 40 bytes,
the parse of its first 6 bytes, the decoding of its bytes 6 through 39. -/
def lineView (line : List Nat) : Bool × Option Nat × Option (List Nat) :=
  (decide (line.length < 40), ParseUintBytes (line.take 6) 16 32,
    Decode ((line.take 40).drop 6))

/-- Which of its exits stopped `generateDB`: 0, 1, 2 for the three error
returns in source order, 3 for the panic. -/
def GenError.kind : GenError → Nat
  | .parseLine _ => 0
  | .parsePrefix _ => 1
  | .decodeHash _ => 2
  | .indexOutOfRange => 3

/-- Where and how the loop body stops early on lines that the scanner has
yielded: the index of the line at which the body fails, counted from the
current line, with the kind of the failure; `none` when the body never
fails. -/
def foldFail : GenState → List (List Nat) → Option (Nat × Nat)
  | _, [] => none
  | st, line :: rest =>
    match genStep st line with
    | .error e => some (0, e.kind)
    | .ok st1 =>
      match foldFail st1 rest with
      | none => none
      | some (i, k) => some (i + 1, k)

/-- The line `lineUpperPfx` with its letters in lower case: the prefix
`abcdef` and a suffix of 34 zeros. -/
def lineLowerPfx : List Nat := ascii "abcdef0000000000000000000000000000000000"

/-! ## Theorems -/

/-! ### Hexadecimal digits and numbers -/

theorem fromHexChar_lt {c v : Nat} (h : fromHexChar c = some v) : v < 16 := by
  unfold fromHexChar at h
  split_ifs at h <;> simp at h <;> omega

theorem digitVal_of_fromHexChar {c v : Nat} (h : fromHexChar c = some v) : digitVal c = some v := by
  unfold fromHexChar at h
  unfold digitVal
  split_ifs at h with h1 h2 h3 <;> simp at h
  · simp [h1, h]
  · have : ¬ (48 ≤ c ∧ c ≤ 57) := h1
    have h4 : 97 ≤ c ∧ c ≤ 122 := ⟨h2.1, by omega⟩
    simp [h1, h4, h]
  · have h4 : ¬ (97 ≤ c ∧ c ≤ 122) := by omega
    have h5 : 65 ≤ c ∧ c ≤ 90 := ⟨h3.1, by omega⟩
    simp [h1, h4, h5, h]

theorem digitVal_ge_of_not_hex {c v : Nat} (h : fromHexChar c = none) (hv : digitVal c = some v) :
    16 ≤ v := by
  unfold fromHexChar at h
  unfold digitVal at hv
  split_ifs at h with h1 h2 h3
  split_ifs at hv with h4 h5 <;> simp at hv <;> omega

theorem isHex_iff {c : Nat} : isHex c = true ↔ ∃ v, fromHexChar c = some v := by
  simp [isHex, Option.isSome_iff_exists]

theorem hexFold_cons (n c : Nat) (s : List Nat) :
    hexFold n (c :: s) = hexFold (n * 16 + (fromHexChar c).getD 0) s := rfl

theorem hexFold_append (n : Nat) (s t : List Nat) :
    hexFold n (s ++ t) = hexFold (hexFold n s) t := by
  simp [hexFold, List.foldl_append]

theorem le_hexFold (n : Nat) (s : List Nat) : n ≤ hexFold n s := by
  induction s generalizing n with
  | nil => simp [hexFold]
  | cons c s ih =>
    rw [hexFold_cons]
    have := ih (n * 16 + (fromHexChar c).getD 0)
    omega

theorem hexFold_eq (n : Nat) (s : List Nat) :
    hexFold n s = n * 16 ^ s.length + hexFold 0 s := by
  induction s generalizing n with
  | nil => simp [hexFold]
  | cons c s ih =>
    rw [hexFold_cons, hexFold_cons, ih, ih (0 * 16 + _), List.length_cons, pow_succ]
    ring

theorem hexFold_zero_lt (s : List Nat) (hs : ∀ c ∈ s, isHex c = true) :
    hexFold 0 s < 16 ^ s.length := by
  induction s using List.reverseRecOn with
  | nil => simp [hexFold]
  | append_singleton s c ih =>
    have hc : isHex c = true := hs c (by simp)
    obtain ⟨v, hv⟩ := isHex_iff.1 hc
    have hv16 := fromHexChar_lt hv
    have ih1 := ih (fun d hd => hs d (by simp [hd]))
    rw [hexFold_append, hexFold_cons]
    simp only [hexFold, List.foldl_nil, hv, Option.getD_some, List.length_append,
      List.length_singleton, pow_succ]
    have : List.foldl (fun acc c => acc * 16 + (fromHexChar c).getD 0) 0 s = hexFold 0 s := rfl
    rw [this]
    omega

theorem hexVal_lt (s : List Nat) (hs : ∀ c ∈ s, isHex c = true) : hexVal s < 16 ^ s.length :=
  hexFold_zero_lt s hs

/-- The digit loop on hexadecimal digits whose value fits 32 bits. -/
theorem parseLoop_hex (ds : List Nat) (n : Nat) (hs : ∀ c ∈ ds, isHex c = true)
    (hfit : hexFold n ds < 2 ^ 32) :
    parseLoop 16 (2 ^ 32 - 1) ((2 ^ 64 - 1) / 16 + 1) ds n = some (hexFold n ds) := by
  induction ds generalizing n with
  | nil => simp [parseLoop, hexFold]
  | cons d ds ih =>
    obtain ⟨v, hv⟩ := isHex_iff.1 (hs d (by simp))
    have hv16 := fromHexChar_lt hv
    rw [hexFold_cons, hv] at hfit
    simp only [Option.getD_some] at hfit
    have hle := le_hexFold (n * 16 + v) ds
    have ih1 := ih (n * 16 + v) (fun c hc => hs c (by simp [hc])) hfit
    rw [hexFold_cons, hv]
    simp only [Option.getD_some]
    rw [← ih1]
    have hmod : (n * 16 + v) % 2 ^ 64 = n * 16 + v := Nat.mod_eq_of_lt (by omega)
    simp only [parseLoop, digitVal_of_fromHexChar hv, hmod]
    have h1 : ¬ (v ≥ 16) := by omega
    have h2 : ¬ (n ≥ (2 ^ 64 - 1) / 16 + 1) := by
      norm_num
      omega
    have h3 : ¬ (n * 16 + v < n * 16 ∨ n * 16 + v > 2 ^ 32 - 1) := by omega
    simp only [h1, h2, h3, if_false]

/-- The digit loop fails as soon as one byte is not a hexadecimal digit. -/
theorem parseLoop_not_hex (ds : List Nat) (n : Nat) (hs : ∃ c ∈ ds, isHex c = false) (m c : Nat) :
    parseLoop 16 m c ds n = none := by
  induction ds generalizing n with
  | nil => simp at hs
  | cons d ds ih =>
    simp only [parseLoop]
    cases hd : digitVal d with
    | none => rfl
    | some v =>
      simp only
      by_cases hx : isHex d = true
      · have hrest : ∃ c ∈ ds, isHex c = false := by
          obtain ⟨c, hc, hcx⟩ := hs
          rcases List.mem_cons.1 hc with rfl | hc
          · simp [hx] at hcx
          · exact ⟨c, hc, hcx⟩
        split_ifs
        · rfl
        · rfl
        · rfl
        · exact ih _ hrest
      · have hnone : fromHexChar d = none := by
          simpa [isHex] using hx
        have := digitVal_ge_of_not_hex hnone hd
        simp [this]

/-- On six bytes `ParseUintBytes(s, 16, 32)` succeeds exactly on six
hexadecimal digits, with their value. -/
theorem ParseUintBytes_six (s : List Nat) (hlen : s.length = 6) :
    ParseUintBytes s 16 32 = if s.all isHex then some (hexVal s) else none := by
  unfold ParseUintBytes
  have h0 : ¬ s.length < 1 := by omega
  simp only [h0, if_false]
  by_cases hall : s.all isHex = true
  · have hs : ∀ c ∈ s, isHex c = true := List.all_eq_true.1 hall
    have hlt := hexVal_lt s hs
    rw [hlen] at hlt
    simp only [hall, if_true]
    exact parseLoop_hex s 0 hs (by unfold hexVal at hlt; omega)
  · simp only [hall]
    apply parseLoop_not_hex
    simpa using hall

theorem ParseUint_eq (s : List Nat) (b w : Nat) : ParseUint s b w = ParseUintBytes s b w := rfl

theorem hexVal_six_lt (s : List Nat) (hlen : s.length = 6) (hs : s.all isHex = true) :
    hexVal s < 2 ^ 24 := by
  have := hexVal_lt s (List.all_eq_true.1 hs)
  rw [hlen] at this
  omega


/-! ### Hexadecimal decoding -/

theorem pairInduction {P : List Nat → Prop} (h0 : P []) (h1 : ∀ x, P [x])
    (h2 : ∀ p q rest, P rest → P (p :: q :: rest)) : ∀ s, P s
  | [] => h0
  | [x] => h1 x
  | p :: q :: rest => h2 p q rest (pairInduction h0 h1 h2 rest)

theorem Decode_length (s : List Nat) : ∀ bs, Decode s = some bs → s.length = 2 * bs.length := by
  induction s using pairInduction with
  | h0 => intro bs h; simp [Decode] at h; subst h; rfl
  | h1 x => intro bs h; simp [Decode] at h
  | h2 p q rest ih =>
    intro bs h
    simp only [Decode] at h
    cases hp : fromHexChar p <;> cases hq : fromHexChar q <;> simp [hp, hq] at h
    cases hr : Decode rest with
    | none => simp [hr] at h
    | some cs =>
      simp [hr] at h
      subst h
      have := ih cs hr
      simp [this]
      omega

theorem Decode_isSome (s : List Nat) (heven : s.length % 2 = 0) (hs : ∀ c ∈ s, isHex c = true) :
    ∃ bs, Decode s = some bs := by
  induction s using pairInduction with
  | h0 => exact ⟨[], rfl⟩
  | h1 x => simp at heven
  | h2 p q rest ih =>
    obtain ⟨a, ha⟩ := isHex_iff.1 (hs p (by simp))
    obtain ⟨b, hb⟩ := isHex_iff.1 (hs q (by simp))
    obtain ⟨cs, hcs⟩ := ih (by simp at heven; omega) (fun c hc => hs c (by simp [hc]))
    exact ⟨(a * 16 + b) :: cs, by simp [Decode, ha, hb, hcs]⟩

theorem Decode_hex (s : List Nat) : ∀ bs, Decode s = some bs → ∀ c ∈ s, isHex c = true := by
  induction s using pairInduction with
  | h0 => intro bs _ c hc; simp at hc
  | h1 x => intro bs h; simp [Decode] at h
  | h2 p q rest ih =>
    intro bs h c hc
    simp only [Decode] at h
    cases hp : fromHexChar p <;> cases hq : fromHexChar q <;> simp [hp, hq] at h
    cases hr : Decode rest with
    | none => simp [hr] at h
    | some cs =>
      simp only [List.mem_cons] at hc
      rcases hc with rfl | rfl | hc
      · simp [isHex, hp]
      · simp [isHex, hq]
      · exact ih cs hr c hc

/-- On an even number of bytes `hex.Decode` fails exactly when some byte is
not a hexadecimal digit. -/
theorem Decode_eq_none_iff (s : List Nat) (heven : s.length % 2 = 0) :
    Decode s = none ↔ ∃ c ∈ s, isHex c = false := by
  constructor
  · intro h
    by_contra hcon
    push_neg at hcon
    obtain ⟨bs, hbs⟩ := Decode_isSome s heven (fun c hc => by simpa using hcon c hc)
    simp [hbs] at h
  · rintro ⟨c, hc, hx⟩
    cases h : Decode s with
    | none => rfl
    | some bs =>
      have := Decode_hex s bs h c hc
      simp [this] at hx

/-! ### The fill loop -/

theorem fillLoop_spec (v hi : Nat) (m : Nat) : ∀ (k : Nat) (a : List Nat), hi + 1 - k = m →
    hi < a.length →
    ∃ r, fillLoop v hi k a = some r ∧ r.length = a.length ∧
      ∀ i, r[i]? = if k ≤ i ∧ i ≤ hi then some v else a[i]? := by
  induction m with
  | zero =>
    intro k a hm _
    refine ⟨a, ?_, rfl, ?_⟩
    · rw [fillLoop]; simp; omega
    · intro i
      have : ¬ (k ≤ i ∧ i ≤ hi) := by omega
      simp [this]
  | succ m ih =>
    intro k a hm hlen
    have hk : k ≤ hi := by omega
    have hka : k < a.length := by omega
    obtain ⟨r, hr, hrl, hri⟩ := ih (k + 1) (a.set k v) (by omega) (by simpa using hlen)
    refine ⟨r, ?_, by simpa using hrl, ?_⟩
    · rw [fillLoop]; simp [hk, hka, hr]
    · intro i
      rw [hri i, List.getElem?_set]
      by_cases h1 : k + 1 ≤ i ∧ i ≤ hi
      · have : k ≤ i ∧ i ≤ hi := by omega
        simp [h1, this]
      · by_cases h2 : k = i
        · subst h2
          simp [hk, hka]
        · have : ¬ (k ≤ i ∧ i ≤ hi) := by omega
          simp [h1, h2, this]

/-- The fill loop on a table that holds slot `hi`: it returns, the length is
kept, and exactly the slots `k..hi` are set to `v`. -/
theorem fillLoop_ok (v hi k : Nat) (a : List Nat) (h : hi < a.length) :
    ∃ r, fillLoop v hi k a = some r ∧ r.length = a.length ∧
      ∀ i, r[i]? = if k ≤ i ∧ i ≤ hi then some v else a[i]? :=
  fillLoop_spec v hi (hi + 1 - k) k a rfl h


/-! ### One line of the corpus -/

theorem lineOk_iff (line : List Nat) :
    lineOk line = true ↔ 40 ≤ line.length ∧ ∀ c ∈ line.take 40, isHex c = true := by
  simp [lineOk, List.all_eq_true]

theorem take6_hex {line : List Nat} (h : lineOk line = true) :
    (line.take 6).length = 6 ∧ (line.take 6).all isHex = true := by
  obtain ⟨hlen, hhex⟩ := (lineOk_iff line).1 h
  refine ⟨by simp; omega, ?_⟩
  rw [List.all_eq_true]
  intro c hc
  apply hhex
  have : line.take 6 = (line.take 40).take 6 := by simp [List.take_take]
  rw [this] at hc
  exact List.mem_of_mem_take hc

theorem suffixOf_hex {line : List Nat} (h : lineOk line = true) :
    (suffixOf line).length = 34 ∧ ∀ c ∈ suffixOf line, isHex c = true := by
  obtain ⟨hlen, hhex⟩ := (lineOk_iff line).1 h
  refine ⟨by simp [suffixOf]; omega, ?_⟩
  intro c hc
  exact hhex c (List.mem_of_mem_drop hc)

theorem pfxOf_lt {line : List Nat} (h : lineOk line = true) : pfxOf line < 2 ^ 24 :=
  hexVal_six_lt _ (take6_hex h).1 (take6_hex h).2

theorem parse_pfx {line : List Nat} (h : lineOk line = true) :
    ParseUintBytes (line.take 6) 16 32 = some (pfxOf line) := by
  rw [ParseUintBytes_six _ (take6_hex h).1, (take6_hex h).2]
  rfl

theorem decode_suffix {line : List Nat} (h : lineOk line = true) :
    Decode (suffixOf line) = some (recordOf line) ∧ (recordOf line).length = 17 := by
  obtain ⟨hlen, hhex⟩ := suffixOf_hex h
  obtain ⟨bs, hbs⟩ := Decode_isSome (suffixOf line) (by omega) hhex
  have hl := Decode_length _ bs hbs
  simp only [recordOf, hbs, Option.getD_some, true_and]
  omega

theorem addrMapSize_eq : addrMapSize = 16777217 := rfl

/-- A line fails the checks of `buildLines` exactly when it is shorter than
40 bytes, or its first 6 bytes do not parse, or its bytes 6 through 39 are not
all hexadecimal digits. -/
theorem lineOk_eq_false_iff (line : List Nat) :
    lineOk line = false ↔
      (line.length < 40 ∨ ParseUintBytes (line.take 6) 16 32 = none ∨
        ∃ c ∈ suffixOf line, isHex c = false) := by
  constructor
  · intro h
    by_contra hcon
    push_neg at hcon
    obtain ⟨h1, h2, h3⟩ := hcon
    have h6 : (line.take 6).length = 6 := by simp; omega
    rw [ParseUintBytes_six _ h6] at h2
    have h2a : (line.take 6).all isHex = true := by
      by_contra hx
      simp [hx] at h2
    have : lineOk line = true := by
      rw [lineOk_iff]
      refine ⟨h1, ?_⟩
      intro c hc
      have hsplit : line.take 40 = line.take 6 ++ suffixOf line := by
        have : line.take 6 = (line.take 40).take 6 := by simp [List.take_take]
        rw [this, suffixOf, List.take_append_drop]
      rw [hsplit, List.mem_append] at hc
      rcases hc with hc | hc
      · exact List.all_eq_true.1 h2a c hc
      · simpa using h3 c hc
    simp [this] at h
  · intro h
    by_contra hcon
    have hok : lineOk line = true := by simpa using hcon
    rcases h with h | h | ⟨c, hc, hx⟩
    · have := ((lineOk_iff line).1 hok).1
      omega
    · rw [parse_pfx hok] at h
      simp at h
    · have := (suffixOf_hex hok).2 c hc
      simp [this] at hx

/-- One well-formed line: the loop body returns a new state, given in closed
form. -/
theorem genStep_ok (st : GenState) (line : List Nat) (hlen : st.addresses.length = addrMapSize)
    (hok : lineOk line = true) :
    ∃ st1, genStep st line = .ok st1 ∧ st1.addresses.length = addrMapSize ∧
      st1.currentOffset = (st.currentOffset + 1) % 2 ^ 32 ∧
      st1.previousPrefix = pfxOf line ∧
      st1.written = st.written ++ recordOf line ∧
      ∀ i, st1.addresses[i]? =
        if st.previousPrefix < i ∧ i ≤ pfxOf line then some st.currentOffset
        else st.addresses[i]? := by
  have h40 : ¬ line.length < 40 := by
    have := ((lineOk_iff line).1 hok).1
    omega
  have hp := pfxOf_lt hok
  have hd := (decode_suffix hok).1
  unfold suffixOf at hd
  by_cases hne : pfxOf line = st.previousPrefix
  · refine ⟨{ addresses := st.addresses, currentOffset := (st.currentOffset + 1) % 2 ^ 32,
              previousPrefix := st.previousPrefix, written := st.written ++ recordOf line },
      ?_, hlen, rfl, hne.symm, rfl, ?_⟩
    · simp [genStep, h40, parse_pfx hok, hne, hd]
    · intro i
      have : ¬ (st.previousPrefix < i ∧ i ≤ pfxOf line) := by omega
      simp [this]
  · obtain ⟨r, hr, hrl, hri⟩ := fillLoop_ok st.currentOffset (pfxOf line) (st.previousPrefix + 1)
      st.addresses (by rw [hlen, addrMapSize_eq]; omega)
    refine ⟨{ addresses := r, currentOffset := (st.currentOffset + 1) % 2 ^ 32,
              previousPrefix := pfxOf line, written := st.written ++ recordOf line },
      ?_, by simpa [hlen] using hrl, rfl, rfl, rfl, ?_⟩
    · simp [genStep, h40, parse_pfx hok, hne, hd, hr]
    · intro i
      simpa [Nat.succ_le_iff] using hri i

/-- One malformed line: the loop body returns one of the three errors, which
quotes the line; it does not panic. -/
theorem genStep_bad (st : GenState) (line : List Nat) (hlen : st.addresses.length = addrMapSize)
    (hbad : lineOk line = false) :
    genStep st line = .error (.parseLine line) ∨ genStep st line = .error (.parsePrefix line) ∨
      genStep st line = .error (.decodeHash line) := by
  by_cases h40 : line.length < 40
  · left
    simp [genStep, h40]
  · have h6 : (line.take 6).length = 6 := by simp; omega
    cases hp : ParseUintBytes (line.take 6) 16 32 with
    | none =>
      right; left
      simp [genStep, h40, hp]
    | some pfx =>
      right; right
      have hpx := hp
      rw [ParseUintBytes_six _ h6] at hpx
      have hall : (line.take 6).all isHex = true := by
        by_contra hx
        simp [hx] at hpx
      simp only [hall, if_true, Option.some.injEq] at hpx
      have hlt : pfx < 2 ^ 24 := hpx ▸ hexVal_six_lt _ h6 hall
      have hdec : Decode ((line.take 40).drop 6) = none := by
        have hs : (suffixOf line).length = 34 := by simp [suffixOf]; omega
        rw [← suffixOf, Decode_eq_none_iff _ (by omega)]
        rcases (lineOk_eq_false_iff line).1 hbad with h | h | h
        · omega
        · simp [hp] at h
        · exact h
      by_cases hne : pfx = st.previousPrefix
      · simp [genStep, h40, hp, hne, hdec]
      · obtain ⟨r, hr, -, -⟩ := fillLoop_ok st.currentOffset pfx (st.previousPrefix + 1)
          st.addresses (by rw [hlen, addrMapSize_eq]; omega)
        simp [genStep, h40, hp, hne, hdec, hr]

theorem foldLines_append (st : GenState) (xs ys : List (List Nat)) :
    foldLines st (xs ++ ys) =
      match foldLines st xs with
      | .error e => .error e
      | .ok st1 => foldLines st1 ys := by
  induction xs generalizing st with
  | nil => simp [foldLines]
  | cons x xs ih =>
    simp only [List.cons_append, foldLines]
    cases genStep st x with
    | error e => rfl
    | ok st1 => exact ih st1


/-! ### The scan loop -/

theorem lastPfx_nil : lastPfx [] = 0 := rfl

theorem lastPfx_snoc (ls : List (List Nat)) (l : List Nat) : lastPfx (ls ++ [l]) = pfxOf l := by
  simp [lastPfx]

theorem genInit_length : genInit.addresses.length = addrMapSize := by
  simp only [genInit, List.length_replicate]

theorem genInit_get (k : Nat) (hk : k < addrMapSize) : genInit.addresses[k]? = some 0 := by
  simp only [genInit, List.getElem?_replicate, hk, if_true]

theorem addrMapSize_pos : 0 < addrMapSize := by
  rw [addrMapSize_eq]
  omega

/-- The scan loop on well-formed lines returns a state, whose scalar fields
are known in closed form. -/
theorem foldLines_run (corpus : List (List Nat)) (hok : ∀ l ∈ corpus, lineOk l = true) :
    ∃ st, foldLines genInit corpus = .ok st ∧ st.addresses.length = addrMapSize ∧
      st.currentOffset = corpus.length % 2 ^ 32 ∧
      st.previousPrefix = lastPfx corpus ∧
      st.written = (corpus.map recordOf).flatten ∧
      st.previousPrefix < 2 ^ 24 := by
  induction corpus using List.reverseRecOn with
  | nil =>
    refine ⟨genInit, rfl, genInit_length, rfl, rfl, rfl, ?_⟩
    show 0 < 2 ^ 24
    omega
  | append_singleton ls l ih =>
    obtain ⟨st0, h0, hlen, hcur, hprev, hwr, -⟩ := ih (fun a ha => hok a (by simp [ha]))
    have hl : lineOk l = true := hok l (by simp)
    obtain ⟨st1, h1, hlen1, hcur1, hprev1, hwr1, -⟩ := genStep_ok st0 l hlen hl
    refine ⟨st1, ?_, hlen1, ?_, ?_, ?_, ?_⟩
    · rw [foldLines_append, h0]
      simp [foldLines, h1]
    · rw [hcur1, hcur]
      simp [Nat.add_mod]
    · rw [hprev1, lastPfx_snoc]
    · rw [hwr1, hwr]
      simp
    · rw [hprev1]
      exact pfxOf_lt hl

/-- The state after `ls ++ [l]` is the state after `ls` advanced by `l`. -/
theorem foldLines_snoc (ls : List (List Nat)) (l : List Nat) (st : GenState)
    (h : foldLines genInit (ls ++ [l]) = .ok st) :
    ∃ st0, foldLines genInit ls = .ok st0 ∧ genStep st0 l = .ok st := by
  rw [foldLines_append] at h
  cases h0 : foldLines genInit ls with
  | error e => simp [h0] at h
  | ok st0 =>
    refine ⟨st0, rfl, ?_⟩
    simp only [h0, foldLines] at h
    cases h1 : genStep st0 l with
    | error e => simp [h1] at h
    | ok st1 =>
      simp only [h1] at h
      exact h

theorem first_bad (corpus : List (List Nat)) (h : ∃ l ∈ corpus, lineOk l = false) :
    ∃ xs bad ys, corpus = xs ++ bad :: ys ∧ (∀ l ∈ xs, lineOk l = true) ∧ lineOk bad = false := by
  induction corpus with
  | nil => simp at h
  | cons x rest ih =>
    by_cases hx : lineOk x = true
    · have hrest : ∃ l ∈ rest, lineOk l = false := by
        obtain ⟨l, hl, hbad⟩ := h
        rcases List.mem_cons.1 hl with rfl | hl
        · simp [hx] at hbad
        · exact ⟨l, hl, hbad⟩
      obtain ⟨xs, bad, ys, heq, hxs, hbad⟩ := ih hrest
      refine ⟨x :: xs, bad, ys, by simp [heq], ?_, hbad⟩
      intro l hl
      rcases List.mem_cons.1 hl with rfl | hl
      · exact hx
      · exact hxs l hl
    · exact ⟨[], x, rest, rfl, by simp, by simpa using hx⟩

/-- The scan loop stops at the first malformed line with one of the three
errors, quoting that line. -/
theorem foldLines_bad (xs ys : List (List Nat)) (bad : List Nat)
    (hxs : ∀ l ∈ xs, lineOk l = true) (hbad : lineOk bad = false) :
    foldLines genInit (xs ++ bad :: ys) = .error (.parseLine bad) ∨
      foldLines genInit (xs ++ bad :: ys) = .error (.parsePrefix bad) ∨
      foldLines genInit (xs ++ bad :: ys) = .error (.decodeHash bad) := by
  obtain ⟨st0, h0, hlen, -⟩ := foldLines_run xs hxs
  rw [foldLines_append, h0]
  simp only [foldLines]
  rcases genStep_bad st0 bad hlen hbad with h | h | h <;> simp [h]

/-- A scan loop that returns a state has seen only well-formed lines. -/
theorem foldLines_lines_ok (corpus : List (List Nat)) (st : GenState)
    (h : foldLines genInit corpus = .ok st) : ∀ l ∈ corpus, lineOk l = true := by
  by_contra hcon
  push_neg at hcon
  obtain ⟨xs, bad, ys, heq, hxs, hbad⟩ := first_bad corpus (by simpa using hcon)
  subst heq
  rcases foldLines_bad xs ys bad hxs hbad with h1 | h1 | h1 <;> simp [h1] at h

/-- On a corpus whose prefixes never decrease, every slot up to
`previousPrefix` holds the number of lines seen with a smaller prefix,
reduced modulo `2^32`. -/
theorem foldLines_sorted (corpus : List (List Nat))
    (hsorted : corpus.Pairwise (fun a b => pfxOf a ≤ pfxOf b)) :
    ∀ st, foldLines genInit corpus = .ok st →
      (∀ a ∈ corpus, pfxOf a ≤ st.previousPrefix) ∧
      ∀ k, k ≤ st.previousPrefix → st.addresses[k]? = some (countBelow corpus k % 2 ^ 32) := by
  induction corpus using List.reverseRecOn with
  | nil =>
    intro st h
    simp only [foldLines, Except.ok.injEq] at h
    subst h
    refine ⟨by simp, ?_⟩
    intro k hk
    have hk0 : k = 0 := Nat.le_zero.1 hk
    subst hk0
    rw [genInit_get 0 addrMapSize_pos]
    simp [countBelow]
  | append_singleton ls l ih =>
    intro st h
    have hok := foldLines_lines_ok _ st h
    obtain ⟨st0, h0, hstep⟩ := foldLines_snoc ls l st h
    rw [List.pairwise_append] at hsorted
    obtain ⟨hs_ls, -, hs_last⟩ := hsorted
    obtain ⟨hle0, htab0⟩ := ih hs_ls st0 h0
    obtain ⟨st0', h0', hlen, hcur, -⟩ := foldLines_run ls (fun a ha => hok a (by simp [ha]))
    rw [h0] at h0'
    cases h0'
    obtain ⟨st1, h1, -, -, hprev1, -, htab1⟩ := genStep_ok st0 l hlen (hok l (by simp))
    rw [hstep] at h1
    cases h1
    constructor
    · intro a ha
      rw [hprev1]
      rcases List.mem_append.1 ha with ha | ha
      · exact hs_last a ha l (by simp)
      · simp at ha
        subst ha
        exact le_refl _
    · intro k hk
      rw [hprev1] at hk
      have hnot : ¬ pfxOf l < k := by omega
      have hcount : countBelow (ls ++ [l]) k = countBelow ls k := by
        simp [countBelow, List.countP_append, List.countP_cons, hnot]
      rw [htab1 k, hcount]
      by_cases hk0 : st0.previousPrefix < k
      · have hall : countBelow ls k = ls.length := by
          unfold countBelow
          rw [List.countP_eq_length]
          intro a ha
          have := hle0 a ha
          simp
          omega
        simp [hk0, hk, hall, hcur]
      · have : ¬ (st0.previousPrefix < k ∧ k ≤ pfxOf l) := by omega
        simp only [this, if_false]
        exact htab0 k (by omega)


/-! ### The built database -/

theorem buildLines_ok_iff (corpus : List (List Nat)) (db : Database) :
    buildLines corpus = .ok db ↔
      ∃ st, foldLines genInit corpus = .ok st ∧
        fillLoop st.currentOffset (addrMapSize - 1) (st.previousPrefix + 1) st.addresses
          = some db.addresses ∧
        db.records = st.written := by
  cases h : foldLines genInit corpus with
  | error e => simp [buildLines, h]
  | ok st =>
    cases hf : fillLoop st.currentOffset (addrMapSize - 1) (st.previousPrefix + 1) st.addresses with
    | none => simp [buildLines, h, hf]
    | some r =>
      simp only [buildLines, h, hf, Except.ok.injEq, exists_eq_left', Option.some.injEq]
      constructor
      · intro hdb
        subst hdb
        exact ⟨rfl, rfl⟩
      · rintro ⟨h1, h2⟩
        cases db
        simp_all

/-- A build that succeeds has seen only well-formed lines. -/
theorem buildLines_lines_ok (corpus : List (List Nat)) (db : Database)
    (h : buildLines corpus = .ok db) : ∀ l ∈ corpus, lineOk l = true := by
  obtain ⟨st, hst, -⟩ := (buildLines_ok_iff corpus db).1 h
  exact foldLines_lines_ok corpus st hst

/-- A corpus of well-formed lines builds; the records are the decoded
suffixes in corpus order, and the table is the table of the scan loop with
the slots above the last prefix set to the record count modulo `2^32`. -/
theorem buildLines_run (corpus : List (List Nat)) (hok : ∀ l ∈ corpus, lineOk l = true) :
    ∃ db st, buildLines corpus = .ok db ∧ foldLines genInit corpus = .ok st ∧
      db.records = (corpus.map recordOf).flatten ∧
      db.addresses.length = addrMapSize ∧
      st.previousPrefix = lastPfx corpus ∧
      lastPfx corpus < 2 ^ 24 ∧
      ∀ i, db.addresses[i]? =
        if lastPfx corpus < i ∧ i ≤ 2 ^ 24 then some (corpus.length % 2 ^ 32)
        else st.addresses[i]? := by
  obtain ⟨st, hst, hlen, hcur, hprev, hwr, hlt⟩ := foldLines_run corpus hok
  obtain ⟨r, hr, hrl, hri⟩ := fillLoop_ok st.currentOffset (addrMapSize - 1)
    (st.previousPrefix + 1) st.addresses (by rw [hlen, addrMapSize_eq]; omega)
  refine ⟨{ addresses := r, records := st.written }, st, ?_, hst, hwr, by rw [hrl, hlen], hprev,
    hprev ▸ hlt, ?_⟩
  · rw [buildLines_ok_iff]
    exact ⟨st, hst, hr, rfl⟩
  · intro i
    rw [hri i, hcur, hprev]
    have : addrMapSize - 1 = 2 ^ 24 := by rw [addrMapSize_eq]; rfl
    rw [this]
    simp only [Nat.succ_le_iff]

/-- The table of a database built from a corpus whose prefixes never
decrease: slot `p` holds the number of lines with a prefix below `p`, modulo
`2^32`. -/
theorem buildLines_table (corpus : List (List Nat)) (db : Database)
    (h : buildLines corpus = .ok db)
    (hsorted : corpus.Pairwise (fun a b => pfxOf a ≤ pfxOf b)) (p : Nat) (hp : p ≤ 2 ^ 24) :
    db.addresses[p]? = some (countBelow corpus p % 2 ^ 32) := by
  obtain ⟨db1, st, hdb, hst, -, -, hprev, -, htab⟩ := buildLines_run corpus
    (buildLines_lines_ok corpus db h)
  rw [h] at hdb
  cases hdb
  obtain ⟨hle, hslots⟩ := foldLines_sorted corpus hsorted st hst
  rw [htab p]
  by_cases hlast : lastPfx corpus < p
  · have hall : countBelow corpus p = corpus.length := by
      unfold countBelow
      rw [List.countP_eq_length]
      intro a ha
      have := hle a ha
      simp
      omega
    rw [if_pos ⟨hlast, hp⟩, hall]
  · have : ¬ (lastPfx corpus < p ∧ p ≤ 2 ^ 24) := by omega
    simp only [this, if_false]
    exact hslots p (by omega)

/-- Without wrap-around of the record counter the table of the scan loop is
non-decreasing up to `previousPrefix` and bounded by the number of lines,
whatever the order of the lines. -/
theorem foldLines_mono (corpus : List (List Nat)) (hn : corpus.length < 2 ^ 32) :
    ∀ st : GenState, foldLines genInit corpus = .ok st →
      (∀ k : Nat, k < st.previousPrefix →
        st.addresses[k]?.getD 0 ≤ st.addresses[k + 1]?.getD 0) ∧
      ∀ k : Nat, st.addresses[k]?.getD 0 ≤ corpus.length := by
  induction corpus using List.reverseRecOn with
  | nil =>
    intro st h
    simp only [foldLines, Except.ok.injEq] at h
    subst h
    constructor
    · intro k hk
      exact absurd hk (Nat.not_lt_zero _)
    · intro k
      simp only [genInit, List.getElem?_replicate]
      split_ifs <;> simp
  | append_singleton ls l ih =>
    intro st h
    have hok := foldLines_lines_ok _ st h
    obtain ⟨st0, h0, hstep⟩ := foldLines_snoc ls l st h
    have hn0 : ls.length < 2 ^ 32 := by
      simp at hn
      omega
    obtain ⟨hmono0, hbound0⟩ := ih hn0 st0 h0
    obtain ⟨st0', h0', hlen, hcur, -⟩ := foldLines_run ls (fun a ha => hok a (by simp [ha]))
    rw [h0] at h0'
    cases h0'
    obtain ⟨st1, h1, -, -, hprev1, -, htab1⟩ := genStep_ok st0 l hlen (hok l (by simp))
    rw [hstep] at h1
    cases h1
    rw [Nat.mod_eq_of_lt hn0] at hcur
    have hget : ∀ i, st.addresses[i]?.getD 0 =
        if st0.previousPrefix < i ∧ i ≤ pfxOf l then ls.length else st0.addresses[i]?.getD 0 := by
      intro i
      rw [htab1 i, hcur]
      split_ifs <;> simp
    constructor
    · intro k hk
      rw [hprev1] at hk
      rw [hget k, hget (k + 1)]
      have hb := hbound0 k
      by_cases hk0 : st0.previousPrefix ≤ k
      · have : st0.previousPrefix < k + 1 ∧ k + 1 ≤ pfxOf l := by omega
        simp only [this, and_self, if_true]
        split_ifs <;> omega
      · have h2 : ¬ (st0.previousPrefix < k + 1 ∧ k + 1 ≤ pfxOf l) := by omega
        have h3 : ¬ (st0.previousPrefix < k ∧ k ≤ pfxOf l) := by omega
        simp only [h2, h3, if_false]
        exact hmono0 k (by omega)
    · intro k
      rw [hget k]
      have hb := hbound0 k
      simp only [List.length_append, List.length_singleton]
      split_ifs <;> omega

/-- Without wrap-around of the record counter the final table is
non-decreasing, whatever the order of the lines. -/
theorem buildLines_mono (corpus : List (List Nat)) (db : Database)
    (h : buildLines corpus = .ok db) (hn : corpus.length < 2 ^ 32) (k : Nat) (hk : k < 2 ^ 24) :
    db.addresses[k]?.getD 0 ≤ db.addresses[k + 1]?.getD 0 := by
  obtain ⟨db1, st, hdb, hst, -, -, hprev, -, htab⟩ := buildLines_run corpus
    (buildLines_lines_ok corpus db h)
  rw [h] at hdb
  cases hdb
  obtain ⟨hmono, hbound⟩ := foldLines_mono corpus hn st hst
  rw [Nat.mod_eq_of_lt hn] at htab
  have hget : ∀ i, db.addresses[i]?.getD 0 =
      if lastPfx corpus < i ∧ i ≤ 2 ^ 24 then corpus.length else st.addresses[i]?.getD 0 := by
    intro i
    rw [htab i]
    split_ifs <;> simp
  rw [hget k, hget (k + 1)]
  have hb := hbound k
  by_cases hk0 : lastPfx corpus ≤ k
  · have : lastPfx corpus < k + 1 ∧ k + 1 ≤ 2 ^ 24 := by omega
    simp only [this, and_self, if_true]
    split_ifs <;> omega
  · have h2 : ¬ (lastPfx corpus < k + 1 ∧ k + 1 ≤ 2 ^ 24) := by omega
    have h3 : ¬ (lastPfx corpus < k ∧ k ≤ 2 ^ 24) := by omega
    simp only [h2, h3, if_false]
    exact hmono k (by rw [hprev]; omega)

/-- The slots above the last prefix, the last slot among them, hold the
number of lines modulo `2^32`. -/
theorem buildLines_tail (corpus : List (List Nat)) (db : Database)
    (h : buildLines corpus = .ok db) (p : Nat) (hlo : lastPfx corpus < p) (hhi : p ≤ 2 ^ 24) :
    db.addresses[p]? = some (corpus.length % 2 ^ 32) := by
  obtain ⟨db1, st, hdb, hst, -, -, hprev, -, htab⟩ := buildLines_run corpus
    (buildLines_lines_ok corpus db h)
  rw [h] at hdb
  cases hdb
  rw [htab p, if_pos ⟨hlo, hhi⟩]


/-! ### The header: little-endian table -/

theorem encodeTable_length (vs : List Nat) : (encodeTable vs).length = 4 * vs.length := by
  induction vs with
  | nil => rfl
  | cons v vs ih =>
    simp only [encodeTable, putUint32, List.length_append, List.length_cons, List.length_nil, ih]
    omega

theorem decode_encodeTable (vs : List Nat) (h : ∀ v ∈ vs, v < 2 ^ 32) :
    decodeTable (encodeTable vs) = vs := by
  induction vs with
  | nil => rfl
  | cons v vs ih =>
    have hv : v < 2 ^ 32 := h v (by simp)
    have ih1 := ih (fun w hw => h w (by simp [hw]))
    show (v % 256 + 256 * (v / 256 % 256) + 65536 * (v / 65536 % 256)
      + 16777216 * (v / 16777216 % 256)) :: decodeTable (encodeTable vs) = v :: vs
    rw [ih1]
    congr 1
    omega

/-- Every entry of the table of the scan loop is a `uint32`. -/
theorem foldLines_u32 (corpus : List (List Nat)) :
    ∀ st : GenState, foldLines genInit corpus = .ok st →
      ∀ (k x : Nat), st.addresses[k]? = some x → x < 2 ^ 32 := by
  induction corpus using List.reverseRecOn with
  | nil =>
    intro st h
    simp only [foldLines, Except.ok.injEq] at h
    subst h
    intro k x hx
    simp only [genInit, List.getElem?_replicate] at hx
    split_ifs at hx
    simp only [Option.some.injEq] at hx
    omega
  | append_singleton ls l ih =>
    intro st h k x hx
    have hok := foldLines_lines_ok _ st h
    obtain ⟨st0, h0, hstep⟩ := foldLines_snoc ls l st h
    obtain ⟨st0', h0', hlen, hcur, -⟩ := foldLines_run ls (fun a ha => hok a (by simp [ha]))
    rw [h0] at h0'
    cases h0'
    obtain ⟨st1, h1, -, -, -, -, htab1⟩ := genStep_ok st0 l hlen (hok l (by simp))
    rw [hstep] at h1
    cases h1
    rw [htab1 k] at hx
    split_ifs at hx
    · simp only [Option.some.injEq] at hx
      rw [← hx, hcur]
      exact Nat.mod_lt _ (by omega)
    · exact ih st0 h0 k x hx

/-- Every entry of the final table is a `uint32`. -/
theorem buildLines_u32 (corpus : List (List Nat)) (db : Database)
    (h : buildLines corpus = .ok db) : ∀ v ∈ db.addresses, v < 2 ^ 32 := by
  obtain ⟨db1, st, hdb, hst, -, -, -, -, htab⟩ := buildLines_run corpus
    (buildLines_lines_ok corpus db h)
  rw [h] at hdb
  cases hdb
  intro v hv
  obtain ⟨k, hk⟩ := List.mem_iff_getElem?.1 hv
  rw [htab k] at hk
  split_ifs at hk
  · simp only [Option.some.injEq] at hk
    rw [← hk]
    exact Nat.mod_lt _ (by omega)
  · exact foldLines_u32 corpus st hst k v hk

theorem buildLines_length (corpus : List (List Nat)) (db : Database)
    (h : buildLines corpus = .ok db) : db.addresses.length = addrMapSize := by
  obtain ⟨db1, st, hdb, -, -, hlen, -⟩ := buildLines_run corpus (buildLines_lines_ok corpus db h)
  rw [h] at hdb
  cases hdb
  exact hlen

theorem buildLines_records (corpus : List (List Nat)) (db : Database)
    (h : buildLines corpus = .ok db) : db.records = (corpus.map recordOf).flatten := by
  obtain ⟨db1, st, hdb, -, hrec, -⟩ := buildLines_run corpus (buildLines_lines_ok corpus db h)
  rw [h] at hdb
  cases hdb
  exact hrec

/-- The server started on the file of a built database holds the table of
the builder. -/
theorem serve_file (corpus : List (List Nat)) (db : Database) (h : buildLines corpus = .ok db) :
    serve db.file = some { addresses := db.addresses, db := db.file } := by
  have hlen := buildLines_length corpus db h
  have henc : (encodeTable db.addresses).length = 4 * addrMapSize := by
    rw [encodeTable_length, hlen]
  have hnot : ¬ db.file.length < 4 * addrMapSize := by
    simp only [Database.file, List.length_append, henc]
    omega
  have htake : db.file.take (4 * addrMapSize) = encodeTable db.addresses := by
    rw [← henc]
    exact List.take_left _ _
  simp only [serve, hnot, if_false, htake, decode_encodeTable _ (buildLines_u32 corpus db h)]

/-! ### The scanner -/

theorem maxTokenSize_eq : maxTokenSize = 16777216 := rfl

theorem scanLines_cons_short (l : List Nat) (rest : List (List Nat))
    (h : l.length < maxTokenSize) : scanLines (l :: rest) = l :: scanLines rest := by
  simp [scanLines, List.takeWhile_cons, h]

theorem scanLines_cons_long (l : List Nat) (rest : List (List Nat))
    (h : maxTokenSize ≤ l.length) : scanLines (l :: rest) = [] := by
  have : ¬ l.length < maxTokenSize := by omega
  simp [scanLines, List.takeWhile_cons, this]

/-- The scan loop is the loop body run over the lines that the scanner
yields. -/
theorem genLoop_scan (corpus : List (List Nat)) :
    ∀ st, genLoop st corpus = foldLines st (scanLines corpus) := by
  induction corpus with
  | nil => intro st; rfl
  | cons l rest ih =>
    intro st
    rw [genLoop]
    by_cases h : maxTokenSize ≤ l.length
    · rw [if_pos h, scanLines_cons_long l rest h]
      rfl
    · rw [if_neg h, scanLines_cons_short l rest (by omega), foldLines]
      cases genStep st l with
      | error e => rfl
      | ok st1 => exact ih st1

theorem generateDB_scan (corpus : List (List Nat)) :
    generateDB corpus = buildLines (scanLines corpus) := by
  rw [generateDB, buildLines, genLoop_scan]

theorem scanLines_short (corpus : List (List Nat))
    (h : ∀ l ∈ corpus, l.length < maxTokenSize) : scanLines corpus = corpus := by
  induction corpus with
  | nil => rfl
  | cons l rest ih =>
    rw [scanLines_cons_short l rest (h l (by simp)), ih (fun x hx => h x (by simp [hx]))]

/-- On a corpus whose lines all fit the buffer of the scanner, `generateDB`
is the run on all the lines. -/
theorem generateDB_short (corpus : List (List Nat))
    (h : ∀ l ∈ corpus, l.length < maxTokenSize) : generateDB corpus = buildLines corpus := by
  rw [generateDB_scan, scanLines_short corpus h]

/-- The scanner stops at the first line that does not fit its buffer. -/
theorem scanLines_stop (xs ys : List (List Nat)) (long : List Nat)
    (hxs : ∀ l ∈ xs, l.length < maxTokenSize) (hlong : maxTokenSize ≤ long.length) :
    scanLines (xs ++ long :: ys) = xs := by
  induction xs with
  | nil => exact scanLines_cons_long long ys hlong
  | cons x xs ih =>
    rw [List.cons_append, scanLines_cons_short x _ (hxs x (by simp)),
      ih (fun l hl => hxs l (by simp [hl]))]

theorem scanLines_initial (corpus : List (List Nat)) : scanLines corpus <+: corpus :=
  List.takeWhile_prefix _

theorem scanLines_length_le (corpus : List (List Nat)) :
    (scanLines corpus).length ≤ corpus.length :=
  (scanLines_initial corpus).length_le

theorem scanLines_mem {corpus : List (List Nat)} {l : List Nat} (h : l ∈ scanLines corpus) :
    l ∈ corpus ∧ l.length < maxTokenSize := by
  refine ⟨(scanLines_initial corpus).subset h, ?_⟩
  have := List.mem_takeWhile_imp h
  simpa using this

theorem scanLines_get (corpus : List (List Nat)) (i : Nat) (l : List Nat)
    (h : (scanLines corpus)[i]? = some l) : corpus[i]? = some l := by
  obtain ⟨rest, hrest⟩ := scanLines_initial corpus
  have hi : i < (scanLines corpus).length := by
    by_contra hcon
    rw [List.getElem?_eq_none (by omega)] at h
    cases h
  rw [← hrest, List.getElem?_append_left hi]
  exact h

/-- The lines read of a build are well formed. -/
theorem generateDB_lines_ok (corpus : List (List Nat)) (db : Database)
    (h : generateDB corpus = .ok db) : ∀ l ∈ scanLines corpus, lineOk l = true := by
  rw [generateDB_scan] at h
  exact buildLines_lines_ok _ db h

/-- Two corpora whose corresponding lines are related, and fit the buffer or
not alike, give the scan loop lines that are related. -/
theorem scanLines_rel {R : List Nat → List Nat → Prop} (c1 c2 : List (List Nat))
    (h : List.Forall₂
      (fun a b => R a b ∧ (a.length < maxTokenSize ↔ b.length < maxTokenSize)) c1 c2) :
    List.Forall₂ R (scanLines c1) (scanLines c2) := by
  induction h with
  | nil => exact List.Forall₂.nil
  | @cons a b l1 l2 hab _ ih =>
    by_cases ha : a.length < maxTokenSize
    · rw [scanLines_cons_short a l1 ha, scanLines_cons_short b l2 (hab.2.1 ha)]
      exact List.Forall₂.cons hab.1 ih
    · have hb : ¬ b.length < maxTokenSize := fun hb => ha (hab.2.2 hb)
      rw [scanLines_cons_long a l1 (by omega), scanLines_cons_long b l2 (by omega)]
      exact List.Forall₂.nil

/-! ### A line that does not fit the buffer -/

theorem lineOneLong_length : lineOneLong.length = maxTokenSize := by
  have h : lineOne.length = 40 := by decide
  rw [lineOneLong, List.length_append, List.length_replicate, h, maxTokenSize_eq]

theorem lineOneLong_take : lineOneLong.take 40 = lineOne := by
  have h : lineOne.length = 40 := by decide
  have := List.take_left lineOne (List.replicate (maxTokenSize - 40) 48)
  rw [h] at this
  exact this

theorem lineOneLong_hash : hashOf lineOneLong = hashOf lineOne := by
  rw [hashOf, lineOneLong_take]
  decide

theorem lineOneLong_pfx : pfxOf lineOneLong = 1 := by
  have h : lineOneLong.take 6 = (lineOneLong.take 40).take 6 := by
    rw [List.take_take]
    rfl
  rw [pfxOf, h, lineOneLong_take]
  decide

theorem replicate_short (n : Nat) (line : List Nat) (h : line.length < maxTokenSize) :
    ∀ l ∈ List.replicate n line, l.length < maxTokenSize := by
  intro l hl
  rw [List.eq_of_mem_replicate hl]
  exact h

theorem longCorpus_scan : scanLines longCorpus = [lineZero] :=
  scanLines_stop [lineZero] [lineTwo] lineOneLong (by decide)
    (by rw [lineOneLong_length])

theorem longCorpus_sorted : SortedByHash longCorpus := by
  have h01 : hashOf lineZero ≤ hashOf lineOneLong := by rw [lineOneLong_hash]; decide
  have h02 : hashOf lineZero ≤ hashOf lineTwo := by decide
  have h12 : hashOf lineOneLong ≤ hashOf lineTwo := by rw [lineOneLong_hash]; decide
  unfold SortedByHash longCorpus
  refine List.Pairwise.cons ?_ (List.Pairwise.cons ?_ (List.Pairwise.cons ?_ List.Pairwise.nil))
  · intro b hb
    rcases List.mem_cons.1 hb with rfl | hb
    · exact h01
    · rcases List.mem_cons.1 hb with rfl | hb
      · exact h02
      · cases hb
  · intro b hb
    rcases List.mem_cons.1 hb with rfl | hb
    · exact h12
    · cases hb
  · intro b hb
    cases hb

theorem longCorpus_nodup : NoDupHash longCorpus := by
  have h01 : hashOf lineZero ≠ hashOf lineOneLong := by rw [lineOneLong_hash]; decide
  have h02 : hashOf lineZero ≠ hashOf lineTwo := by decide
  have h12 : hashOf lineOneLong ≠ hashOf lineTwo := by rw [lineOneLong_hash]; decide
  unfold NoDupHash longCorpus
  refine List.Pairwise.cons ?_ (List.Pairwise.cons ?_ (List.Pairwise.cons ?_ List.Pairwise.nil))
  · intro b hb
    rcases List.mem_cons.1 hb with rfl | hb
    · exact h01
    · rcases List.mem_cons.1 hb with rfl | hb
      · exact h02
      · cases hb
  · intro b hb
    rcases List.mem_cons.1 hb with rfl | hb
    · exact h12
    · cases hb
  · intro b hb
    cases hb

theorem lineOneLong_take6 : lineOneLong.take 6 = lineOne.take 6 := by
  have h : lineOneLong.take 6 = (lineOneLong.take 40).take 6 := by
    rw [List.take_take]
    rfl
  rw [h, lineOneLong_take]

theorem lineTwo_mem_longCorpus : lineTwo ∈ longCorpus :=
  List.mem_cons_of_mem _ (List.mem_cons_of_mem _ (List.mem_cons_self _ _))

/-- A corpus of well-formed lines that all fit the buffer builds, and the
server starts on the file. -/
theorem generated_built (corpus : List (List Nat)) (hok : ∀ l ∈ corpus, lineOk l = true)
    (hshort : ∀ l ∈ corpus, l.length < maxTokenSize) :
    ∃ db s, generateDB corpus = .ok db ∧ buildLines corpus = .ok db ∧ serve db.file = some s := by
  obtain ⟨db, -, hdb, -⟩ := buildLines_run corpus hok
  exact ⟨db, _, by rw [generateDB_short corpus hshort]; exact hdb, hdb, serve_file corpus db hdb⟩

/-- The corpus `longCorpus` builds the database of its first line. -/
theorem longCorpus_built :
    ∃ db s, generateDB longCorpus = .ok db ∧ buildLines [lineZero] = .ok db ∧
      serve db.file = some s := by
  obtain ⟨db, -, hdb, -⟩ := buildLines_run [lineZero] (by decide)
  exact ⟨db, _, by rw [generateDB_scan, longCorpus_scan]; exact hdb, hdb,
    serve_file [lineZero] db hdb⟩

/-! ### Fixed-width records -/

theorem flatten_length_const (w : Nat) (recs : List (List Nat)) (hall : ∀ r ∈ recs, r.length = w) :
    recs.flatten.length = w * recs.length := by
  induction recs with
  | nil => simp
  | cons r rs ih =>
    simp only [List.flatten_cons, List.length_append, List.length_cons, hall r (by simp),
      ih (fun x hx => hall x (by simp [hx]))]
    ring

theorem flatten_drop_const (w : Nat) (recs : List (List Nat)) (hall : ∀ r ∈ recs, r.length = w)
    (s : Nat) : recs.flatten.drop (w * s) = (recs.drop s).flatten := by
  induction recs generalizing s with
  | nil => simp
  | cons r rs ih =>
    cases s with
    | zero => simp
    | succ s =>
      have hr : r.length = w := hall r (by simp)
      have : w * (s + 1) = r.length + w * s := by rw [hr]; ring
      simp only [List.flatten_cons, List.drop_succ_cons, this, List.drop_append]
      exact ih (fun x hx => hall x (by simp [hx])) s

theorem flatten_take_const (w : Nat) (recs : List (List Nat)) (hall : ∀ r ∈ recs, r.length = w)
    (s : Nat) : recs.flatten.take (w * s) = (recs.take s).flatten := by
  induction recs generalizing s with
  | nil => simp
  | cons r rs ih =>
    cases s with
    | zero => simp
    | succ s =>
      have hr : r.length = w := hall r (by simp)
      have : w * (s + 1) = r.length + w * s := by rw [hr]; ring
      simp only [List.flatten_cons, List.take_succ_cons, this, List.take_append]
      rw [ih (fun x hx => hall x (by simp [hx])) s]

theorem ReadAt_data (header data : List Nat) (n o : Nat) (h : o + n ≤ data.length) :
    ReadAt (header ++ data) n (header.length + o) = (data.drop o).take n := by
  have hl : ((data.drop o).take n).length = n := by
    simp only [List.length_take, List.length_drop]
    omega
  simp only [ReadAt, List.drop_append, hl, Nat.sub_self, List.replicate_zero, List.append_nil]

theorem slice_mid (pre r rest : List Nat) :
    slice (pre ++ r ++ rest) pre.length (pre.length + r.length) = some r := by
  have h1 : pre.length ≤ pre.length + r.length ∧
      pre.length + r.length ≤ (pre ++ r ++ rest).length := by
    simp only [List.length_append]
    omega
  simp only [slice, h1, and_self, if_true, Option.some.injEq]
  have : (pre ++ r ++ rest).take (pre.length + r.length) = pre ++ r := by
    rw [← List.length_append]
    exact List.take_left _ _
  rw [this]
  exact List.drop_left _ _

theorem encodeLoop_chunks (rs : List (List Nat)) (hall : ∀ r ∈ rs, r.length = 17) :
    ∀ (pre : List Nat) (i : Nat), pre.length = i * 17 →
      encodeLoop (pre ++ rs.flatten) (i + rs.length) i = some (rs.map EncodeToString) := by
  induction rs with
  | nil =>
    intro pre i _
    rw [encodeLoop]
    simp
  | cons r rs ih =>
    intro pre i hpre
    have hr : r.length = 17 := hall r (by simp)
    have hs : slice (pre ++ (r :: rs).flatten) (i * 17) ((i + 1) * 17) = some r := by
      have := slice_mid pre r rs.flatten
      rw [hpre, hr] at this
      rw [← this]
      simp only [List.flatten_cons, List.append_assoc]
      congr 1
      ring
    have hrec := ih (fun x hx => hall x (by simp [hx])) (pre ++ r) (i + 1)
      (by simp only [List.length_append, hpre, hr]; ring)
    have hlen : i + (r :: rs).length = i + 1 + rs.length := by
      simp only [List.length_cons]
      omega
    have hcat : pre ++ (r :: rs).flatten = pre ++ r ++ rs.flatten := by
      simp only [List.flatten_cons, List.append_assoc]
    rw [encodeLoop]
    have hlt : i < i + (r :: rs).length := by
      simp only [List.length_cons]
      omega
    simp only [hlt, if_true, hs]
    rw [hlen, hcat, hrec]
    simp

/-- The encode loop over a buffer made of `len` records of 17 bytes returns
their hex strings in order. -/
theorem encodeLoop_records (rs : List (List Nat)) (hall : ∀ r ∈ rs, r.length = 17) :
    encodeLoop rs.flatten rs.length 0 = some (rs.map EncodeToString) := by
  have := encodeLoop_chunks rs hall [] 0 rfl
  simpa using this


/-! ### Sorted corpora -/

theorem countBelow_cons (x : List Nat) (xs : List (List Nat)) (p : Nat) :
    countBelow (x :: xs) p = countBelow xs p + if pfxOf x < p then 1 else 0 := by
  simp [countBelow, List.countP_cons]

theorem countBelow_le_length (corpus : List (List Nat)) (p : Nat) :
    countBelow corpus p ≤ corpus.length :=
  List.countP_le_length _

theorem countBelow_mono (corpus : List (List Nat)) {p q : Nat} (h : p ≤ q) :
    countBelow corpus p ≤ countBelow corpus q := by
  induction corpus with
  | nil => simp [countBelow]
  | cons x xs ih =>
    rw [countBelow_cons, countBelow_cons]
    split_ifs <;> omega

theorem countBelow_eq_zero (xs : List (List Nat)) (p : Nat) (h : ∀ y ∈ xs, p ≤ pfxOf y) :
    countBelow xs p = 0 := by
  unfold countBelow
  rw [List.countP_eq_zero]
  intro y hy
  have := h y hy
  simp
  omega

theorem countBelow_succ (corpus : List (List Nat)) (p : Nat) :
    countBelow corpus (p + 1) = countBelow corpus p + (linesWith corpus p).length := by
  induction corpus with
  | nil => simp [countBelow, linesWith]
  | cons x xs ih =>
    rw [countBelow_cons, countBelow_cons, ih]
    simp only [linesWith, List.filter_cons]
    by_cases h1 : pfxOf x = p
    · have h2 : pfxOf x < p + 1 := by omega
      have h3 : ¬ pfxOf x < p := by omega
      simp [h1, h2, h3]
      subst h1
      omega
    · by_cases h2 : pfxOf x < p
      · have h3 : pfxOf x < p + 1 := by omega
        simp [h1, h2, h3, linesWith]
        omega
      · have h3 : ¬ pfxOf x < p + 1 := by omega
        simp [h1, h2, h3, linesWith]

/-- In a corpus whose prefixes never decrease, the lines with prefix `p` are
the block that starts after the lines with a smaller prefix. -/
theorem sorted_block (corpus : List (List Nat))
    (hsorted : corpus.Pairwise (fun a b => pfxOf a ≤ pfxOf b)) (p : Nat) :
    (corpus.drop (countBelow corpus p)).take (linesWith corpus p).length = linesWith corpus p := by
  induction corpus with
  | nil => simp [linesWith]
  | cons x xs ih =>
    rw [List.pairwise_cons] at hsorted
    obtain ⟨hx, hxs⟩ := hsorted
    have ih1 := ih hxs
    rw [countBelow_cons]
    by_cases h2 : pfxOf x < p
    · have h1 : ¬ pfxOf x = p := by omega
      have hl : linesWith (x :: xs) p = linesWith xs p := by
        simp [linesWith, List.filter_cons, h1]
      rw [hl]
      simpa [h2] using ih1
    · have hz : countBelow xs p = 0 := countBelow_eq_zero xs p (fun y hy => by
        have := hx y hy
        omega)
      rw [hz] at ih1
      simp only [h2, if_false, hz, Nat.add_zero, List.drop_zero] at ih1 ⊢
      by_cases h1 : pfxOf x = p
      · have hl : linesWith (x :: xs) p = x :: linesWith xs p := by
          simp [linesWith, List.filter_cons, h1]
        rw [hl, List.length_cons, List.take_succ_cons, ih1]
      · have hnil : linesWith xs p = [] := by
          simp only [linesWith, List.filter_eq_nil_iff]
          intro y hy
          have := hx y hy
          simp
          omega
        have hl : linesWith (x :: xs) p = [] := by
          simp only [linesWith, List.filter_cons] at hnil ⊢
          simp [h1, hnil]
        rw [hl]
        simp

/-- A well-formed line: its hash is its prefix followed by its suffix. -/
theorem hashOf_eq {line : List Nat} (h : lineOk line = true) :
    hashOf line = pfxOf line * 16 ^ 34 + hexVal (suffixOf line) ∧
      hexVal (suffixOf line) < 16 ^ 34 := by
  have hsplit : line.take 40 = line.take 6 ++ suffixOf line := by
    have : line.take 6 = (line.take 40).take 6 := by simp [List.take_take]
    rw [this, suffixOf, List.take_append_drop]
  obtain ⟨hlen, hhex⟩ := suffixOf_hex h
  constructor
  · unfold hashOf hexVal
    rw [hsplit, hexFold_append, hexFold_eq, hlen]
    rfl
  · have := hexVal_lt _ hhex
    rwa [hlen] at this

/-- A corpus of well-formed lines sorted by hash has prefixes that never
decrease. -/
theorem sorted_pfx (corpus : List (List Nat)) (hok : ∀ l ∈ corpus, lineOk l = true)
    (hsorted : SortedByHash corpus) : corpus.Pairwise (fun a b => pfxOf a ≤ pfxOf b) := by
  unfold SortedByHash at hsorted
  induction corpus with
  | nil => exact List.Pairwise.nil
  | cons x xs ih =>
    rw [List.pairwise_cons] at hsorted ⊢
    refine ⟨?_, ih (fun l hl => hok l (by simp [hl])) hsorted.2⟩
    intro y hy
    have hle := hsorted.1 y hy
    obtain ⟨hx1, hx2⟩ := hashOf_eq (hok x (by simp))
    obtain ⟨hy1, hy2⟩ := hashOf_eq (hok y (by simp [hy]))
    rw [hx1, hy1] at hle
    by_contra hcon
    have : pfxOf y + 1 ≤ pfxOf x := by omega
    have := Nat.mul_le_mul_right (16 ^ 34) this
    omega


/-! ### The range query -/

theorem lookupOffsets_some (a : List Nat) (p x y : Nat) (h1 : a[p]? = some x)
    (h2 : a[p + 1]? = some y) : lookupOffsets a p = some (x, y) := by
  simp only [lookupOffsets, h1, h2]

/-- The query on a file made of a header and records of 17 bytes, when the
two table entries delimit a block of records and nothing wraps: the answer
is the hex strings of that block. -/
theorem fetchRange_block (addresses header : List Nat) (recs : List (List Nat))
    (p start stop : Nat) (hall : ∀ r ∈ recs, r.length = 17)
    (hh : header.length = 4 * addrMapSize)
    (h1 : addresses[p]? = some start) (h2 : addresses[p + 1]? = some stop)
    (hle : start ≤ stop) (hstop : stop ≤ recs.length) (h32 : stop < 2 ^ 32)
    (hfit : 17 * (stop - start) < 2 ^ 32) :
    fetchRange { addresses := addresses, db := header ++ recs.flatten } p =
      .json (((recs.drop start).take (stop - start)).map EncodeToString) := by
  have hlen : (stop + 2 ^ 32 - start) % 2 ^ 32 = stop - start := by omega
  have hbuf : 17 * (stop - start) % 2 ^ 32 = 17 * (stop - start) := Nat.mod_eq_of_lt hfit
  have hdl : recs.flatten.length = 17 * recs.length := flatten_length_const 17 recs hall
  have hread : ReadAt (header ++ recs.flatten) (17 * (stop - start))
      (4 * addrMapSize + start * 17) = ((recs.drop start).take (stop - start)).flatten := by
    rw [← hh, ReadAt_data _ _ _ _ (by rw [hdl]; omega), Nat.mul_comm start 17,
      flatten_drop_const 17 recs hall,
      flatten_take_const 17 _ (fun r hr => hall r (List.mem_of_mem_drop hr))]
  have hrl : ((recs.drop start).take (stop - start)).length = stop - start := by
    simp only [List.length_take, List.length_drop]
    omega
  have henc := encodeLoop_records ((recs.drop start).take (stop - start))
    (fun r hr => hall r (List.mem_of_mem_drop (List.mem_of_mem_take hr)))
  rw [hrl] at henc
  simp only [fetchRange, lookupOffsets_some addresses p start stop h1 h2, hlen, hbuf, hread, henc]

/-- A query prefix of six hexadecimal digits passes the checks of
`fetchPrefix` and reaches the lookup with its value. -/
theorem fetchPrefix_accept (s : Server) (prefixString : List Nat) (hlen : prefixString.length = 6)
    (hhex : prefixString.all isHex = true) :
    fetchPrefix s prefixString = fetchRange s (hexVal prefixString) := by
  have : ¬ prefixString.length ≠ 6 := by simp [hlen]
  simp only [fetchPrefix, this, if_false, ParseUint_eq, ParseUintBytes_six _ hlen, hhex, if_true]

/-! ### Lower case -/

theorem hextable_lower {c v : Nat} (h : fromHexChar c = some v) :
    hextable.getD v 0 = lowerHex c := by
  unfold fromHexChar at h
  unfold lowerHex
  split_ifs at h with h1 h2 h3
  · simp only [Option.some.injEq] at h
    have hc : c = v + 48 := by omega
    have hv : v < 10 := by omega
    subst hc
    interval_cases v <;> rfl
  · simp only [Option.some.injEq] at h
    have hc : c = v + 87 := by omega
    have hv : 10 ≤ v ∧ v < 16 := by omega
    subst hc
    obtain ⟨hv1, hv2⟩ := hv
    interval_cases v <;> rfl
  · simp only [Option.some.injEq] at h
    have hc : c = v + 55 := by omega
    have hv : 10 ≤ v ∧ v < 16 := by omega
    subst hc
    obtain ⟨hv1, hv2⟩ := hv
    interval_cases v <;> rfl

/-- Encoding what `hex.Decode` returned gives back the input in lower
case. -/
theorem encode_decode (s : List Nat) : ∀ bs, Decode s = some bs →
    EncodeToString bs = s.map lowerHex := by
  induction s using pairInduction with
  | h0 => intro bs h; simp [Decode] at h; subst h; rfl
  | h1 x => intro bs h; simp [Decode] at h
  | h2 p q rest ih =>
    intro bs h
    simp only [Decode] at h
    cases hp : fromHexChar p with
    | none => simp [hp] at h
    | some a =>
      cases hq : fromHexChar q with
      | none => simp [hp, hq] at h
      | some b =>
        cases hr : Decode rest with
        | none => simp [hp, hq, hr] at h
        | some cs =>
          simp only [hp, hq, hr, Option.some.injEq] at h
          subst h
          have hb := fromHexChar_lt hq
          have h1 : (a * 16 + b) / 16 = a := by omega
          have h2 : (a * 16 + b) % 16 = b := by omega
          simp only [EncodeToString, h1, h2, hextable_lower hp, hextable_lower hq, ih cs hr,
            List.map_cons]

/-- The hex string of the record of a well-formed line is its suffix in
lower case. -/
theorem encode_record {line : List Nat} (h : lineOk line = true) :
    EncodeToString (recordOf line) = (suffixOf line).map lowerHex :=
  encode_decode _ _ (decode_suffix h).1

/-! ### Build, then query -/

/-- Build, start the server on the file, query a prefix value: on a corpus
with prefixes that never decrease, fewer than `2^32` lines and a block for
`p` of fewer than `2^32` bytes, the answer is the lower-case suffixes of the
lines with prefix `p`, in corpus order. -/
theorem query_built (corpus : List (List Nat)) (db : Database) (s : Server)
    (hbuild : buildLines corpus = .ok db) (hserve : serve db.file = some s)
    (hsorted : corpus.Pairwise (fun a b => pfxOf a ≤ pfxOf b))
    (hn : corpus.length < 2 ^ 32) (p : Nat) (hp : p < 2 ^ 24)
    (hfit : 17 * (linesWith corpus p).length < 2 ^ 32) :
    fetchRange s p = .json ((linesWith corpus p).map (fun l => (suffixOf l).map lowerHex)) := by
  have hok := buildLines_lines_ok corpus db hbuild
  rw [serve_file corpus db hbuild] at hserve
  cases hserve
  have hc1 := countBelow_le_length corpus p
  have hc2 := countBelow_le_length corpus (p + 1)
  have hsucc := countBelow_succ corpus p
  have h1 := buildLines_table corpus db hbuild hsorted p (by omega)
  have h2 := buildLines_table corpus db hbuild hsorted (p + 1) (by omega)
  rw [Nat.mod_eq_of_lt (by omega)] at h1 h2
  have hrecs : ∀ r ∈ corpus.map recordOf, r.length = 17 := by
    intro r hr
    obtain ⟨l, hl, rfl⟩ := List.mem_map.1 hr
    exact (decode_suffix (hok l hl)).2
  have hblock := fetchRange_block db.addresses (encodeTable db.addresses) (corpus.map recordOf) p
    (countBelow corpus p) (countBelow corpus (p + 1)) hrecs
    (by rw [encodeTable_length, buildLines_length corpus db hbuild]) h1 h2 (by omega)
    (by rw [List.length_map]; omega) (by omega) (by rw [hsucc, Nat.add_sub_cancel_left]; exact hfit)
  have hfile : db.file = encodeTable db.addresses ++ (corpus.map recordOf).flatten := by
    rw [Database.file, buildLines_records corpus db hbuild]
  rw [hfile, hblock, hsucc, Nat.add_sub_cancel_left, ← List.map_drop, ← List.map_take,
    sorted_block corpus hsorted p, List.map_map]
  congr 1
  apply List.map_congr_left
  intro l hl
  have hlc : l ∈ corpus := List.mem_of_mem_filter hl
  exact encode_record (hok l hlc)


/-! ### Validation of the query prefix and of the corpus -/

theorem fetchRange_ne_error (s : Server) (p : Nat) (msg : String) (code : Nat) :
    fetchRange s p ≠ .httpError msg code := by
  unfold fetchRange
  cases lookupOffsets s.addresses p with
  | none => simp
  | some pr =>
    obtain ⟨a, b⟩ := pr
    simp only
    cases encodeLoop (ReadAt s.db (17 * ((b + 2 ^ 32 - a) % 2 ^ 32) % 2 ^ 32)
      (4 * addrMapSize + a * 17)) ((b + 2 ^ 32 - a) % 2 ^ 32) 0 with
    | none => simp
    | some hs => simp

theorem ParseUint_six_lt (prefixString : List Nat) (pfx : Nat) (hlen : prefixString.length = 6)
    (h : ParseUint prefixString 16 32 = some pfx) :
    prefixString.all isHex = true ∧ pfx = hexVal prefixString ∧ pfx < 2 ^ 24 := by
  rw [ParseUint_eq, ParseUintBytes_six _ hlen] at h
  by_cases hall : prefixString.all isHex = true
  · simp only [hall, if_true, Option.some.injEq] at h
    exact ⟨hall, h.symm, h ▸ hexVal_six_lt _ hlen hall⟩
  · simp [hall] at h

/-- C6. Query prefix validation: `fetchPrefix` answers 400 with the fixed
message exactly when the request string is not 6 bytes long or does not parse
as an unsigned hexadecimal integer; a string that parses is one of exactly 6
hexadecimal digits and reaches the lookup with a prefix value below `2^24`;
a 5-character prefix and a 6-character non-hex prefix are client errors. -/
theorem fetchPrefix_validation (s : Server) (prefixString : List Nat) :
    (fetchPrefix s prefixString = .httpError badPrefixMsg 400 ↔
      (prefixString.length ≠ 6 ∨ ParseUint prefixString 16 32 = none)) ∧
    ((prefixString.length = 6 ∧ ParseUint prefixString 16 32 ≠ none) ↔
      (prefixString.length = 6 ∧ prefixString.all isHex = true)) ∧
    (∀ pfx, prefixString.length = 6 → ParseUint prefixString 16 32 = some pfx →
      pfx < 2 ^ 24 ∧ fetchPrefix s prefixString = fetchRange s pfx) ∧
    (∀ msg code, fetchPrefix s prefixString = .httpError msg code →
      msg = badPrefixMsg ∧ code = 400) ∧
    fetchPrefix s (ascii "abcde") = .httpError badPrefixMsg 400 ∧
    fetchPrefix s (ascii "zzzzzz") = .httpError badPrefixMsg 400 := by
  refine ⟨?_, ?_, ?_, ?_, ?_, ?_⟩
  · constructor
    · intro h
      by_contra hcon
      push_neg at hcon
      obtain ⟨h6, hp⟩ := hcon
      obtain ⟨pfx, hpfx⟩ := Option.ne_none_iff_exists'.1 hp
      have : fetchPrefix s prefixString = fetchRange s pfx := by
        simp [fetchPrefix, h6, hpfx]
      rw [this] at h
      exact fetchRange_ne_error s pfx _ _ h
    · rintro (h | h)
      · simp [fetchPrefix, h]
      · simp [fetchPrefix, h]
  · constructor
    · rintro ⟨h6, hp⟩
      obtain ⟨pfx, hpfx⟩ := Option.ne_none_iff_exists'.1 hp
      exact ⟨h6, (ParseUint_six_lt prefixString pfx h6 hpfx).1⟩
    · rintro ⟨h6, hall⟩
      refine ⟨h6, ?_⟩
      rw [ParseUint_eq, ParseUintBytes_six _ h6, hall]
      simp
  · intro pfx h6 hpfx
    refine ⟨(ParseUint_six_lt prefixString pfx h6 hpfx).2.2, ?_⟩
    simp [fetchPrefix, h6, hpfx]
  · intro msg code h
    by_cases h6 : prefixString.length = 6
    · cases hp : ParseUint prefixString 16 32 with
      | none =>
        simp only [fetchPrefix, h6, ne_eq, not_true_eq_false, if_false, hp,
          Outcome.httpError.injEq] at h
        exact ⟨h.1.symm, h.2.symm⟩
      | some pfx =>
        have : fetchPrefix s prefixString = fetchRange s pfx := by
          simp [fetchPrefix, h6, hp]
        rw [this] at h
        exact absurd h (fetchRange_ne_error s pfx _ _)
    · simp only [fetchPrefix, ne_eq, h6, not_false_eq_true, if_true, Outcome.httpError.injEq] at h
      exact ⟨h.1.symm, h.2.symm⟩
  · have : (ascii "abcde").length ≠ 6 := by decide
    rw [fetchPrefix, if_pos this]
  · have h6 : ¬ (ascii "zzzzzz").length ≠ 6 := by decide
    have hp : ParseUint (ascii "zzzzzz") 16 32 = none := by decide
    rw [fetchPrefix, if_neg h6, hp]

theorem buildLines_bad (xs ys : List (List Nat)) (bad : List Nat)
    (hxs : ∀ l ∈ xs, lineOk l = true) (hbad : lineOk bad = false) :
    buildLines (xs ++ bad :: ys) = .error (.parseLine bad) ∨
      buildLines (xs ++ bad :: ys) = .error (.parsePrefix bad) ∨
      buildLines (xs ++ bad :: ys) = .error (.decodeHash bad) := by
  rcases foldLines_bad xs ys bad hxs hbad with h | h | h <;> simp [buildLines, h]

/-- C8. Boundary safety of the lookup: with a table of exactly `2^24+1`
entries, every prefix that `fetchPrefix` accepts indexes the table in bounds
at `pfx` and at `pfx+1`, so the two reads return values; `000000` and
`ffffff` are accepted, with the values `0` and `2^24-1`. -/
theorem lookup_in_bounds (addresses prefixString : List Nat) (pfx : Nat)
    (hsize : addresses.length = addrMapSize) (hlen : prefixString.length = 6)
    (hparse : ParseUint prefixString 16 32 = some pfx) :
    pfx < addresses.length ∧ pfx + 1 < addresses.length ∧
      (∃ startOffset endOffset, lookupOffsets addresses pfx = some (startOffset, endOffset)) ∧
      ParseUint (ascii "000000") 16 32 = some 0 ∧
      ParseUint (ascii "ffffff") 16 32 = some (2 ^ 24 - 1) := by
  have hlt := (ParseUint_six_lt prefixString pfx hlen hparse).2.2
  have h1 : pfx < addresses.length := by rw [hsize, addrMapSize_eq]; omega
  have h2 : pfx + 1 < addresses.length := by rw [hsize, addrMapSize_eq]; omega
  refine ⟨h1, h2, ⟨addresses[pfx], addresses[pfx + 1], ?_⟩, by decide, by decide⟩
  exact lookupOffsets_some addresses pfx _ _ (List.getElem?_eq_getElem h1)
    (List.getElem?_eq_getElem h2)

/-- Witness of C8: the all-zero table of `2^24+1` entries and the prefix
`ffffff`. -/
theorem lookup_in_bounds_witness :
    2 ^ 24 - 1 < (List.replicate addrMapSize 0).length ∧
      2 ^ 24 - 1 + 1 < (List.replicate addrMapSize 0).length ∧
      (∃ startOffset endOffset,
        lookupOffsets (List.replicate addrMapSize 0) (2 ^ 24 - 1) = some (startOffset, endOffset)) ∧
      ParseUint (ascii "000000") 16 32 = some 0 ∧
      ParseUint (ascii "ffffff") 16 32 = some (2 ^ 24 - 1) :=
  lookup_in_bounds (List.replicate addrMapSize 0) (ascii "ffffff") (2 ^ 24 - 1)
    (List.length_replicate _ _) (by decide) (by decide)


/-! ### The address table -/

theorem wrapCount_eq : wrapCount = 2 ^ 32 := rfl

theorem replicate_ok (n : Nat) (line : List Nat) (h : lineOk line = true) :
    ∀ l ∈ List.replicate n line, lineOk l = true := by
  intro l hl
  rw [List.eq_of_mem_replicate hl]
  exact h

theorem replicate_sorted (n : Nat) (line : List Nat) : SortedByHash (List.replicate n line) := by
  unfold SortedByHash
  rw [List.pairwise_replicate]
  exact Or.inr (le_refl _)

theorem countBelow_replicate (n : Nat) (line : List Nat) (p : Nat) :
    countBelow (List.replicate n line) p = if pfxOf line < p then n else 0 := by
  simp [countBelow, List.countP_replicate]

theorem sorted_take_lt (corpus : List (List Nat))
    (hsorted : corpus.Pairwise (fun a b => pfxOf a ≤ pfxOf b)) (p : Nat) :
    (∀ l ∈ corpus.take (countBelow corpus p), pfxOf l < p) ∧
      ∀ l ∈ corpus.drop (countBelow corpus p), p ≤ pfxOf l := by
  induction corpus with
  | nil => simp
  | cons x xs ih =>
    rw [List.pairwise_cons] at hsorted
    obtain ⟨hx, hxs⟩ := hsorted
    obtain ⟨ih1, ih2⟩ := ih hxs
    rw [countBelow_cons]
    by_cases h2 : pfxOf x < p
    · simp only [h2, if_true, List.take_succ_cons, List.drop_succ_cons, List.mem_cons]
      refine ⟨?_, ih2⟩
      rintro l (rfl | hl)
      · exact h2
      · exact ih1 l hl
    · have hz : countBelow xs p = 0 := countBelow_eq_zero xs p (fun y hy => by
        have := hx y hy
        omega)
      simp only [h2, if_false, hz, Nat.add_zero, List.take_zero, List.drop_zero, List.mem_cons]
      refine ⟨by simp, ?_⟩
      rintro l (rfl | hl)
      · omega
      · have := hx l hl
        omega

theorem countBelow_absent (corpus : List (List Nat)) (p : Nat) (h : ∀ l ∈ corpus, pfxOf l ≠ p) :
    countBelow corpus (p + 1) = countBelow corpus p := by
  rw [countBelow_succ]
  have : linesWith corpus p = [] := by
    simp only [linesWith, List.filter_eq_nil_iff]
    intro l hl
    simpa using h l hl
  simp [this]

/-- C2 (amended). Address-table meaning: for a corpus sorted ascending by
hash whose lines are all shorter than `maxTokenSize` (16 MiB) and on which
`generateDB` succeeds, and every `p` with `0 <= p <= 2^24`, `addresses[p]` is
the number of corpus lines whose prefix is below `p`, reduced modulo `2^32`,
hence that number itself when the corpus has fewer than `2^32` lines; that
number is the zero-based index of the first record whose prefix is at least
`p` (the lines before it have a smaller prefix, the lines from it on do not);
`addresses[0] = 0`, and a prefix that is not in the corpus has
`addresses[p] = addresses[p+1]`. -/
theorem table_meaning (corpus : List (List Nat)) (db : Database) (p : Nat)
    (hsorted : SortedByHash corpus) (hbuild : generateDB corpus = .ok db) (hp : p ≤ 2 ^ 24)
    (hshort : ∀ l ∈ corpus, l.length < maxTokenSize) :
    db.addresses[p]? = some (countBelow corpus p % 2 ^ 32) ∧
    (corpus.length < 2 ^ 32 → db.addresses[p]? = some (countBelow corpus p)) ∧
    (∀ l ∈ corpus.take (countBelow corpus p), pfxOf l < p) ∧
    (∀ l ∈ corpus.drop (countBelow corpus p), p ≤ pfxOf l) ∧
    db.addresses[0]? = some 0 ∧
    (p < 2 ^ 24 → (∀ l ∈ corpus, pfxOf l ≠ p) → db.addresses[p]? = db.addresses[p + 1]?) := by
  rw [generateDB_short corpus hshort] at hbuild
  have hok := buildLines_lines_ok corpus db hbuild
  have hs := sorted_pfx corpus hok hsorted
  have htab := buildLines_table corpus db hbuild hs
  refine ⟨htab p hp, ?_, (sorted_take_lt corpus hs p).1, (sorted_take_lt corpus hs p).2, ?_, ?_⟩
  · intro hn
    have := countBelow_le_length corpus p
    rw [htab p hp, Nat.mod_eq_of_lt (by omega)]
  · rw [htab 0 (by omega)]
    simp [countBelow]
  · intro hlt habs
    rw [htab p hp, htab (p + 1) (by omega), countBelow_absent corpus p habs]

/-- Witness of C2: the two-line corpus `lineZero, lineOne` and `p = 1`. -/
theorem table_meaning_witness :
    ∃ db, generateDB [lineZero, lineOne] = .ok db ∧
      db.addresses[1]? = some (countBelow [lineZero, lineOne] 1 % 2 ^ 32) ∧
      ([lineZero, lineOne].length < 2 ^ 32 →
        db.addresses[1]? = some (countBelow [lineZero, lineOne] 1)) ∧
      (∀ l ∈ [lineZero, lineOne].take (countBelow [lineZero, lineOne] 1), pfxOf l < 1) ∧
      (∀ l ∈ [lineZero, lineOne].drop (countBelow [lineZero, lineOne] 1), 1 ≤ pfxOf l) ∧
      db.addresses[0]? = some 0 ∧
      (1 < 2 ^ 24 → (∀ l ∈ [lineZero, lineOne], pfxOf l ≠ 1) →
        db.addresses[1]? = db.addresses[1 + 1]?) := by
  obtain ⟨db, -, hgen, -, -⟩ := generated_built [lineZero, lineOne] (by decide) (by decide)
  exact ⟨db, hgen, table_meaning [lineZero, lineOne] db 1 (by unfold SortedByHash; decide) hgen
    (by omega) (by decide)⟩

/-- Counterexample to C2 as stated, at two inputs. On the sorted corpus of
`2^32` copies of `lineZero` the build succeeds, all `2^32` lines have a prefix
below `2^24`, and `addresses[2^24]` is `0`. On the sorted corpus `longCorpus`,
whose second line has `maxTokenSize` bytes, the build succeeds, the three
lines have a prefix below 3, and `addresses[3]` is `1`. -/
theorem table_meaning_counterexample :
    (SortedByHash (List.replicate wrapCount lineZero) ∧
      ∃ db, generateDB (List.replicate wrapCount lineZero) = .ok db ∧
        countBelow (List.replicate wrapCount lineZero) (2 ^ 24) = 2 ^ 32 ∧
        db.addresses[2 ^ 24]? = some 0) ∧
    (SortedByHash longCorpus ∧
      ∃ db, generateDB longCorpus = .ok db ∧ countBelow longCorpus 3 = 3 ∧
        db.addresses[3]? = some 1) := by
  constructor
  · rw [generateDB_short _ (replicate_short wrapCount lineZero (by decide))]
    have hok := replicate_ok wrapCount lineZero (by decide)
    have hsorted := replicate_sorted wrapCount lineZero
    obtain ⟨db, -, hdb, -⟩ := buildLines_run _ hok
    have hc : countBelow (List.replicate wrapCount lineZero) (2 ^ 24) = 2 ^ 32 := by
      rw [countBelow_replicate, if_pos (by decide), wrapCount_eq]
    refine ⟨hsorted, db, hdb, hc, ?_⟩
    rw [buildLines_table _ db hdb (sorted_pfx _ hok hsorted) (2 ^ 24) (le_refl _), hc]
    rfl
  · obtain ⟨db, -, hgen, hdb, -⟩ := longCorpus_built
    refine ⟨longCorpus_sorted, db, hgen, ?_, ?_⟩
    · rw [longCorpus, countBelow_cons, countBelow_cons, countBelow_cons, lineOneLong_pfx]
      decide
    · rw [buildLines_table [lineZero] db hdb (by decide) 3 (by omega)]
      decide

/-- C3 (amended). Monotonic table: for every corpus of fewer than `2^32`
lines on which `generateDB` succeeds, sorted or not, the final table has
`addresses[k] <= addresses[k+1]` for every `k` with `0 <= k < 2^24`; and when
every line is shorter than `maxTokenSize` (16 MiB) the build of the same
lines in any other order succeeds as well. -/
theorem table_monotone (corpus : List (List Nat)) (db : Database)
    (hbuild : generateDB corpus = .ok db) (hn : corpus.length < 2 ^ 32) :
    (∀ k, k < 2 ^ 24 →
      ∃ x y, db.addresses[k]? = some x ∧ db.addresses[k + 1]? = some y ∧ x ≤ y) ∧
    ((∀ l ∈ corpus, l.length < maxTokenSize) →
      ∀ shuffled, shuffled.Perm corpus → ∃ db2, generateDB shuffled = .ok db2) := by
  have hread := generateDB_lines_ok corpus db hbuild
  rw [generateDB_scan] at hbuild
  have hlen := buildLines_length _ db hbuild
  have hn2 : (scanLines corpus).length < 2 ^ 32 := by
    have := scanLines_length_le corpus
    omega
  constructor
  · intro k hk
    have h1 : k < db.addresses.length := by rw [hlen, addrMapSize_eq]; omega
    have h2 : k + 1 < db.addresses.length := by rw [hlen, addrMapSize_eq]; omega
    refine ⟨db.addresses[k], db.addresses[k + 1], List.getElem?_eq_getElem h1,
      List.getElem?_eq_getElem h2, ?_⟩
    have := buildLines_mono _ db hbuild hn2 k hk
    rwa [List.getElem?_eq_getElem h1, List.getElem?_eq_getElem h2] at this
  · intro hshort shuffled hperm
    rw [scanLines_short corpus hshort] at hread
    have hshort2 : ∀ l ∈ shuffled, l.length < maxTokenSize :=
      fun l hl => hshort l ((hperm.mem_iff).1 hl)
    obtain ⟨db2, -, hdb2, -⟩ := buildLines_run shuffled
      (fun l hl => hread l ((hperm.mem_iff).1 hl))
    exact ⟨db2, by rw [generateDB_short shuffled hshort2]; exact hdb2⟩

/-- Witness of C3: the unsorted two-line corpus `lineOne, lineZero`. -/
theorem table_monotone_witness :
    ∃ db, generateDB [lineOne, lineZero] = .ok db ∧
      (∀ k, k < 2 ^ 24 →
        ∃ x y, db.addresses[k]? = some x ∧ db.addresses[k + 1]? = some y ∧ x ≤ y) ∧
      ((∀ l ∈ [lineOne, lineZero], l.length < maxTokenSize) →
        ∀ shuffled, shuffled.Perm [lineOne, lineZero] →
          ∃ db2, generateDB shuffled = .ok db2) := by
  obtain ⟨db, -, hgen, -, -⟩ := generated_built [lineOne, lineZero] (by decide) (by decide)
  exact ⟨db, hgen, table_monotone [lineOne, lineZero] db hgen (by decide)⟩

/-- Counterexample to C3 as stated: on `lineZero` followed by `2^32 - 1`
copies of `lineOne` the build succeeds with `addresses[1] = 1` and
`addresses[2] = 0`. The second part shows that the order of the lines decides
whether an error is raised when a line has `maxTokenSize` bytes: on
`lineZero`, `lineOneLong`, `zz` the build succeeds, because the scan loop
ends at the second line, and on the same three lines with `zz` first the
build returns an error. -/
theorem table_monotone_counterexample :
    (∃ db, generateDB (lineZero :: List.replicate (wrapCount - 1) lineOne) = .ok db ∧
      db.addresses[1]? = some 1 ∧ db.addresses[1 + 1]? = some 0) ∧
    ((∃ db, generateDB [lineZero, lineOneLong, ascii "zz"] = .ok db) ∧
      [ascii "zz", lineZero, lineOneLong].Perm [lineZero, lineOneLong, ascii "zz"] ∧
      generateDB [ascii "zz", lineZero, lineOneLong] = .error (.parseLine (ascii "zz"))) := by
  constructor
  · have hok : ∀ l ∈ lineZero :: List.replicate (wrapCount - 1) lineOne, lineOk l = true := by
      intro l hl
      rcases List.mem_cons.1 hl with rfl | hl
      · decide
      · exact replicate_ok _ lineOne (by decide) l hl
    have hshort : ∀ l ∈ lineZero :: List.replicate (wrapCount - 1) lineOne,
        l.length < maxTokenSize := by
      intro l hl
      rcases List.mem_cons.1 hl with rfl | hl
      · decide
      · exact replicate_short _ lineOne (by decide) l hl
    rw [generateDB_short _ hshort]
    have hs : (lineZero :: List.replicate (wrapCount - 1) lineOne).Pairwise
        (fun a b => pfxOf a ≤ pfxOf b) := by
      rw [List.pairwise_cons]
      constructor
      · intro l hl
        rw [List.eq_of_mem_replicate hl]
        decide
      · rw [List.pairwise_replicate]
        exact Or.inr (le_refl _)
    obtain ⟨db, -, hdb, -⟩ := buildLines_run _ hok
    have hc1 : countBelow (lineZero :: List.replicate (wrapCount - 1) lineOne) 1 = 1 := by
      rw [countBelow_cons, countBelow_replicate, if_neg (by decide), if_pos (by decide)]
    have hc2 : countBelow (lineZero :: List.replicate (wrapCount - 1) lineOne) (1 + 1)
        = 2 ^ 32 := by
      rw [countBelow_cons, countBelow_replicate, if_pos (by decide), if_pos (by decide),
        wrapCount_eq]
      rfl
    refine ⟨db, hdb, ?_, ?_⟩
    · rw [buildLines_table _ db hdb hs 1 (by omega), hc1]
      rfl
    · rw [buildLines_table _ db hdb hs (1 + 1) (by omega), hc2]
      rfl
  · refine ⟨?_, ?_, ?_⟩
    · have hscan : scanLines [lineZero, lineOneLong, ascii "zz"] = [lineZero] :=
        scanLines_stop [lineZero] [ascii "zz"] lineOneLong (by decide)
          (by rw [lineOneLong_length])
      obtain ⟨db, -, hdb, -⟩ := buildLines_run [lineZero] (by decide)
      exact ⟨db, by rw [generateDB_scan, hscan]; exact hdb⟩
    · exact @List.perm_append_comm _ [ascii "zz"] [lineZero, lineOneLong]
    · have h : (ascii "zz").length < 40 := by decide
      have hbig : ¬ maxTokenSize ≤ (ascii "zz").length := by decide
      simp only [generateDB, genLoop, hbig, if_false, genStep, h, if_true]

/-- C4 (amended). Sentinel and record count: for every corpus on which
`generateDB` succeeds (any number of lines, sorted or not, the empty corpus
included) the database holds one 17-byte record for each line that the scan
loop reads, that is for each line before the first line of `maxTokenSize`
bytes (16 MiB) or more; the last table entry `addresses[2^24]` is the number
of records reduced modulo `2^32`, hence the exact number of records when
there are fewer than `2^32` of them, and every slot `p` with
`lastPrefix < p <= 2^24`, where `lastPrefix` is the prefix of the last line
read, holds that same value. When every line is shorter than 16 MiB the
lines read are all the lines of the corpus. -/
theorem sentinel_count (corpus : List (List Nat)) (db : Database)
    (hbuild : generateDB corpus = .ok db) :
    db.records.length = 17 * (scanLines corpus).length ∧
      db.addresses[2 ^ 24]? = some ((scanLines corpus).length % 2 ^ 32) ∧
      ((scanLines corpus).length < 2 ^ 32 →
        db.addresses[2 ^ 24]? = some (scanLines corpus).length ∧
          db.addresses[2 ^ 24]? = some (db.records.length / 17)) ∧
      (∀ p, lastPfx (scanLines corpus) < p → p ≤ 2 ^ 24 →
        db.addresses[p]? = db.addresses[2 ^ 24]?) ∧
      ((∀ l ∈ corpus, l.length < maxTokenSize) → scanLines corpus = corpus) := by
  rw [generateDB_scan] at hbuild
  have hok := buildLines_lines_ok _ db hbuild
  obtain ⟨db1, st, hdb, -, -, -, -, hlast, -⟩ := buildLines_run _ hok
  have hsent := buildLines_tail _ db hbuild (2 ^ 24) hlast (le_refl _)
  have hrecs : db.records.length = 17 * (scanLines corpus).length := by
    rw [buildLines_records _ db hbuild, flatten_length_const 17, List.length_map]
    intro r hr
    obtain ⟨l, hl, rfl⟩ := List.mem_map.1 hr
    exact (decode_suffix (hok l hl)).2
  refine ⟨hrecs, hsent, ?_, ?_, scanLines_short corpus⟩
  · intro hn
    have hdiv : db.records.length / 17 = (scanLines corpus).length := by
      rw [hrecs]
      omega
    rw [hdiv, hsent, Nat.mod_eq_of_lt hn]
    exact ⟨rfl, rfl⟩
  · intro p hlo hhi
    rw [hsent, buildLines_tail _ db hbuild p hlo hhi]

/-- Witness of C4: the corpus `lineZero`, `lineOneF`, `lineOneLong`,
`lineTwo`, of which the scan loop reads the first two lines. -/
theorem sentinel_count_witness :
    scanLines [lineZero, lineOneF, lineOneLong, lineTwo] = [lineZero, lineOneF] ∧
    ∃ db, generateDB [lineZero, lineOneF, lineOneLong, lineTwo] = .ok db ∧
      db.records.length = 17 * (scanLines [lineZero, lineOneF, lineOneLong, lineTwo]).length ∧
      db.addresses[2 ^ 24]?
        = some ((scanLines [lineZero, lineOneF, lineOneLong, lineTwo]).length % 2 ^ 32) ∧
      ((scanLines [lineZero, lineOneF, lineOneLong, lineTwo]).length < 2 ^ 32 →
        db.addresses[2 ^ 24]?
            = some (scanLines [lineZero, lineOneF, lineOneLong, lineTwo]).length ∧
          db.addresses[2 ^ 24]? = some (db.records.length / 17)) ∧
      (∀ p, lastPfx (scanLines [lineZero, lineOneF, lineOneLong, lineTwo]) < p → p ≤ 2 ^ 24 →
        db.addresses[p]? = db.addresses[2 ^ 24]?) ∧
      ((∀ l ∈ [lineZero, lineOneF, lineOneLong, lineTwo], l.length < maxTokenSize) →
        scanLines [lineZero, lineOneF, lineOneLong, lineTwo]
          = [lineZero, lineOneF, lineOneLong, lineTwo]) := by
  have hscan : scanLines [lineZero, lineOneF, lineOneLong, lineTwo] = [lineZero, lineOneF] :=
    scanLines_stop [lineZero, lineOneF] [lineTwo] lineOneLong (by decide)
      (by rw [lineOneLong_length])
  obtain ⟨db, -, hdb, -⟩ := buildLines_run [lineZero, lineOneF] (by decide)
  have hgen : generateDB [lineZero, lineOneF, lineOneLong, lineTwo] = .ok db := by
    rw [generateDB_scan, hscan]
    exact hdb
  exact ⟨hscan, db, hgen, sentinel_count [lineZero, lineOneF, lineOneLong, lineTwo] db hgen⟩

/-- Counterexample to C4 as stated: on `2^32` copies of `lineZero` the build
succeeds and writes `2^32` records of 17 bytes, and `addresses[2^24]` is
`0`. -/
theorem sentinel_count_counterexample :
    ∃ db, generateDB (List.replicate wrapCount lineZero) = .ok db ∧
      db.records.length = 17 * 2 ^ 32 ∧ db.addresses[2 ^ 24]? = some 0 := by
  rw [generateDB_short _ (replicate_short wrapCount lineZero (by decide))]
  have hok := replicate_ok wrapCount lineZero (by decide)
  obtain ⟨db, -, hdb, -, -, -, -, hlast, -⟩ := buildLines_run _ hok
  refine ⟨db, hdb, ?_, ?_⟩
  · rw [buildLines_records _ db hdb, flatten_length_const 17, List.length_map,
      List.length_replicate, wrapCount_eq]
    intro r hr
    obtain ⟨l, hl, rfl⟩ := List.mem_map.1 hr
    exact (decode_suffix (hok l hl)).2
  · rw [buildLines_tail _ db hdb (2 ^ 24) hlast (le_refl _), List.length_replicate, wrapCount_eq]
    rfl


/-! ### The file layout -/

theorem serve_built (corpus : List (List Nat)) (hok : ∀ l ∈ corpus, lineOk l = true) :
    ∃ db s, buildLines corpus = .ok db ∧ serve db.file = some s := by
  obtain ⟨db, -, hdb, -⟩ := buildLines_run corpus hok
  exact ⟨db, _, hdb, serve_file corpus db hdb⟩

/-- C1 (amended). End-to-end query: for a corpus sorted ascending by hash
with fewer than `2^32` lines, each shorter than `maxTokenSize` (16 MiB), on
which `generateDB` succeeds, and a prefix `p` of 6 hexadecimal characters
whose value is the prefix of at least one corpus line and is shared by fewer
than `2^32 / 17` lines, `fetchPrefix` on the server started on the built file
answers with the array of the characters 6 through 39, in lower case, of
exactly the corpus lines whose leading 6 hexadecimal characters have the
value of `p`, in corpus order. -/
theorem query_present (corpus : List (List Nat)) (db : Database) (s : Server)
    (prefixString : List Nat) (hsorted : SortedByHash corpus)
    (hbuild : generateDB corpus = .ok db) (hserve : serve db.file = some s)
    (hlen : prefixString.length = 6) (hhex : prefixString.all isHex = true)
    (_hpresent : ∃ l ∈ corpus, pfxOf l = hexVal prefixString)
    (hn : corpus.length < 2 ^ 32)
    (hfit : 17 * (linesWith corpus (hexVal prefixString)).length < 2 ^ 32)
    (hshort : ∀ l ∈ corpus, l.length < maxTokenSize) :
    fetchPrefix s prefixString =
      .json ((linesWith corpus (hexVal prefixString)).map (fun l => (suffixOf l).map lowerHex)) := by
  rw [generateDB_short corpus hshort] at hbuild
  rw [fetchPrefix_accept s prefixString hlen hhex]
  exact query_built corpus db s hbuild hserve
    (sorted_pfx corpus (buildLines_lines_ok corpus db hbuild) hsorted) hn _
    (hexVal_six_lt _ hlen hhex) hfit

/-- Witness of C1: the corpus `lineZero, lineOneF` and the prefix
`000001`. -/
theorem query_present_witness :
    ∃ db s, generateDB [lineZero, lineOneF] = .ok db ∧ serve db.file = some s ∧
      fetchPrefix s (ascii "000001") =
        .json ((linesWith [lineZero, lineOneF] (hexVal (ascii "000001"))).map
          (fun l => (suffixOf l).map lowerHex)) := by
  obtain ⟨db, s, hgen, -, hs⟩ := generated_built [lineZero, lineOneF] (by decide) (by decide)
  exact ⟨db, s, hgen, hs, query_present [lineZero, lineOneF] db s (ascii "000001")
    (by unfold SortedByHash; decide) hgen hs (by decide) (by decide)
    ⟨lineOneF, by simp, by decide⟩ (by decide) (by decide) (by decide)⟩

theorem countBelow_append (xs ys : List (List Nat)) (p : Nat) :
    countBelow (xs ++ ys) p = countBelow xs p + countBelow ys p := by
  simp [countBelow, List.countP_append]

theorem wrapCorpus_ok :
    ∀ l ∈ List.replicate wrapCount lineZero ++ [lineOneF], lineOk l = true := by
  intro l hl
  rcases List.mem_append.1 hl with hl | hl
  · exact replicate_ok _ lineZero (by decide) l hl
  · rw [List.mem_singleton.1 hl]
    decide

theorem wrapCorpus_sorted : SortedByHash (List.replicate wrapCount lineZero ++ [lineOneF]) := by
  unfold SortedByHash
  rw [List.pairwise_append]
  refine ⟨replicate_sorted _ _, List.pairwise_singleton _ _, ?_⟩
  intro a ha b hb
  rw [List.eq_of_mem_replicate ha, List.mem_singleton.1 hb]
  decide

theorem wrapCount_succ : wrapCount = (wrapCount - 1) + 1 := by
  rw [wrapCount_eq]
  rfl

/-- After `2^32` lines with prefix `000000` the record counter is back at
zero: the query `000001` is answered with the first record of the file. -/
theorem wrap_query (front rest : List (List Nat)) (first : List Nat) (db : Database)
    (hfront : front = first :: rest) (hlen : front.length = 2 ^ 32)
    (hzero : ∀ l ∈ front, pfxOf l = 0)
    (hdb : buildLines (front ++ [lineOneF]) = .ok db) :
    fetchPrefix { addresses := db.addresses, db := db.file } (ascii "000001")
      = .json [(suffixOf first).map lowerHex] := by
  have hok := buildLines_lines_ok _ db hdb
  have hspfx : (front ++ [lineOneF]).Pairwise (fun a b => pfxOf a ≤ pfxOf b) := by
    rw [List.pairwise_append]
    refine ⟨List.pairwise_of_forall_mem_list ?_, List.pairwise_singleton _ _, ?_⟩
    · intro a ha b hb
      rw [hzero a ha, hzero b hb]
    · intro a ha b _
      rw [hzero a ha]
      exact Nat.zero_le _
  have hcf : ∀ p, 0 < p → countBelow front p = 2 ^ 32 := by
    intro p hp
    rw [← hlen]
    unfold countBelow
    rw [List.countP_eq_length]
    intro a ha
    rw [hzero a ha]
    simpa using hp
  have hc1 : countBelow (front ++ [lineOneF]) 1 = 2 ^ 32 := by
    rw [countBelow_append, hcf 1 (by omega)]
    rfl
  have hc2 : countBelow (front ++ [lineOneF]) (1 + 1) = 2 ^ 32 + 1 := by
    rw [countBelow_append, hcf (1 + 1) (by omega)]
    rfl
  have h1 := buildLines_table _ db hdb hspfx 1 (by omega)
  have h2 := buildLines_table _ db hdb hspfx (1 + 1) (by omega)
  rw [hc1] at h1
  rw [hc2] at h2
  have h1z : db.addresses[1]? = some 0 := h1
  have h2z : db.addresses[1 + 1]? = some 1 := h2
  have hrecs : ∀ r ∈ (front ++ [lineOneF]).map recordOf, r.length = 17 := by
    intro r hr
    obtain ⟨l, hl, rfl⟩ := List.mem_map.1 hr
    exact (decode_suffix (hok l hl)).2
  have hst : 1 ≤ ((front ++ [lineOneF]).map recordOf).length := by
    rw [List.length_map, List.length_append, hlen]
    omega
  have hblock := fetchRange_block db.addresses (encodeTable db.addresses)
    ((front ++ [lineOneF]).map recordOf) 1 0 1 hrecs
    (by rw [encodeTable_length, buildLines_length _ db hdb]) h1z h2z (by omega)
    hst (by omega) (by omega)
  have hfile : db.file = encodeTable db.addresses ++
      ((front ++ [lineOneF]).map recordOf).flatten := by
    rw [Database.file, buildLines_records _ db hdb]
  have hfirst : (((front ++ [lineOneF]).map recordOf).drop 0).take (1 - 0)
      = [recordOf first] := by
    rw [hfront]
    rfl
  have hq : fetchPrefix { addresses := db.addresses, db := db.file } (ascii "000001")
      = fetchRange { addresses := db.addresses, db := db.file } 1 :=
    fetchPrefix_accept _ (ascii "000001") (by decide) (by decide)
  have hfm : first ∈ front ++ [lineOneF] := by
    rw [hfront]
    simp
  rw [hq, hfile, hblock, hfirst, List.map_cons, List.map_nil, encode_record (hok first hfm)]

theorem toHex_length (w i : Nat) : (toHex w i).length = w := by
  induction w generalizing i with
  | zero => rfl
  | succ w ih => simp [toHex, ih]

theorem fromHexChar_hextable (v : Nat) (hv : v < 16) :
    fromHexChar (hextable.getD v 0) = some v := by
  interval_cases v <;> rfl

theorem toHex_hex (w i : Nat) : ∀ c ∈ toHex w i, isHex c = true := by
  induction w generalizing i with
  | zero => intro c hc; simp [toHex] at hc
  | succ w ih =>
    intro c hc
    simp only [toHex, List.mem_append, List.mem_singleton] at hc
    rcases hc with hc | rfl
    · exact ih _ c hc
    · rw [isHex_iff]
      exact ⟨_, fromHexChar_hextable _ (Nat.mod_lt _ (by omega))⟩

theorem hexVal_toHex (w i : Nat) : hexVal (toHex w i) = i % 16 ^ w := by
  induction w generalizing i with
  | zero => simp [toHex, hexVal, hexFold, Nat.mod_one]
  | succ w ih =>
    have ih1 := ih (i / 16)
    unfold hexVal at ih1 ⊢
    rw [toHex, hexFold_append, ih1, hexFold_cons,
      fromHexChar_hextable _ (Nat.mod_lt _ (by omega))]
    simp only [Option.getD_some, hexFold, List.foldl_nil]
    rw [pow_succ, Nat.mul_comm (16 ^ w) 16, Nat.mod_mul]
    omega

theorem hexLine_ok (i : Nat) : lineOk (hexLine i) = true := by
  rw [lineOk_iff]
  have hl : (hexLine i).length = 40 := by
    simp only [hexLine, List.length_append, toHex_length]
    rfl
  refine ⟨by omega, ?_⟩
  intro c hc
  rw [List.take_of_length_le (by omega)] at hc
  simp only [hexLine, List.mem_append] at hc
  rcases hc with hc | hc
  · have : ∀ d ∈ ascii "000000", isHex d = true := by decide
    exact this c hc
  · exact toHex_hex 34 i c hc

theorem hexLine_pfx (i : Nat) : pfxOf (hexLine i) = 0 := by
  have : (hexLine i).take 6 = ascii "000000" := by
    unfold hexLine
    rw [List.take_append_of_le_length (by decide)]
    rfl
  rw [pfxOf, this]
  rfl

theorem hexLine_suffix (i : Nat) : suffixOf (hexLine i) = toHex 34 i := by
  have hl : (hexLine i).length = 40 := by
    simp only [hexLine, List.length_append, toHex_length]
    rfl
  rw [suffixOf, List.take_of_length_le (by omega)]
  unfold hexLine
  exact List.drop_left (ascii "000000") _

theorem hexLine_hash (i : Nat) (hi : i < 2 ^ 32) : hashOf (hexLine i) = i := by
  rw [(hashOf_eq (hexLine_ok i)).1, hexLine_pfx, hexLine_suffix, hexVal_toHex]
  have : i % 16 ^ 34 = i := Nat.mod_eq_of_lt (by
    have : (2:Nat) ^ 32 < 16 ^ 34 := by norm_num
    omega)
  omega

theorem wrapCorpus_short :
    ∀ l ∈ List.replicate wrapCount lineZero ++ [lineOneF], l.length < maxTokenSize := by
  intro l hl
  rcases List.mem_append.1 hl with hl | hl
  · exact replicate_short _ lineZero (by decide) l hl
  · rw [List.mem_singleton.1 hl]
    decide

/-- Counterexample to C1 as stated, at three inputs. On `2^32` copies of
`lineZero` followed by `lineOneF`, a sorted corpus that builds, the query
`000001` is answered with the suffix of `lineZero`, while the only line with
the leading characters `000001` is `lineOneF`. On the one-line corpus
`lineUpper` the query `000000` is answered with 34 times `a`, which is not
the characters 6 through 39 of the line. On the sorted corpus `longCorpus`,
whose second line has `maxTokenSize` bytes, the build succeeds and the query
`000002` is answered with the empty array, while the third line has the
leading characters `000002`. -/
theorem query_present_counterexample :
    (SortedByHash (List.replicate wrapCount lineZero ++ [lineOneF]) ∧
      ((List.replicate wrapCount lineZero ++ [lineOneF]).filter
        (fun l => decide (l.take 6 = ascii "000001"))).map suffixOf = [suffixOf lineOneF] ∧
      suffixOf lineZero ≠ suffixOf lineOneF ∧
      ∃ db s, generateDB (List.replicate wrapCount lineZero ++ [lineOneF]) = .ok db ∧
        serve db.file = some s ∧
        fetchPrefix s (ascii "000001") = .json [suffixOf lineZero]) ∧
    (SortedByHash [lineUpper] ∧
      ([lineUpper].filter (fun l => decide (l.take 6 = ascii "000000"))).map suffixOf
        = [suffixOf lineUpper] ∧
      ∃ db s, generateDB [lineUpper] = .ok db ∧ serve db.file = some s ∧
        fetchPrefix s (ascii "000000") = .json [(suffixOf lineUpper).map lowerHex] ∧
        (suffixOf lineUpper).map lowerHex ≠ suffixOf lineUpper) ∧
    (SortedByHash longCorpus ∧
      (longCorpus.filter (fun l => decide (l.take 6 = ascii "000002"))).map suffixOf
        = [suffixOf lineTwo] ∧
      ∃ db s, generateDB longCorpus = .ok db ∧ serve db.file = some s ∧
        fetchPrefix s (ascii "000002") = .json []) := by
  refine ⟨?_, ?_, ?_⟩
  · rw [generateDB_short _ wrapCorpus_short]
    have hfilter : ((List.replicate wrapCount lineZero ++ [lineOneF]).filter
        (fun l => decide (l.take 6 = ascii "000001"))).map suffixOf = [suffixOf lineOneF] := by
      rw [List.filter_append, List.filter_replicate, if_neg (by decide)]
      rfl
    obtain ⟨db, s, hdb, hs⟩ := serve_built _ wrapCorpus_ok
    refine ⟨wrapCorpus_sorted, hfilter, by decide, db, s, hdb, hs, ?_⟩
    rw [serve_file _ db hdb] at hs
    cases hs
    have hq := wrap_query (List.replicate wrapCount lineZero)
      (List.replicate (wrapCount - 1) lineZero) lineZero db
      (by rw [← List.replicate_succ, ← wrapCount_succ])
      (by rw [List.length_replicate, wrapCount_eq])
      (fun l hl => by rw [List.eq_of_mem_replicate hl]; decide) hdb
    rw [hq]
    decide
  · rw [generateDB_short [lineUpper] (by decide)]
    obtain ⟨db, s, hdb, hs⟩ := serve_built [lineUpper] (by decide)
    have hsorted : SortedByHash [lineUpper] := by
      unfold SortedByHash
      decide
    refine ⟨hsorted, by decide, db, s, hdb, hs, ?_, by decide⟩
    have hq : fetchPrefix s (ascii "000000") = fetchRange s 0 :=
      fetchPrefix_accept _ (ascii "000000") (by decide) (by decide)
    rw [hq, query_built [lineUpper] db s hdb hs (by decide) (by decide) 0 (by omega) (by decide)]
    decide
  · obtain ⟨db, s, hgen, hdb, hs⟩ := longCorpus_built
    have hfilter : (longCorpus.filter (fun l => decide (l.take 6 = ascii "000002"))).map suffixOf
        = [suffixOf lineTwo] := by
      simp only [longCorpus, List.filter_cons, lineOneLong_take6]
      decide
    refine ⟨longCorpus_sorted, hfilter, db, s, hgen, hs, ?_⟩
    have hq : fetchPrefix s (ascii "000002") = fetchRange s 2 :=
      fetchPrefix_accept _ (ascii "000002") (by decide) (by decide)
    rw [hq, query_built [lineZero] db s hdb hs (by decide) (by decide) 2 (by omega) (by decide)]
    decide

/-- C5. Absent prefix: for a corpus sorted ascending by hash on which
`generateDB` succeeds (of any size) and a prefix `p` of 6 hexadecimal
characters whose value is not the value of the leading 6 characters of any
corpus line, `fetchPrefix` on the built database reads two equal table
entries, so that `count = 0`, and answers with status 200 and the empty
array. -/
theorem query_absent (corpus : List (List Nat)) (db : Database) (s : Server)
    (prefixString : List Nat) (hsorted : SortedByHash corpus)
    (hbuild : generateDB corpus = .ok db) (hserve : serve db.file = some s)
    (hlen : prefixString.length = 6) (hhex : prefixString.all isHex = true)
    (habsent : ∀ l ∈ corpus, pfxOf l ≠ hexVal prefixString) :
    (∃ offset, lookupOffsets s.addresses (hexVal prefixString) = some (offset, offset) ∧
      (offset + 2 ^ 32 - offset) % 2 ^ 32 = 0) ∧
    fetchPrefix s prefixString = .json [] := by
  rw [generateDB_scan] at hbuild
  have hsorted2 : SortedByHash (scanLines corpus) :=
    List.Pairwise.sublist (scanLines_initial corpus).sublist hsorted
  have habsent2 : ∀ l ∈ scanLines corpus, pfxOf l ≠ hexVal prefixString :=
    fun l hl => habsent l (scanLines_mem hl).1
  have hok := buildLines_lines_ok _ db hbuild
  have hs := sorted_pfx _ hok hsorted2
  have hp := hexVal_six_lt _ hlen hhex
  rw [serve_file _ db hbuild] at hserve
  cases hserve
  have h1 := buildLines_table _ db hbuild hs (hexVal prefixString) (by omega)
  have h2 := buildLines_table _ db hbuild hs (hexVal prefixString + 1) (by omega)
  rw [countBelow_absent _ _ habsent2] at h2
  have hlook := lookupOffsets_some db.addresses _ _ _ h1 h2
  have hzero : ∀ a : Nat, (a + 2 ^ 32 - a) % 2 ^ 32 = 0 := by
    intro a
    omega
  refine ⟨⟨_, hlook, hzero _⟩, ?_⟩
  rw [fetchPrefix_accept _ prefixString hlen hhex]
  simp only [fetchRange, hlook, hzero]
  rw [encodeLoop]
  simp

/-- Witness of C5: the corpus `lineZero, lineOneF` and the prefix
`000002`. -/
theorem query_absent_witness :
    ∃ db s, generateDB [lineZero, lineOneF] = .ok db ∧ serve db.file = some s ∧
      (∃ offset, lookupOffsets s.addresses (hexVal (ascii "000002")) = some (offset, offset) ∧
        (offset + 2 ^ 32 - offset) % 2 ^ 32 = 0) ∧
      fetchPrefix s (ascii "000002") = .json [] := by
  obtain ⟨db, s, hgen, -, hs⟩ := generated_built [lineZero, lineOneF] (by decide) (by decide)
  exact ⟨db, s, hgen, hs, query_absent [lineZero, lineOneF] db s (ascii "000002")
    (by unfold SortedByHash; decide) hgen hs (by decide) (by decide) (by decide)⟩


/-! ### Round trip -/

theorem fromHexChar_lower (c : Nat) : fromHexChar (lowerHex c) = fromHexChar c := by
  unfold lowerHex
  by_cases h : 65 ≤ c ∧ c ≤ 70
  · have h1 : ¬ (48 ≤ c ∧ c ≤ 57) := by omega
    have h2 : ¬ (97 ≤ c ∧ c ≤ 102) := by omega
    have h3 : ¬ (48 ≤ c + 32 ∧ c + 32 ≤ 57) := by omega
    have h4 : 97 ≤ c + 32 ∧ c + 32 ≤ 102 := by omega
    simp only [h, and_self, if_true, fromHexChar, h1, h2, h3, h4, if_false, Option.some.injEq]
    omega
  · simp only [h, if_false]

theorem hexFold_lower (n : Nat) (s : List Nat) : hexFold n (s.map lowerHex) = hexFold n s := by
  induction s generalizing n with
  | nil => rfl
  | cons c s ih =>
    rw [List.map_cons, hexFold_cons, hexFold_cons, fromHexChar_lower, ih]

theorem count_map_one {α β : Type} [DecidableEq β] (g : α → β) (L : List α) (x : α)
    (hx : x ∈ L) (hpw : L.Pairwise (fun a b => g a ≠ g b)) :
    (L.map g).countP (fun h => decide (h = g x)) = 1 := by
  induction L with
  | nil => simp at hx
  | cons a L ih =>
    rw [List.pairwise_cons] at hpw
    obtain ⟨ha, hL⟩ := hpw
    rw [List.map_cons, List.countP_cons]
    by_cases hg : g a = g x
    · have hzero : (L.map g).countP (fun h => decide (h = g x)) = 0 := by
        rw [List.countP_eq_zero]
        intro b hb
        obtain ⟨c, hc, rfl⟩ := List.mem_map.1 hb
        have := ha c hc
        rw [hg] at this
        simpa using fun h => this h.symm
      simp [hg, hzero]
    · have hxL : x ∈ L := by
        rcases List.mem_cons.1 hx with rfl | h
        · exact absurd rfl hg
        · exact h
      simp [hg, ih hxL hL]

/-- Among well-formed lines with the same prefix, equal lower-case suffixes
mean equal hashes. -/
theorem hash_eq_of_suffix {a b : List Nat} (ha : lineOk a = true) (hb : lineOk b = true)
    (hp : pfxOf a = pfxOf b)
    (hs : (suffixOf a).map lowerHex = (suffixOf b).map lowerHex) : hashOf a = hashOf b := by
  have h1 : hexVal (suffixOf a) = hexVal (suffixOf b) := by
    unfold hexVal
    rw [← hexFold_lower 0 (suffixOf a), ← hexFold_lower 0 (suffixOf b), hs]
  rw [(hashOf_eq ha).1, (hashOf_eq hb).1, hp, h1]

/-- C9 (amended). Round trip: for a corpus sorted ascending by hash, without
duplicate hashes and with fewer than `2^32` lines, each shorter than
`maxTokenSize` (16 MiB), on which `generateDB` succeeds, and for every corpus
entry `H` whose prefix is shared by fewer than `2^32 / 17` lines, the answer
of `fetchPrefix` for the leading 6 characters of `H` contains the characters
6 through 39 of `H`, in lower case, exactly once. -/
theorem round_trip (corpus : List (List Nat)) (db : Database) (s : Server) (line : List Nat)
    (hsorted : SortedByHash corpus) (hnodup : NoDupHash corpus)
    (hbuild : generateDB corpus = .ok db) (hserve : serve db.file = some s)
    (hmem : line ∈ corpus) (hn : corpus.length < 2 ^ 32)
    (hfit : 17 * (linesWith corpus (pfxOf line)).length < 2 ^ 32)
    (hshort : ∀ l ∈ corpus, l.length < maxTokenSize) :
    ∃ hashesHex, fetchPrefix s (line.take 6) = .json hashesHex ∧
      hashesHex.countP (fun h => decide (h = (suffixOf line).map lowerHex)) = 1 := by
  rw [generateDB_short corpus hshort] at hbuild
  have hok := buildLines_lines_ok corpus db hbuild
  have hl := hok line hmem
  refine ⟨(linesWith corpus (pfxOf line)).map (fun l => (suffixOf l).map lowerHex), ?_, ?_⟩
  · rw [fetchPrefix_accept s _ (take6_hex hl).1 (take6_hex hl).2]
    exact query_built corpus db s hbuild hserve (sorted_pfx corpus hok hsorted) hn (pfxOf line)
      (pfxOf_lt hl) hfit
  · have hin : line ∈ linesWith corpus (pfxOf line) := by
      simp [linesWith, hmem]
    apply count_map_one (fun l => (suffixOf l).map lowerHex) _ line hin
    have hsub : (linesWith corpus (pfxOf line)).Pairwise (fun a b => hashOf a ≠ hashOf b) :=
      List.Pairwise.sublist (List.filter_sublist _) hnodup
    refine List.Pairwise.imp_of_mem ?_ hsub
    intro a b ha hb hne heq
    apply hne
    have hac := List.mem_filter.1 ha
    have hbc := List.mem_filter.1 hb
    have hpa : pfxOf a = pfxOf line := by simpa using hac.2
    have hpb : pfxOf b = pfxOf line := by simpa using hbc.2
    exact hash_eq_of_suffix (hok a hac.1) (hok b hbc.1) (hpa.trans hpb.symm) heq

/-- Witness of C9: the corpus `lineZero, lineOneF` and its entry
`lineOneF`. -/
theorem round_trip_witness :
    ∃ db s, generateDB [lineZero, lineOneF] = .ok db ∧ serve db.file = some s ∧
      ∃ hashesHex, fetchPrefix s (lineOneF.take 6) = .json hashesHex ∧
        hashesHex.countP (fun h => decide (h = (suffixOf lineOneF).map lowerHex)) = 1 := by
  obtain ⟨db, s, hgen, -, hs⟩ := generated_built [lineZero, lineOneF] (by decide) (by decide)
  exact ⟨db, s, hgen, hs, round_trip [lineZero, lineOneF] db s lineOneF
    (by unfold SortedByHash; decide) (by unfold NoDupHash; decide) hgen hs (by simp)
    (by decide) (by decide) (by decide)⟩

theorem hexLine_length (i : Nat) : (hexLine i).length = 40 := by
  simp only [hexLine, List.length_append, toHex_length]
  rfl

theorem hexCorpus_short :
    ∀ l ∈ (List.range wrapCount).map hexLine ++ [lineOneF], l.length < maxTokenSize := by
  intro l hl
  rcases List.mem_append.1 hl with hl | hl
  · obtain ⟨i, -, rfl⟩ := List.mem_map.1 hl
    rw [hexLine_length, maxTokenSize_eq]
    omega
  · rw [List.mem_singleton.1 hl]
    decide

theorem hexCorpus_ok :
    ∀ l ∈ (List.range wrapCount).map hexLine ++ [lineOneF], lineOk l = true := by
  intro l hl
  rcases List.mem_append.1 hl with hl | hl
  · obtain ⟨i, -, rfl⟩ := List.mem_map.1 hl
    exact hexLine_ok i
  · rw [List.mem_singleton.1 hl]
    decide

/-- The lines `hexLine 0, .., hexLine (2^32 - 1)` followed by `lineOneF`
have strictly increasing hashes. -/
theorem hexCorpus_increasing :
    ((List.range wrapCount).map hexLine ++ [lineOneF]).Pairwise
      (fun a b => hashOf a < hashOf b) := by
  have hbig : 2 ^ 32 ≤ hashOf lineOneF := by decide
  rw [List.pairwise_append]
  refine ⟨?_, List.pairwise_singleton _ _, ?_⟩
  · rw [List.pairwise_map]
    refine List.Pairwise.imp_of_mem ?_ (List.pairwise_lt_range wrapCount)
    intro i j hi hj hij
    rw [List.mem_range, wrapCount_eq] at hi hj
    rw [hexLine_hash i hi, hexLine_hash j hj]
    exact hij
  · intro a ha b hb
    obtain ⟨i, hi, rfl⟩ := List.mem_map.1 ha
    rw [List.mem_range, wrapCount_eq] at hi
    rw [List.mem_singleton.1 hb, hexLine_hash i hi]
    omega

/-- Counterexample to C9 as stated, at three inputs. On the one-line corpus
`lineUpper`, sorted and without duplicates, the answer for the leading 6
characters of the line is one string of 34 times `a`; it does not contain the
characters 6 through 39 of the line, 34 times `A`. On the `2^32` lines
`hexLine i` followed by `lineOneF`, sorted and without duplicates, the answer
for the leading 6 characters of the entry `lineOneF` is the suffix of
`hexLine 0`; it does not contain the suffix of `lineOneF`. On `longCorpus`,
sorted and without duplicates, whose second line has `maxTokenSize` bytes,
the answer for the leading 6 characters of the entry `lineTwo` is the empty
array. -/
theorem round_trip_counterexample :
    (SortedByHash [lineUpper] ∧ NoDupHash [lineUpper] ∧
      ∃ db s, generateDB [lineUpper] = .ok db ∧ serve db.file = some s ∧
        fetchPrefix s (lineUpper.take 6) = .json [(suffixOf lineUpper).map lowerHex] ∧
        [(suffixOf lineUpper).map lowerHex].countP (fun h => decide (h = suffixOf lineUpper)) = 0) ∧
    (SortedByHash ((List.range wrapCount).map hexLine ++ [lineOneF]) ∧
      NoDupHash ((List.range wrapCount).map hexLine ++ [lineOneF]) ∧
      lineOneF ∈ (List.range wrapCount).map hexLine ++ [lineOneF] ∧
      ∃ db s, generateDB ((List.range wrapCount).map hexLine ++ [lineOneF]) = .ok db ∧
        serve db.file = some s ∧
        fetchPrefix s (lineOneF.take 6) = .json [suffixOf (hexLine 0)] ∧
        [suffixOf (hexLine 0)].countP (fun h => decide (h = suffixOf lineOneF)) = 0 ∧
        [suffixOf (hexLine 0)].countP
          (fun h => decide (h = (suffixOf lineOneF).map lowerHex)) = 0) ∧
    (SortedByHash longCorpus ∧ NoDupHash longCorpus ∧ lineTwo ∈ longCorpus ∧
      ∃ db s, generateDB longCorpus = .ok db ∧ serve db.file = some s ∧
        fetchPrefix s (lineTwo.take 6) = .json []) := by
  refine ⟨?_, ?_, ?_⟩
  · rw [generateDB_short [lineUpper] (by decide)]
    obtain ⟨db, s, hdb, hs⟩ := serve_built [lineUpper] (by decide)
    have hsorted : SortedByHash [lineUpper] := by
      unfold SortedByHash
      decide
    have hnodup : NoDupHash [lineUpper] := by
      unfold NoDupHash
      decide
    refine ⟨hsorted, hnodup, db, s, hdb, hs, ?_, by decide⟩
    have hq : fetchPrefix s (lineUpper.take 6) = fetchRange s 0 :=
      fetchPrefix_accept _ (lineUpper.take 6) (by decide) (by decide)
    rw [hq, query_built [lineUpper] db s hdb hs (by decide) (by decide) 0 (by omega) (by decide)]
    decide
  · rw [generateDB_short _ hexCorpus_short]
    obtain ⟨db, s, hdb, hs⟩ := serve_built _ hexCorpus_ok
    refine ⟨hexCorpus_increasing.imp (fun h => Nat.le_of_lt h),
      hexCorpus_increasing.imp (fun h => Nat.ne_of_lt h), by simp, db, s, hdb, hs, ?_,
      by decide, by decide⟩
    rw [serve_file _ db hdb] at hs
    cases hs
    have h6 : lineOneF.take 6 = ascii "000001" := by decide
    have hq := wrap_query ((List.range wrapCount).map hexLine)
      ((List.map Nat.succ (List.range (wrapCount - 1))).map hexLine) (hexLine 0) db
      (by rw [wrapCount_succ, List.range_succ_eq_map, List.map_cons, ← wrapCount_succ])
      (by rw [List.length_map, List.length_range, wrapCount_eq])
      (fun l hl => by
        obtain ⟨i, -, rfl⟩ := List.mem_map.1 hl
        exact hexLine_pfx i) hdb
    rw [h6, hq]
    decide
  · obtain ⟨db, s, hgen, hdb, hs⟩ := longCorpus_built
    refine ⟨longCorpus_sorted, longCorpus_nodup, lineTwo_mem_longCorpus, db, s, hgen, hs, ?_⟩
    have hq : fetchPrefix s (lineTwo.take 6) = fetchRange s 2 :=
      fetchPrefix_accept _ (lineTwo.take 6) (by decide) (by decide)
    rw [hq, query_built [lineZero] db s hdb hs (by decide) (by decide) 2 (by omega) (by decide)]
    decide

/-! ### The encode loop in general -/

theorem ReadAt_length (file : List Nat) (n off : Nat) : (ReadAt file n off).length = n := by
  simp only [ReadAt, List.length_append, List.length_take, List.length_drop,
    List.length_replicate]
  omega

theorem slice_some {xs : List Nat} {lo hi : Nat} {h : List Nat} (hs : slice xs lo hi = some h) :
    lo ≤ hi ∧ hi ≤ xs.length ∧ h = (xs.take hi).drop lo ∧ h.length = hi - lo := by
  unfold slice at hs
  split_ifs at hs with hc
  simp only [Option.some.injEq] at hs
  refine ⟨hc.1, hc.2, hs.symm, ?_⟩
  rw [← hs, List.length_drop, List.length_take]
  omega

theorem encodeLoop_spec (hashes : List Nat) (len : Nat) (m : Nat) :
    ∀ (i : Nat) (hs : List (List Nat)), len - i = m → encodeLoop hashes len i = some hs →
      hs.length = len - i ∧ (i < len → len * 17 ≤ hashes.length) ∧
      ∀ j, j < hs.length → hs[j]? =
        some (EncodeToString ((hashes.take ((i + j + 1) * 17)).drop ((i + j) * 17))) := by
  induction m with
  | zero =>
    intro i hs hm h
    rw [encodeLoop] at h
    have hn : ¬ i < len := by omega
    simp only [hn, if_false, Option.some.injEq] at h
    subst h
    refine ⟨by simp; omega, fun hlt => absurd hlt hn, ?_⟩
    intro j hj
    simp at hj
  | succ m ih =>
    intro i hs hm h
    rw [encodeLoop] at h
    have hlt : i < len := by omega
    simp only [hlt, if_true] at h
    cases hsl : slice hashes (i * 17) ((i + 1) * 17) with
    | none => simp [hsl] at h
    | some chunk =>
      cases hrec : encodeLoop hashes len (i + 1) with
      | none => simp [hsl, hrec] at h
      | some rest =>
        simp only [hsl, hrec, Option.some.injEq] at h
        subst h
        obtain ⟨hl, hfit, hget⟩ := ih (i + 1) rest (by omega) hrec
        obtain ⟨-, hhi, hchunk, -⟩ := slice_some hsl
        refine ⟨by simp only [List.length_cons, hl]; omega, ?_, ?_⟩
        · intro _
          by_cases hlast : i + 1 < len
          · exact hfit hlast
          · have : len = i + 1 := by omega
            rw [this]
            exact hhi
        · intro j hj
          cases j with
          | zero =>
            simp only [List.getElem?_cons_zero, Nat.add_zero, hchunk]
          | succ j =>
            simp only [List.length_cons] at hj
            rw [List.getElem?_cons_succ, hget j (by omega)]
            have e1 : i + 1 + j + 1 = i + (j + 1) + 1 := by omega
            have e2 : i + 1 + j = i + (j + 1) := by omega
            rw [e1, e2]

/-- A run of the encode loop that returns has produced `len` strings and has
found `len` whole records in the buffer. -/
theorem encodeLoop_some (hashes : List Nat) (len : Nat) (hs : List (List Nat))
    (h : encodeLoop hashes len 0 = some hs) :
    hs.length = len ∧ (0 < len → len * 17 ≤ hashes.length) ∧
      ∀ j, j < hs.length → hs[j]? =
        some (EncodeToString ((hashes.take ((j + 1) * 17)).drop (j * 17))) := by
  obtain ⟨h1, h2, h3⟩ := encodeLoop_spec hashes len (len - 0) 0 hs rfl h
  refine ⟨by simpa using h1, h2, ?_⟩
  intro j hj
  simpa using h3 j hj

/-- The encode loop panics when the buffer is shorter than `len` records. -/
theorem encodeLoop_short (hashes : List Nat) (len : Nat) (hpos : 0 < len)
    (hshort : hashes.length < len * 17) : encodeLoop hashes len 0 = none := by
  cases h : encodeLoop hashes len 0 with
  | none => rfl
  | some hs =>
    have := (encodeLoop_some hashes len hs h).2.1 hpos
    omega

theorem fullCount_eq : fullCount = 252645136 := rfl

/-- C11, the code at a failing input. The database built from `252645136`
copies of `lineZero` has a non-decreasing table with `addresses[0] = 0` and
`addresses[1] = 252645136`; for the prefix `000000` the product `17*count` is
`2^32 + 16`, the `uint32` product of the source is `16`, the buffer has 16
bytes and the encode loop panics on its first slice: no array is returned. -/
theorem read_range_failing :
    ∃ db s, generateDB (List.replicate fullCount lineZero) = .ok db ∧
      serve db.file = some s ∧
      (∀ k, k < 2 ^ 24 → db.addresses[k]?.getD 0 ≤ db.addresses[k + 1]?.getD 0) ∧
      lookupOffsets s.addresses 0 = some (0, 252645136) ∧
      17 * 252645136 = 2 ^ 32 + 16 ∧
      (ReadAt s.db (17 * 252645136 % 2 ^ 32) (4 * addrMapSize + 0 * 17)).length = 16 ∧
      fetchPrefix s (ascii "000000") = .panicked := by
  rw [generateDB_short _ (replicate_short fullCount lineZero (by decide))]
  have hok := replicate_ok fullCount lineZero (by decide)
  have hsorted := sorted_pfx _ hok (replicate_sorted fullCount lineZero)
  obtain ⟨db, s, hdb, hs⟩ := serve_built _ hok
  have hn : (List.replicate fullCount lineZero).length < 2 ^ 32 := by
    rw [List.length_replicate, fullCount_eq]
    omega
  have h0 := buildLines_table _ db hdb hsorted 0 (by omega)
  have h1 := buildLines_table _ db hdb hsorted (0 + 1) (by omega)
  rw [countBelow_replicate, if_neg (by decide)] at h0
  rw [countBelow_replicate, if_pos (by decide), fullCount_eq] at h1
  have h0z : db.addresses[0]? = some 0 := h0
  have h1z : db.addresses[0 + 1]? = some 252645136 := h1
  have hsv := hs
  rw [serve_file _ db hdb] at hsv
  cases hsv
  have hlook := lookupOffsets_some db.addresses 0 0 252645136 h0z h1z
  refine ⟨db, _, hdb, hs, fun k hk => buildLines_mono _ db hdb hn k hk, hlook, by norm_num,
    ReadAt_length _ _ _, ?_⟩
  have hq : fetchPrefix { addresses := db.addresses, db := db.file } (ascii "000000")
      = fetchRange { addresses := db.addresses, db := db.file } 0 :=
    fetchPrefix_accept _ (ascii "000000") (by decide) (by decide)
  have hlen : (252645136 + 2 ^ 32 - 0) % 2 ^ 32 = 252645136 := by norm_num
  have hshort := encodeLoop_short
    (ReadAt db.file (17 * 252645136 % 2 ^ 32) (4 * addrMapSize + 0 * 17)) 252645136
    (by omega) (by rw [ReadAt_length]; norm_num)
  rw [hq]
  simp only [fetchRange, hlook, hlen, hshort]

/-! ### Reads past the end of the file -/

theorem encodeLoop_full (hashes : List Nat) (len : Nat) (m : Nat) :
    ∀ i, len - i = m → len * 17 ≤ hashes.length → ∃ hs, encodeLoop hashes len i = some hs := by
  induction m with
  | zero =>
    intro i hm _
    refine ⟨[], ?_⟩
    rw [encodeLoop]
    have hn : ¬ i < len := by omega
    simp only [hn, if_false]
  | succ m ih =>
    intro i hm hfit
    have hlt : i < len := by omega
    obtain ⟨rest, hrest⟩ := ih (i + 1) (by omega) hfit
    have hb : i * 17 ≤ (i + 1) * 17 ∧ (i + 1) * 17 ≤ hashes.length := by
      constructor
      · omega
      · have : (i + 1) * 17 ≤ len * 17 := Nat.mul_le_mul_right 17 hlt
        omega
    refine ⟨EncodeToString ((hashes.take ((i + 1) * 17)).drop (i * 17)) :: rest, ?_⟩
    rw [encodeLoop]
    simp only [hlt, if_true, slice, hb, and_self, hrest]

/-- When the two table entries are in order and the product `17*count` fits
32 bits, `fetchPrefix` reads a buffer of exactly `17*count` bytes at the file
offset `4*(2^24+1) + 17*start` and answers with exactly `count` strings,
whatever the file holds. -/
theorem read_range_fits (s : Server) (p start stop : Nat)
    (hlook : lookupOffsets s.addresses p = some (start, stop)) (hle : start ≤ stop)
    (hfit : 17 * (stop - start) < 2 ^ 32) :
    ∃ hashesHex,
      encodeLoop (ReadAt s.db (17 * (stop - start)) (4 * (2 ^ 24 + 1) + 17 * start))
        (stop - start) 0 = some hashesHex ∧
      fetchRange s p = .json hashesHex ∧ hashesHex.length = stop - start := by
  have hlen : (stop + 2 ^ 32 - start) % 2 ^ 32 = stop - start := by omega
  have hbuf : 17 * (stop - start) % 2 ^ 32 = 17 * (stop - start) := Nat.mod_eq_of_lt hfit
  have hoff : 4 * addrMapSize + start * 17 = 4 * (2 ^ 24 + 1) + 17 * start := by
    rw [addrMapSize_eq]
    omega
  obtain ⟨hs, hhs⟩ := encodeLoop_full
    (ReadAt s.db (17 * (stop - start)) (4 * (2 ^ 24 + 1) + 17 * start)) (stop - start)
    (stop - start - 0) 0 rfl (by rw [ReadAt_length]; omega)
  refine ⟨hs, hhs, ?_, (encodeLoop_some _ _ hs hhs).1⟩
  simp only [fetchRange, hlook, hlen, hbuf, hoff, hhs]

theorem ReadAt_past_end (file : List Nat) (n off : Nat) (h : file.length ≤ off) :
    ReadAt file n off = List.replicate n 0 := by
  simp only [ReadAt, List.drop_eq_nil_of_le h, List.take_nil, List.length_nil, Nat.sub_zero,
    List.nil_append]

/-- C13, the code at a failing input. The database built from the one line
`lineOneF` is cut after its header: the server starts, the table gives one
record for the prefix `000001`, the positioned read of its 17 bytes is past
the end of the file and returns no byte, and `fetchPrefix` answers with
status 200 and one string of 34 zeros made from the untouched buffer. On the
whole file the answer is the suffix of the line. -/
theorem read_failure_silent :
    ∃ db s, generateDB [lineOneF] = .ok db ∧
      serve (db.file.take (4 * addrMapSize)) = some s ∧
      lookupOffsets s.addresses 1 = some (0, 1) ∧
      ((s.db.drop (4 * addrMapSize + 0 * 17)).take 17).length = 0 ∧
      fetchPrefix s (ascii "000001") = .json [List.replicate 34 48] ∧
      ∃ whole, serve db.file = some whole ∧
        fetchPrefix whole (ascii "000001") = .json [suffixOf lineOneF] := by
  rw [generateDB_short [lineOneF] (by decide)]
  obtain ⟨db, whole, hdb, hwhole⟩ := serve_built [lineOneF] (by decide)
  have hlen := buildLines_length _ db hdb
  have henc : (encodeTable db.addresses).length = 4 * addrMapSize := by
    rw [encodeTable_length, hlen]
  have htake : db.file.take (4 * addrMapSize) = encodeTable db.addresses := by
    rw [← henc]
    exact List.take_left _ _
  have hserve : serve (db.file.take (4 * addrMapSize))
      = some { addresses := db.addresses, db := encodeTable db.addresses } := by
    have hnot : ¬ (encodeTable db.addresses).length < 4 * addrMapSize := by omega
    have ht2 : (encodeTable db.addresses).take (4 * addrMapSize) = encodeTable db.addresses := by
      rw [← henc]
      exact List.take_length _
    rw [htake]
    simp only [serve, hnot, if_false, ht2, decode_encodeTable _ (buildLines_u32 _ db hdb)]
  have hsorted : [lineOneF].Pairwise (fun a b => pfxOf a ≤ pfxOf b) := by decide
  have h1 := buildLines_table _ db hdb hsorted 1 (by omega)
  have h2 := buildLines_table _ db hdb hsorted (1 + 1) (by omega)
  have h1z : db.addresses[1]? = some 0 := by
    rw [h1]
    decide
  have h2z : db.addresses[1 + 1]? = some 1 := by
    rw [h2]
    decide
  have hlook := lookupOffsets_some db.addresses 1 0 1 h1z h2z
  have hpast : ReadAt (encodeTable db.addresses) (17 * 1 % 2 ^ 32) (4 * addrMapSize + 0 * 17)
      = List.replicate 17 0 :=
    ReadAt_past_end _ _ _ (by omega)
  have hloop : encodeLoop (List.replicate 17 0) 1 0 = some [List.replicate 34 48] :=
    encodeLoop_records [List.replicate 17 0] (by decide)
  refine ⟨db, _, hdb, hserve, hlook, ?_, ?_, whole, hwhole, ?_⟩
  · rw [List.drop_eq_nil_of_le (by omega : (encodeTable db.addresses).length ≤ _)]
    rfl
  · have hq : fetchPrefix { addresses := db.addresses, db := encodeTable db.addresses }
        (ascii "000001")
        = fetchRange { addresses := db.addresses, db := encodeTable db.addresses } 1 :=
      fetchPrefix_accept _ (ascii "000001") (by decide) (by decide)
    have hl1 : (1 + 2 ^ 32 - 0) % 2 ^ 32 = 1 := by norm_num
    rw [hq]
    simp only [fetchRange, hlook, hl1, hpast, hloop]
  · have hq : fetchPrefix whole (ascii "000001") = fetchRange whole 1 :=
      fetchPrefix_accept _ (ascii "000001") (by decide) (by decide)
    rw [hq, query_built [lineOneF] db whole hdb hwhole hsorted (by decide) 1 (by omega)
      (by decide)]
    decide

/-! ### The concrete scenario -/

/-- Counterexample to C14 as stated: the first line of the scenario has 38
characters and `generateDB` returns the error that quotes it; no database is
built. -/
theorem scenario_counterexample :
    (ascii "00000000000000000000000000000000000000").length = 38 ∧
      generateDB scenarioCorpus = .error (.parseLine (ascii "00000000000000000000000000000000000000")) := by
  refine ⟨by decide, ?_⟩
  have h : (ascii "00000000000000000000000000000000000000").length < 40 := by decide
  have hbig : ¬ maxTokenSize ≤ (ascii "00000000000000000000000000000000000000").length := by
    decide
  simp only [generateDB, scenarioCorpus, genLoop, hbig, if_false, genStep, h, if_true]

/-- C14 (amended). The concrete scenario: `generateDB` on the three lines
returns the error for the first line, which has 38 characters, so there is no
database to query. With the first two lines completed by zeros to 40
characters the build succeeds and the queries give: `000000` one suffix,
`000001` one suffix, `fffffe` one suffix, `ffffff` the empty array. -/
theorem scenario_result :
    generateDB scenarioCorpus = .error (.parseLine (ascii "00000000000000000000000000000000000000")) ∧
    ∃ db s, generateDB paddedCorpus = .ok db ∧ serve db.file = some s ∧
      fetchPrefix s (ascii "000000") = .json [List.replicate 34 48] ∧
      fetchPrefix s (ascii "000001") = .json [List.replicate 34 48] ∧
      fetchPrefix s (ascii "fffffe") = .json [List.replicate 34 48] ∧
      fetchPrefix s (ascii "ffffff") = .json [] := by
  constructor
  · have h : (ascii "00000000000000000000000000000000000000").length < 40 := by decide
    have hbig : ¬ maxTokenSize ≤ (ascii "00000000000000000000000000000000000000").length := by
      decide
    simp only [generateDB, scenarioCorpus, genLoop, hbig, if_false, genStep, h, if_true]
  · rw [generateDB_short paddedCorpus (by decide)]
    obtain ⟨db, s, hdb, hs⟩ := serve_built paddedCorpus (by decide)
    have hsorted : paddedCorpus.Pairwise (fun a b => pfxOf a ≤ pfxOf b) := by decide
    have hquery : ∀ q : List Nat, q.length = 6 → q.all isHex = true →
        fetchPrefix s q
          = .json ((linesWith paddedCorpus (hexVal q)).map (fun l => (suffixOf l).map lowerHex)) := by
      intro q h6 hhex
      rw [fetchPrefix_accept s q h6 hhex]
      have hv := hexVal_six_lt q h6 hhex
      have hcount : (linesWith paddedCorpus (hexVal q)).length ≤ 3 :=
        List.length_filter_le _ _
      exact query_built paddedCorpus db s hdb hs hsorted (by decide) _ hv (by omega)
    refine ⟨db, s, hdb, hs, ?_, ?_, ?_, ?_⟩
    · rw [hquery _ (by decide) (by decide)]
      decide
    · rw [hquery _ (by decide) (by decide)]
      decide
    · rw [hquery _ (by decide) (by decide)]
      decide
    · rw [hquery _ (by decide) (by decide)]
      decide

/-! ### Shape and order of the answer -/

theorem lowerHex_isLower {c : Nat} (h : isHex c = true) : isLowerHexChar (lowerHex c) = true := by
  obtain ⟨v, hv⟩ := isHex_iff.1 h
  unfold fromHexChar at hv
  unfold lowerHex isLowerHexChar
  split_ifs at hv with h1 h2 h3
  · have : ¬ (65 ≤ c ∧ c ≤ 70) := by omega
    simp only [this, if_false, decide_eq_true_eq]
    omega
  · have : ¬ (65 ≤ c ∧ c ≤ 70) := by omega
    simp only [this, if_false, decide_eq_true_eq]
    omega
  · simp only [h3, and_self, if_true, decide_eq_true_eq]
    omega

theorem isLower_isHex {c : Nat} (h : isLowerHexChar c = true) : isHex c = true := by
  unfold isLowerHexChar at h
  simp only [decide_eq_true_eq] at h
  rw [isHex_iff]
  unfold fromHexChar
  rcases h with h | h
  · exact ⟨c - 48, by simp only [h, and_self, if_true]⟩
  · have h1 : ¬ (48 ≤ c ∧ c ≤ 57) := by omega
    exact ⟨c - 97 + 10, by simp only [h1, h, and_self, if_true, if_false]⟩

/-- On lower-case hexadecimal characters the order of the character codes is
the order of the digit values. -/
theorem lower_digit_mono {x y : Nat} (hx : isLowerHexChar x = true)
    (hy : isLowerHexChar y = true) (hxy : y < x) :
    (fromHexChar y).getD 0 < (fromHexChar x).getD 0 := by
  unfold isLowerHexChar at hx hy
  simp only [decide_eq_true_eq] at hx hy
  unfold fromHexChar
  rcases hx with hx | hx <;> rcases hy with hy | hy
  · simp only [hx, hy, and_self, if_true, Option.getD_some]
    omega
  · omega
  · have h1 : ¬ (48 ≤ x ∧ x ≤ 57) := by omega
    simp only [h1, hx, hy, and_self, if_true, if_false, Option.getD_some]
    omega
  · have h1 : ¬ (48 ≤ x ∧ x ≤ 57) := by omega
    have h2 : ¬ (48 ≤ y ∧ y ≤ 57) := by omega
    simp only [h1, h2, hx, hy, and_self, if_true, if_false, Option.getD_some]
    omega

theorem hexVal_cons (c : Nat) (s : List Nat) :
    hexVal (c :: s) = (fromHexChar c).getD 0 * 16 ^ s.length + hexVal s := by
  unfold hexVal
  rw [hexFold_cons, hexFold_eq]
  simp

/-- Two lower-case hexadecimal strings of the same length: the order of their
values is their lexicographic order. -/
theorem lexLe_of_hexVal_le (a : List Nat) : ∀ b : List Nat, a.length = b.length →
    (∀ c ∈ a, isLowerHexChar c = true) → (∀ c ∈ b, isLowerHexChar c = true) →
    hexVal a ≤ hexVal b → lexLe a b = true := by
  induction a with
  | nil => intro b _ _ _ _; rfl
  | cons x as ih =>
    intro b hlen ha hb hle
    cases b with
    | nil => simp at hlen
    | cons y bs =>
      have hl : as.length = bs.length := by simpa using hlen
      have hx := ha x (by simp)
      have hy := hb y (by simp)
      have has : ∀ c ∈ as, isLowerHexChar c = true := fun c hc => ha c (by simp [hc])
      have hbs : ∀ c ∈ bs, isLowerHexChar c = true := fun c hc => hb c (by simp [hc])
      have hva := hexVal_lt as (fun c hc => isLower_isHex (has c hc))
      have hvb := hexVal_lt bs (fun c hc => isLower_isHex (hbs c hc))
      rw [hexVal_cons, hexVal_cons, hl] at hle
      rw [hl] at hva
      simp only [lexLe, Bool.or_eq_true, Bool.and_eq_true, decide_eq_true_eq]
      rcases Nat.lt_trichotomy x y with hlt | heq | hgt
      · exact Or.inl hlt
      · right
        refine ⟨heq, ih bs hl has hbs ?_⟩
        rw [heq] at hle
        omega
      · exfalso
        have hd := lower_digit_mono hx hy hgt
        have : ((fromHexChar y).getD 0 + 1) * 16 ^ bs.length
            ≤ (fromHexChar x).getD 0 * 16 ^ bs.length :=
          Nat.mul_le_mul_right _ hd
        rw [Nat.add_mul] at this
        omega

/-- A 200 answer on a built database means that the block of the prefix fits
the `uint32` buffer size. -/
theorem built_json_fits (corpus : List (List Nat)) (db : Database) (s : Server)
    (hbuild : buildLines corpus = .ok db) (hserve : serve db.file = some s)
    (hsorted : corpus.Pairwise (fun a b => pfxOf a ≤ pfxOf b))
    (hn : corpus.length < 2 ^ 32) (p : Nat) (hp : p < 2 ^ 24) (hs : List (List Nat))
    (hjson : fetchRange s p = .json hs) :
    17 * (linesWith corpus p).length < 2 ^ 32 := by
  rw [serve_file corpus db hbuild] at hserve
  cases hserve
  have hc1 := countBelow_le_length corpus p
  have hc2 := countBelow_le_length corpus (p + 1)
  have hsucc := countBelow_succ corpus p
  have h1 := buildLines_table corpus db hbuild hsorted p (by omega)
  have h2 := buildLines_table corpus db hbuild hsorted (p + 1) (by omega)
  rw [Nat.mod_eq_of_lt (by omega)] at h1 h2
  have hlook := lookupOffsets_some db.addresses p _ _ h1 h2
  have hlen : (countBelow corpus (p + 1) + 2 ^ 32 - countBelow corpus p) % 2 ^ 32
      = (linesWith corpus p).length := by omega
  simp only [fetchRange, hlook, hlen] at hjson
  by_cases hzero : (linesWith corpus p).length = 0
  · rw [hzero]
    omega
  · generalize hR : ReadAt db.file (17 * (linesWith corpus p).length % 4294967296)
        (4 * addrMapSize + countBelow corpus p * 17) = buffer at hjson
    have hRl : buffer.length = 17 * (linesWith corpus p).length % 4294967296 := by
      rw [← hR, ReadAt_length]
    cases henc : encodeLoop buffer (linesWith corpus p).length 0 with
    | none => simp [henc] at hjson
    | some out =>
      have hfit := (encodeLoop_some _ _ out henc).2.1 (by omega)
      omega

theorem fetchPrefix_json (s : Server) (prefixString : List Nat) (hs : List (List Nat))
    (h : fetchPrefix s prefixString = .json hs) :
    prefixString.length = 6 ∧ prefixString.all isHex = true ∧
      fetchRange s (hexVal prefixString) = .json hs := by
  by_cases h6 : prefixString.length = 6
  · cases hp : ParseUint prefixString 16 32 with
    | none => simp [fetchPrefix, h6, hp] at h
    | some pfx =>
      obtain ⟨hall, hv, -⟩ := ParseUint_six_lt prefixString pfx h6 hp
      refine ⟨h6, hall, ?_⟩
      rw [← fetchPrefix_accept s prefixString h6 hall]
      exact h
  · simp [fetchPrefix, h6] at h

/-- C12 (amended). Response shape and order: for a database built by
`generateDB` from a corpus sorted ascending by hash with fewer than `2^32`
lines, every 200 response of `fetchPrefix` is the list of the hex encodings
of the 17-byte records of the lines read that have the requested prefix (the
lines read are those before the first line of `maxTokenSize` bytes or more:
all the lines, when each is shorter than 16 MiB); each string has exactly 34
characters, all of them in `0-9a-f`, and the list is in ascending order, as
strings and as numbers. -/
theorem response_shape (corpus : List (List Nat)) (db : Database) (s : Server)
    (prefixString : List Nat) (hashesHex : List (List Nat)) (hsorted : SortedByHash corpus)
    (hbuild : generateDB corpus = .ok db) (hserve : serve db.file = some s)
    (hn : corpus.length < 2 ^ 32) (hresp : fetchPrefix s prefixString = .json hashesHex) :
    hashesHex = (linesWith (scanLines corpus) (hexVal prefixString)).map
      (fun l => EncodeToString (recordOf l)) ∧
    (∀ l ∈ linesWith (scanLines corpus) (hexVal prefixString), (recordOf l).length = 17) ∧
    (∀ h ∈ hashesHex, h.length = 34 ∧ ∀ c ∈ h, isLowerHexChar c = true) ∧
    hashesHex.Pairwise (fun a b => lexLe a b = true) ∧
    hashesHex.Pairwise (fun a b => hexVal a ≤ hexVal b) ∧
    ((∀ l ∈ corpus, l.length < maxTokenSize) →
      hashesHex = (linesWith corpus (hexVal prefixString)).map
        (fun l => EncodeToString (recordOf l))) := by
  rw [generateDB_scan] at hbuild
  have hshortEq := scanLines_short corpus
  replace hn : (scanLines corpus).length < 2 ^ 32 := by
    have := scanLines_length_le corpus
    omega
  replace hsorted : SortedByHash (scanLines corpus) :=
    List.Pairwise.sublist (scanLines_initial corpus).sublist hsorted
  generalize scanLines corpus = lines at hbuild hn hsorted hshortEq ⊢
  have hok := buildLines_lines_ok lines db hbuild
  have hspfx := sorted_pfx lines hok hsorted
  obtain ⟨h6, hhex, hjson⟩ := fetchPrefix_json s prefixString hashesHex hresp
  have hp := hexVal_six_lt _ h6 hhex
  have hfit := built_json_fits lines db s hbuild hserve hspfx hn _ hp hashesHex hjson
  have hq := query_built lines db s hbuild hserve hspfx hn _ hp hfit
  rw [hq, Outcome.json.injEq] at hjson
  have hmem : ∀ l ∈ linesWith lines (hexVal prefixString),
      lineOk l = true ∧ pfxOf l = hexVal prefixString := by
    intro l hl
    have := List.mem_filter.1 hl
    exact ⟨hok l this.1, by simpa using this.2⟩
  have hstr : ∀ l ∈ linesWith lines (hexVal prefixString),
      ((suffixOf l).map lowerHex).length = 34 ∧
        ∀ c ∈ (suffixOf l).map lowerHex, isLowerHexChar c = true := by
    intro l hl
    obtain ⟨h34, hsx⟩ := suffixOf_hex (hmem l hl).1
    refine ⟨by rw [List.length_map, h34], ?_⟩
    intro c hc
    obtain ⟨d, hd, rfl⟩ := List.mem_map.1 hc
    exact lowerHex_isLower (hsx d hd)
  have hnum : (linesWith lines (hexVal prefixString)).Pairwise
      (fun a b => hexVal ((suffixOf a).map lowerHex) ≤ hexVal ((suffixOf b).map lowerHex)) := by
    have hsub : (linesWith lines (hexVal prefixString)).Pairwise
        (fun a b => hashOf a ≤ hashOf b) :=
      List.Pairwise.sublist (List.filter_sublist _) hsorted
    refine List.Pairwise.imp_of_mem ?_ hsub
    intro a b ha hb hle
    obtain ⟨hoka, hpa⟩ := hmem a ha
    obtain ⟨hokb, hpb⟩ := hmem b hb
    rw [(hashOf_eq hoka).1, (hashOf_eq hokb).1, hpa, hpb] at hle
    unfold hexVal at hle ⊢
    rw [hexFold_lower, hexFold_lower]
    omega
  subst hjson
  have hfirst : (linesWith lines (hexVal prefixString)).map (fun l => (suffixOf l).map lowerHex)
      = (linesWith lines (hexVal prefixString)).map (fun l => EncodeToString (recordOf l)) := by
    apply List.map_congr_left
    intro l hl
    exact (encode_record (hmem l hl).1).symm
  refine ⟨hfirst, fun l hl => (decode_suffix (hmem l hl).1).2, ?_, ?_, ?_, ?_⟩
  · intro h hh
    obtain ⟨l, hl, rfl⟩ := List.mem_map.1 hh
    exact hstr l hl
  · rw [List.pairwise_map]
    refine List.Pairwise.imp_of_mem ?_ hnum
    intro a b ha hb hle
    exact lexLe_of_hexVal_le _ _ (by rw [(hstr a ha).1, (hstr b hb).1]) (hstr a ha).2
      (hstr b hb).2 hle
  · rw [List.pairwise_map]
    exact hnum
  · intro hshort
    rw [← hshortEq hshort]
    exact hfirst

/-- Witness of C12: the corpus `lineZero, lineZeroF` and the prefix
`000000`. -/
theorem response_shape_witness :
    ∃ db s hashesHex, generateDB [lineZero, lineZeroF] = .ok db ∧ serve db.file = some s ∧
      fetchPrefix s (ascii "000000") = .json hashesHex ∧
      hashesHex = (linesWith (scanLines [lineZero, lineZeroF]) (hexVal (ascii "000000"))).map
        (fun l => EncodeToString (recordOf l)) ∧
      (∀ l ∈ linesWith (scanLines [lineZero, lineZeroF]) (hexVal (ascii "000000")),
        (recordOf l).length = 17) ∧
      (∀ h ∈ hashesHex, h.length = 34 ∧ ∀ c ∈ h, isLowerHexChar c = true) ∧
      hashesHex.Pairwise (fun a b => lexLe a b = true) ∧
      hashesHex.Pairwise (fun a b => hexVal a ≤ hexVal b) ∧
      ((∀ l ∈ [lineZero, lineZeroF], l.length < maxTokenSize) →
        hashesHex = (linesWith [lineZero, lineZeroF] (hexVal (ascii "000000"))).map
          (fun l => EncodeToString (recordOf l))) := by
  obtain ⟨db, s, hgen, hdb, hs⟩ := generated_built [lineZero, lineZeroF] (by decide) (by decide)
  have hq : fetchPrefix s (ascii "000000") = .json
      ((linesWith [lineZero, lineZeroF] 0).map (fun l => (suffixOf l).map lowerHex)) := by
    rw [fetchPrefix_accept s _ (by decide) (by decide)]
    exact query_built _ db s hdb hs (by decide) (by decide) 0 (by omega) (by decide)
  exact ⟨db, s, _, hgen, hs, hq, response_shape [lineZero, lineZeroF] db s (ascii "000000") _
    (by unfold SortedByHash; decide) hgen hs (by decide) hq⟩

theorem wrapCount_pred : wrapCount - 1 = (wrapCount - 2) + 1 := by
  rw [wrapCount_eq]
  rfl

theorem crossCorpus_mem (l : List Nat)
    (hl : l ∈ lineZeroF :: (List.replicate (wrapCount - 1) lineOne ++ [lineTwo, lineTwo])) :
    l = lineZeroF ∨ l = lineOne ∨ l = lineTwo := by
  rcases List.mem_cons.1 hl with h | h
  · exact Or.inl h
  · rcases List.mem_append.1 h with h | h
    · exact Or.inr (Or.inl (List.eq_of_mem_replicate h))
    · right; right
      simpa using h

theorem crossCorpus_sorted :
    SortedByHash (lineZeroF :: (List.replicate (wrapCount - 1) lineOne ++ [lineTwo, lineTwo])) := by
  unfold SortedByHash
  rw [List.pairwise_cons, List.pairwise_append]
  refine ⟨?_, replicate_sorted _ _, by decide, ?_⟩
  · intro b hb
    rcases crossCorpus_mem b (List.mem_cons_of_mem _ hb) with h | h | h <;> rw [h] <;> decide
  · intro a ha b hb
    rw [List.eq_of_mem_replicate ha]
    have : b = lineTwo := by simpa using hb
    rw [this]
    decide

/-- Counterexample to C12 as stated: on `lineZeroF`, then `2^32 - 1` copies
of `lineOne`, then two copies of `lineTwo`, a sorted corpus that builds, the
200 response for the prefix `000002` is the suffix of `lineZeroF` followed by
the suffix of `lineOne`: 34 times `f` before 34 zeros, not in ascending
order. -/
theorem response_shape_counterexample :
    SortedByHash (lineZeroF :: (List.replicate (wrapCount - 1) lineOne ++ [lineTwo, lineTwo])) ∧
      ∃ db s,
        generateDB (lineZeroF :: (List.replicate (wrapCount - 1) lineOne ++ [lineTwo, lineTwo]))
          = .ok db ∧
        serve db.file = some s ∧
        fetchPrefix s (ascii "000002") = .json [suffixOf lineZeroF, suffixOf lineOne] ∧
        lexLe (suffixOf lineZeroF) (suffixOf lineOne) = false ∧
        hexVal (suffixOf lineOne) < hexVal (suffixOf lineZeroF) := by
  have hok : ∀ l ∈ lineZeroF :: (List.replicate (wrapCount - 1) lineOne ++ [lineTwo, lineTwo]),
      lineOk l = true := by
    intro l hl
    rcases crossCorpus_mem l hl with h | h | h <;> rw [h] <;> decide
  have hshort : ∀ l ∈ lineZeroF :: (List.replicate (wrapCount - 1) lineOne
      ++ [lineTwo, lineTwo]), l.length < maxTokenSize := by
    intro l hl
    rcases crossCorpus_mem l hl with h | h | h <;> rw [h] <;> decide
  rw [generateDB_short _ hshort]
  have hspfx := sorted_pfx _ hok crossCorpus_sorted
  obtain ⟨db, s, hdb, hs⟩ := serve_built _ hok
  refine ⟨crossCorpus_sorted, db, s, hdb, hs, ?_, by decide, by decide⟩
  rw [serve_file _ db hdb] at hs
  cases hs
  have hc2 : countBelow (lineZeroF :: (List.replicate (wrapCount - 1) lineOne
      ++ [lineTwo, lineTwo])) 2 = 2 ^ 32 := by
    rw [countBelow_cons, countBelow_append, countBelow_replicate, if_pos (by decide),
      if_pos (by decide), wrapCount_eq]
    rfl
  have hc3 : countBelow (lineZeroF :: (List.replicate (wrapCount - 1) lineOne
      ++ [lineTwo, lineTwo])) (2 + 1) = 2 ^ 32 + 2 := by
    rw [countBelow_cons, countBelow_append, countBelow_replicate, if_pos (by decide),
      if_pos (by decide), wrapCount_eq]
    rfl
  have h1 := buildLines_table _ db hdb hspfx 2 (by omega)
  have h2 := buildLines_table _ db hdb hspfx (2 + 1) (by omega)
  rw [hc2] at h1
  rw [hc3] at h2
  have h1z : db.addresses[2]? = some 0 := h1
  have h2z : db.addresses[2 + 1]? = some 2 := h2
  have hrecs : ∀ r ∈ (lineZeroF :: (List.replicate (wrapCount - 1) lineOne
      ++ [lineTwo, lineTwo])).map recordOf, r.length = 17 := by
    intro r hr
    obtain ⟨l, hl, rfl⟩ := List.mem_map.1 hr
    exact (decode_suffix (hok l hl)).2
  have hst : 2 ≤ ((lineZeroF :: (List.replicate (wrapCount - 1) lineOne
      ++ [lineTwo, lineTwo])).map recordOf).length := by
    rw [List.length_map, List.length_cons, List.length_append, List.length_replicate]
    have : [lineTwo, lineTwo].length = 2 := rfl
    omega
  have hblock := fetchRange_block db.addresses (encodeTable db.addresses)
    ((lineZeroF :: (List.replicate (wrapCount - 1) lineOne ++ [lineTwo, lineTwo])).map recordOf)
    2 0 2 hrecs (by rw [encodeTable_length, buildLines_length _ db hdb]) h1z h2z (by omega)
    hst (by omega) (by omega)
  have hfile : db.file = encodeTable db.addresses ++
      ((lineZeroF :: (List.replicate (wrapCount - 1) lineOne
        ++ [lineTwo, lineTwo])).map recordOf).flatten := by
    rw [Database.file, buildLines_records _ db hdb]
  have hfirst : (((lineZeroF :: (List.replicate (wrapCount - 1) lineOne
      ++ [lineTwo, lineTwo])).map recordOf).drop 0).take (2 - 0)
      = [recordOf lineZeroF, recordOf lineOne] := by
    rw [wrapCount_pred, List.replicate_succ]
    rfl
  have hq : fetchPrefix { addresses := db.addresses, db := db.file } (ascii "000002")
      = fetchRange { addresses := db.addresses, db := db.file } 2 :=
    fetchPrefix_accept _ (ascii "000002") (by decide) (by decide)
  rw [hq, hfile, hblock, hfirst]
  decide

/-! ### The progress report does not reach the output -/

theorem timedStep_gen (clock : Nat → Int) (ts : TimedState) (line : List Nat) :
    (timedStep clock ts line).map (fun t => t.gen) = genStep ts.gen line := by
  unfold timedStep
  cases genStep ts.gen line with
  | error e => rfl
  | ok st =>
    simp only
    split_ifs <;> rfl

theorem timedLoop_gen (clock : Nat → Int) (corpus : List (List Nat)) :
    ∀ ts : TimedState,
      (timedLoop clock ts corpus).map (fun t => t.gen) = genLoop ts.gen corpus := by
  induction corpus with
  | nil => intro ts; rfl
  | cons line rest ih =>
    intro ts
    have hstep := timedStep_gen clock ts line
    rw [timedLoop, genLoop]
    by_cases hbig : maxTokenSize ≤ line.length
    · rw [if_pos hbig, if_pos hbig]
      rfl
    · rw [if_neg hbig, if_neg hbig]
      cases h1 : timedStep clock ts line with
      | error e =>
        rw [h1] at hstep
        rw [← hstep]
        rfl
      | ok ts1 =>
        rw [h1] at hstep
        rw [← hstep]
        exact ih ts1

theorem generateDBTimed_db (clock : Nat → Int) (corpus : List (List Nat)) :
    (generateDBTimed clock corpus).map (fun r => r.1) = generateDB corpus := by
  have h := timedLoop_gen clock corpus (timedInit clock)
  unfold generateDBTimed generateDB
  cases h1 : timedLoop clock (timedInit clock) corpus with
  | error e =>
    rw [h1] at h
    have : genLoop genInit corpus = .error e := h.symm
    rw [this]
    rfl
  | ok ts =>
    rw [h1] at h
    have : genLoop genInit corpus = .ok ts.gen := h.symm
    rw [this]
    simp only
    cases fillLoop ts.gen.currentOffset (addrMapSize - 1) (ts.gen.previousPrefix + 1)
      ts.gen.addresses with
    | none => rfl
    | some a => rfl

/-- C15. Deterministic build: whatever the readings of the clock used for the
progress report, `generateDB` has the outcome that the corpus alone
determines, so two runs on the same corpus, against any two clocks, end alike
and on success leave byte-identical files. -/
theorem build_deterministic (corpus : List (List Nat)) (clock1 clock2 : Nat → Int) :
    (generateDBTimed clock1 corpus).map (fun r => r.1) = generateDB corpus ∧
    (generateDBTimed clock1 corpus).map (fun r => r.1.file)
      = (generateDBTimed clock2 corpus).map (fun r => r.1.file) ∧
    (∀ db1 log1 db2 log2, generateDBTimed clock1 corpus = .ok (db1, log1) →
      generateDBTimed clock2 corpus = .ok (db2, log2) → db1.file = db2.file) := by
  have h1 := generateDBTimed_db clock1 corpus
  have h2 := generateDBTimed_db clock2 corpus
  refine ⟨h1, ?_, ?_⟩
  · have e1 : (generateDBTimed clock1 corpus).map (fun r => r.1.file)
        = ((generateDBTimed clock1 corpus).map (fun r => r.1)).map Database.file := by
      cases generateDBTimed clock1 corpus <;> rfl
    have e2 : (generateDBTimed clock2 corpus).map (fun r => r.1.file)
        = ((generateDBTimed clock2 corpus).map (fun r => r.1)).map Database.file := by
      cases generateDBTimed clock2 corpus <;> rfl
    rw [e1, e2, h1, h2]
  · intro db1 log1 db2 log2 hr1 hr2
    rw [hr1] at h1
    rw [hr2] at h2
    have : (Except.ok db1 : Except GenError Database) = .ok db2 := by
      rw [show (Except.ok db1 : Except GenError Database)
        = (Except.ok (db1, log1) : Except GenError (Database × List (Nat × Nat))).map
          (fun r => r.1) from rfl, h1, ← h2]
      rfl
    rw [Except.ok.inj this]

/-- The clock does reach the log: on the one-line corpus `lineZero` a clock
that stands still logs nothing and a clock that advances by 20 seconds at
each reading logs one line, for the same database. -/
theorem progress_depends_on_clock :
    ∃ db, generateDBTimed (fun _ => 0) [lineZero] = .ok (db, []) ∧
      generateDBTimed (fun k => 20000000000 * (k : Int)) [lineZero] = .ok (db, [(1, 1)]) := by
  obtain ⟨st1, h1, hlen1, hcur1, -, -, -⟩ := genStep_ok genInit lineZero genInit_length (by decide)
  obtain ⟨r, hr, -, -⟩ := fillLoop_ok st1.currentOffset (addrMapSize - 1) (st1.previousPrefix + 1)
    st1.addresses (by rw [hlen1, addrMapSize_eq]; omega)
  have hc : st1.currentOffset = 1 := by
    rw [hcur1]
    rfl
  refine ⟨{ addresses := r, records := st1.written }, ?_, ?_⟩
  · have hstep : timedStep (fun _ => 0) (timedInit (fun _ => 0)) lineZero
        = .ok { gen := st1, reads := 2, timerTime := 0, timerOffset := 0, log := [] } := by
      have hg : (timedInit (fun _ => 0)).gen = genInit := rfl
      rw [timedStep, hg, h1]
      rfl
    rw [generateDBTimed, timedLoop, if_neg (by decide), hstep]
    simp only [timedLoop, hr]
  · have hstep : timedStep (fun k => 20000000000 * (k : Int))
        (timedInit (fun k => 20000000000 * (k : Int))) lineZero
        = .ok { gen := st1, reads := 3, timerTime := 40000000000, timerOffset := 1,
                log := [(1, 1)] } := by
      have hg : (timedInit (fun k => 20000000000 * (k : Int))).gen = genInit := rfl
      have hgt : (fun k : Nat => 20000000000 * (k : Int))
          (timedInit (fun k => 20000000000 * (k : Int))).reads
          - (timedInit (fun k => 20000000000 * (k : Int))).timerTime > 10 * 1000000000 := by
        show 20000000000 * ((1 : Nat) : Int) - 20000000000 * ((0 : Nat) : Int) > 10 * 1000000000
        norm_num
      rw [timedStep, hg, h1]
      simp only
      rw [if_pos hgt, hc]
      rfl
    rw [generateDBTimed, timedLoop, if_neg (by decide), hstep]
    simp only [timedLoop, hr]

/-! ### The indices written by the builder -/

theorem fillWrites_mem (size hi : Nat) (m : Nat) : ∀ k, hi + 1 - k = m →
    ∀ x ∈ fillWrites size hi k, k ≤ x ∧ x ≤ hi := by
  induction m with
  | zero =>
    intro k hm x hx
    rw [fillWrites] at hx
    have : ¬ k ≤ hi := by omega
    simp [this] at hx
  | succ m ih =>
    intro k hm x hx
    rw [fillWrites] at hx
    have hk : k ≤ hi := by omega
    simp only [hk, if_true, List.mem_cons] at hx
    rcases hx with rfl | hx
    · exact ⟨le_refl _, hk⟩
    · split_ifs at hx
      · have := ih (k + 1) (by omega) x hx
        omega
      · simp at hx

theorem fillWrites_empty (size hi k : Nat) (h : hi < k) : fillWrites size hi k = [] := by
  rw [fillWrites]
  have : ¬ k ≤ hi := by omega
  simp only [this, if_false]

theorem fillLoop_empty (v hi k : Nat) (a : List Nat) (h : hi < k) : fillLoop v hi k a = some a := by
  rw [fillLoop]
  have : ¬ k ≤ hi := by omega
  simp only [this, if_false]

/-- The fill loop is the sequence of its assignments: on a table that holds
slot `hi` it returns the table in which exactly the indices of `fillWrites`
were assigned, `hi + 1 - k` of them. -/
theorem fillLoop_writes (v hi : Nat) (m : Nat) : ∀ (k : Nat) (a : List Nat), hi + 1 - k = m →
    hi < a.length →
    fillLoop v hi k a = some ((fillWrites a.length hi k).foldl (fun t i => t.set i v) a) ∧
      (fillWrites a.length hi k).length = hi + 1 - k := by
  induction m with
  | zero =>
    intro k a hm _
    have hlt : hi < k := by omega
    rw [fillLoop_empty v hi k a hlt, fillWrites_empty _ hi k hlt]
    exact ⟨rfl, by simp; omega⟩
  | succ m ih =>
    intro k a hm hlen
    have hk : k ≤ hi := by omega
    have hka : k < a.length := by omega
    obtain ⟨h1, h2⟩ := ih (k + 1) (a.set k v) (by omega) (by simpa using hlen)
    rw [List.length_set] at h1 h2
    rw [fillLoop, fillWrites]
    simp only [hk, hka, if_true, List.foldl_cons, List.length_cons, h1, h2, true_and]
    omega

/-- The assignments of one line stay between 1 and `2^24 - 1`, on any state
of the loop. -/
theorem genStepWrites_range (st : GenState) (line : List Nat) :
    ∀ x ∈ genStepWrites st line, 1 ≤ x ∧ x < 2 ^ 24 := by
  intro x hx
  unfold genStepWrites at hx
  split_ifs at hx with h40
  · simp at hx
  · have h6 : (line.take 6).length = 6 := by simp; omega
    cases hp : ParseUintBytes (line.take 6) 16 32 with
    | none => simp [hp] at hx
    | some pfx =>
      simp only [hp] at hx
      split_ifs at hx with hne
      · have hlt := (ParseUint_six_lt (line.take 6) pfx h6 hp).2.2
        have := fillWrites_mem _ pfx _ (st.previousPrefix + 1) rfl x hx
        omega
      · simp at hx

theorem genStep_inv (st st1 : GenState) (line : List Nat)
    (hlen : st.addresses.length = addrMapSize) (h : genStep st line = .ok st1) :
    st1.addresses.length = addrMapSize ∧ st1.previousPrefix < 2 ^ 24 ∧
      st1.addresses[0]? = st.addresses[0]? := by
  have hok : lineOk line = true := by
    by_contra hcon
    rcases genStep_bad st line hlen (by simpa using hcon) with h1 | h1 | h1 <;>
      rw [h1] at h <;> exact Except.noConfusion h
  obtain ⟨st2, h2, hl2, -, hp2, -, ht2⟩ := genStep_ok st line hlen hok
  rw [h] at h2
  cases h2
  refine ⟨hl2, hp2 ▸ pfxOf_lt hok, ?_⟩
  rw [ht2 0]
  have : ¬ (st.previousPrefix < 0 ∧ 0 ≤ pfxOf line) := by omega
  simp only [this, if_false]

theorem genLoopWrites_range (corpus : List (List Nat)) :
    ∀ st : GenState, st.addresses.length = addrMapSize →
      ∀ x ∈ genLoopWrites st corpus, 1 ≤ x ∧ x < 2 ^ 24 := by
  induction corpus with
  | nil => intro st _ x hx; simp [genLoopWrites] at hx
  | cons line rest ih =>
    intro st hlen x hx
    rw [genLoopWrites] at hx
    split_ifs at hx with hbig
    · simp at hx
    · rw [List.mem_append] at hx
      rcases hx with hx | hx
      · exact genStepWrites_range st line x hx
      · cases h1 : genStep st line with
        | error e => simp [h1] at hx
        | ok st1 =>
          simp only [h1] at hx
          exact ih st1 (genStep_inv st st1 line hlen h1).1 x hx

theorem foldLines_inv (corpus : List (List Nat)) :
    ∀ st st1 : GenState, st.addresses.length = addrMapSize → st.previousPrefix < 2 ^ 24 →
      foldLines st corpus = .ok st1 →
      st1.addresses.length = addrMapSize ∧ st1.previousPrefix < 2 ^ 24 ∧
        st1.addresses[0]? = st.addresses[0]? := by
  induction corpus with
  | nil =>
    intro st st1 hlen hp h
    simp only [foldLines, Except.ok.injEq] at h
    subst h
    exact ⟨hlen, hp, rfl⟩
  | cons line rest ih =>
    intro st st1 hlen hp h
    simp only [foldLines] at h
    cases h1 : genStep st line with
    | error e => simp [h1] at h
    | ok st2 =>
      simp only [h1] at h
      obtain ⟨hl2, hp2, hz2⟩ := genStep_inv st st2 line hlen h1
      obtain ⟨hl3, hp3, hz3⟩ := ih st2 st1 hl2 hp2 h
      exact ⟨hl3, hp3, hz3.trans hz2⟩

/-- C16. Builder index safety and termination: for every corpus, every table
index that `generateDB` assigns, in the per-line loop and in the final fill
loop, lies between 1 and `2^24`, inside the table of `2^24+1` entries; no
assignment panics; slot 0 is never assigned and is 0 in the built table; both
loops end, after `hi + 1 - k` assignments, which is none when the new prefix
is below the previous one. -/
theorem builder_index_safety (corpus : List (List Nat)) :
    (∀ k ∈ generateDBWrites corpus, 1 ≤ k ∧ k ≤ 2 ^ 24 ∧ k < addrMapSize) ∧
    generateDB corpus ≠ .error .indexOutOfRange ∧
    (∀ db, generateDB corpus = .ok db →
      db.addresses.length = 2 ^ 24 + 1 ∧ db.addresses[0]? = some 0) ∧
    (∀ (v hi k : Nat) (a : List Nat), hi < a.length →
      fillLoop v hi k a = some ((fillWrites a.length hi k).foldl (fun t i => t.set i v) a) ∧
        (fillWrites a.length hi k).length = hi + 1 - k) ∧
    (∀ (v pfx previousPrefix : Nat) (a : List Nat), pfx < previousPrefix →
      fillWrites a.length pfx (previousPrefix + 1) = [] ∧
        fillLoop v pfx (previousPrefix + 1) a = some a) := by
  refine ⟨?_, ?_, ?_, ?_, ?_⟩
  · intro k hk
    have hsz : addrMapSize = 2 ^ 24 + 1 := by rw [addrMapSize_eq]; norm_num
    simp only [generateDBWrites, List.mem_append] at hk
    rcases hk with hk | hk
    · have := genLoopWrites_range corpus genInit genInit_length k hk
      omega
    · cases h1 : genLoop genInit corpus with
      | error e => simp [h1] at hk
      | ok st =>
        simp only [h1] at hk
        have := fillWrites_mem _ (addrMapSize - 1) _ (st.previousPrefix + 1) rfl k hk
        omega
  · intro h
    rw [generateDB_scan] at h
    by_cases hall : ∀ l ∈ scanLines corpus, lineOk l = true
    · obtain ⟨db, -, hdb, -⟩ := buildLines_run (scanLines corpus) hall
      rw [hdb] at h
      exact Except.noConfusion h
    · push_neg at hall
      obtain ⟨xs, bad, ys, heq, hxs, hbad⟩ := first_bad (scanLines corpus) (by simpa using hall)
      rw [heq] at h
      rcases buildLines_bad xs ys bad hxs hbad with h1 | h1 | h1 <;> rw [h1] at h <;>
        exact GenError.noConfusion (Except.error.inj h)
  · intro db hdb
    rw [generateDB_scan] at hdb
    obtain ⟨st, hst, hfill, -⟩ := (buildLines_ok_iff (scanLines corpus) db).1 hdb
    obtain ⟨hl, hp, hz⟩ := foldLines_inv (scanLines corpus) genInit st genInit_length (by
      show 0 < 2 ^ 24
      omega) hst
    obtain ⟨r, hr, hrl, hri⟩ := fillLoop_ok st.currentOffset (addrMapSize - 1)
      (st.previousPrefix + 1) st.addresses (by rw [hl, addrMapSize_eq]; omega)
    rw [hfill] at hr
    cases hr
    refine ⟨by rw [hrl, hl, addrMapSize_eq]; norm_num, ?_⟩
    rw [hri 0]
    have : ¬ (st.previousPrefix + 1 ≤ 0 ∧ 0 ≤ addrMapSize - 1) := by omega
    simp only [this, if_false]
    rw [hz]
    exact genInit_get 0 addrMapSize_pos
  · intro v hi k a hlen
    exact fillLoop_writes v hi (hi + 1 - k) k a rfl hlen
  · intro v pfx previousPrefix a hlt
    exact ⟨fillWrites_empty _ _ _ (by omega), fillLoop_empty _ _ _ _ (by omega)⟩

/-! ### What the builder reads of a line -/

theorem genStep_view (st : GenState) (l1 l2 : List Nat) (hv : lineView l1 = lineView l2) :
    (∀ s, genStep st l1 = .ok s → genStep st l2 = .ok s) ∧
      ∀ e, genStep st l1 = .error e → ∃ e2, genStep st l2 = .error e2 ∧ e2.kind = e.kind := by
  simp only [lineView, Prod.mk.injEq, decide_eq_decide] at hv
  obtain ⟨hlen, hparse, hdec⟩ := hv
  by_cases h40 : l1.length < 40
  · have h40b : l2.length < 40 := hlen.1 h40
    constructor
    · intro s h
      simp [genStep, h40] at h
    · intro e h
      simp only [genStep, h40, if_true, Except.error.injEq] at h
      refine ⟨.parseLine l2, by simp only [genStep, h40b, if_true], ?_⟩
      rw [← h]
      rfl
  · have h40b : ¬ l2.length < 40 := fun h => h40 (hlen.2 h)
    cases hp : ParseUintBytes (l1.take 6) 16 32 with
    | none =>
      have hp2 : ParseUintBytes (l2.take 6) 16 32 = none := by rw [← hparse, hp]
      constructor
      · intro s h
        simp [genStep, h40, hp] at h
      · intro e h
        simp only [genStep, h40, if_false, hp, Except.error.injEq] at h
        refine ⟨.parsePrefix l2, by simp only [genStep, h40b, if_false, hp2], ?_⟩
        rw [← h]
        rfl
    | some pfx =>
      have hp2 : ParseUintBytes (l2.take 6) 16 32 = some pfx := by rw [← hparse, hp]
      have hform : ∀ l : List Nat, ¬ l.length < 40 → ParseUintBytes (l.take 6) 16 32 = some pfx →
          genStep st l =
            match (if pfx ≠ st.previousPrefix then
                match fillLoop st.currentOffset pfx (st.previousPrefix + 1) st.addresses with
                | some addresses => some (addresses, pfx)
                | none => none
              else some (st.addresses, st.previousPrefix)) with
            | none => .error .indexOutOfRange
            | some (addresses, previousPrefix) =>
              match Decode ((l.take 40).drop 6) with
              | none => .error (.decodeHash l)
              | some hash =>
                .ok { addresses := addresses
                      currentOffset := (st.currentOffset + 1) % 2 ^ 32
                      previousPrefix := previousPrefix
                      written := st.written ++ hash } := by
        intro l hl hpl
        rw [genStep, if_neg hl, hpl]
      rw [hform l1 h40 hp, hform l2 h40b hp2, ← hdec]
      cases (if pfx ≠ st.previousPrefix then
          match fillLoop st.currentOffset pfx (st.previousPrefix + 1) st.addresses with
          | some addresses => some (addresses, pfx)
          | none => none
        else some (st.addresses, st.previousPrefix)) with
      | none =>
        constructor
        · intro s h
          exact Except.noConfusion h
        · intro e h
          exact ⟨e, h, rfl⟩
      | some pr =>
        obtain ⟨a, q⟩ := pr
        simp only
        cases Decode ((l1.take 40).drop 6) with
        | none =>
          constructor
          · intro s h
            exact Except.noConfusion h
          · intro e h
            simp only [Except.error.injEq] at h
            exact ⟨_, rfl, by rw [← h]; rfl⟩
        | some hash =>
          constructor
          · intro s h
            exact h
          · intro e h
            exact Except.noConfusion h

/-- Two corpora that `buildLines` reads alike, line by line: the scan loop
ends in the same state, or stops at the same line with the same kind of
failure. -/
theorem foldLines_view (c1 c2 : List (List Nat))
    (hv : List.Forall₂ (fun a b => lineView a = lineView b) c1 c2) :
    ∀ st : GenState, (foldLines st c1).toOption = (foldLines st c2).toOption ∧
      foldFail st c1 = foldFail st c2 ∧
      (foldFail st c1 = none ↔ ∃ s, foldLines st c1 = .ok s) := by
  induction hv with
  | nil =>
    intro st
    exact ⟨rfl, rfl, by simp [foldFail, foldLines]⟩
  | @cons a b as bs hab _ ih =>
    intro st
    obtain ⟨hok, herr⟩ := genStep_view st a b hab
    cases h1 : genStep st a with
    | error e =>
      obtain ⟨e2, h2, hk⟩ := herr e h1
      simp only [foldLines, foldFail, h1, h2, hk]
      refine ⟨rfl, trivial, ?_⟩
      constructor
      · intro h
        exact Option.noConfusion h
      · rintro ⟨s, hs⟩
        exact Except.noConfusion hs
    | ok s1 =>
      have h2 := hok s1 h1
      obtain ⟨i1, i2, i3⟩ := ih s1
      have e1 : foldLines st (a :: as) = foldLines s1 as := by simp only [foldLines, h1]
      have e2 : foldLines st (b :: bs) = foldLines s1 bs := by simp only [foldLines, h2]
      have f1 : foldFail st (a :: as) =
          match foldFail s1 as with
          | none => none
          | some (i, k) => some (i + 1, k) := by simp only [foldFail, h1]
      have f2 : foldFail st (b :: bs) =
          match foldFail s1 bs with
          | none => none
          | some (i, k) => some (i + 1, k) := by simp only [foldFail, h2]
      rw [e1, e2, f1, f2, ← i2]
      refine ⟨i1, rfl, ?_⟩
      cases hf : foldFail s1 as with
      | none =>
        simp only [true_iff]
        exact i3.1 hf
      | some pr =>
        constructor
        · intro h
          exact Option.noConfusion h
        · intro hex
          have := i3.2 hex
          rw [hf] at this
          exact Option.noConfusion this

theorem genStep_error (st : GenState) (l : List Nat) (e : GenError)
    (hlen : st.addresses.length = addrMapSize) (h : genStep st l = .error e) :
    (e = .parseLine l ∧ l.length < 40) ∨ (e = .parsePrefix l ∧ 40 ≤ l.length) ∨
      (e = .decodeHash l ∧ 40 ≤ l.length) := by
  have hbad : lineOk l = false := by
    by_contra hcon
    obtain ⟨st1, h1, -⟩ := genStep_ok st l hlen (by simpa using hcon)
    rw [h1] at h
    exact Except.noConfusion h
  by_cases h40 : l.length < 40
  · left
    simp only [genStep, h40, if_true, Except.error.injEq] at h
    exact ⟨h.symm, h40⟩
  · rcases genStep_bad st l hlen hbad with h1 | h1 | h1
    · simp [genStep, h40] at h1
      cases hp : ParseUintBytes (l.take 6) 16 32 <;> simp [hp] at h1
      rename_i pfx
      split at h1 <;> try exact absurd h1 (by simp)
      split at h1 <;> simp at h1
    · rw [h1] at h
      exact Or.inr (Or.inl ⟨(Except.error.inj h).symm, by omega⟩)
    · rw [h1] at h
      exact Or.inr (Or.inr ⟨(Except.error.inj h).symm, by omega⟩)

/-- The meaning of `foldFail`: the lines before index `i` pass, the loop
body fails on line `i` with an error of kind `k`, which is the error of the
whole loop. -/
theorem foldFail_some (corpus : List (List Nat)) :
    ∀ (st : GenState) (i k : Nat), foldFail st corpus = some (i, k) →
      ∃ bad sti e, corpus[i]? = some bad ∧ foldLines st (corpus.take i) = .ok sti ∧
        genStep sti bad = .error e ∧ e.kind = k ∧ foldLines st corpus = .error e := by
  induction corpus with
  | nil => intro st i k h; simp [foldFail] at h
  | cons l rest ih =>
    intro st i k h
    cases h1 : genStep st l with
    | error e =>
      simp only [foldFail, h1, Option.some.injEq, Prod.mk.injEq] at h
      obtain ⟨hi, hk⟩ := h
      subst hi
      exact ⟨l, st, e, List.getElem?_cons_zero, rfl, h1, hk, by simp only [foldLines, h1]⟩
    | ok s1 =>
      have f1 : foldFail st (l :: rest) =
          match foldFail s1 rest with
          | none => none
          | some (i, k) => some (i + 1, k) := by simp only [foldFail, h1]
      rw [f1] at h
      cases hf : foldFail s1 rest with
      | none =>
        rw [hf] at h
        exact Option.noConfusion h
      | some pr =>
        obtain ⟨j, k2⟩ := pr
        rw [hf] at h
        simp only [Option.some.injEq, Prod.mk.injEq] at h
        obtain ⟨hi, hk⟩ := h
        subst hi
        subst hk
        obtain ⟨bad, sti, e, hb, hpre, hstep, hkind, hloop⟩ := ih s1 j k2 hf
        refine ⟨bad, sti, e, by simpa using hb, ?_, hstep, hkind, ?_⟩
        · simp only [List.take_succ_cons, foldLines, h1]
          exact hpre
        · simp only [foldLines, h1]
          exact hloop

theorem buildLines_of_foldLines_error (corpus : List (List Nat)) (e : GenError)
    (h : foldLines genInit corpus = .error e) : buildLines corpus = .error e := by
  simp only [buildLines, h]

theorem buildLines_error_foldLines (corpus : List (List Nat)) (e : GenError)
    (h : buildLines corpus = .error e) : foldLines genInit corpus = .error e := by
  cases h1 : foldLines genInit corpus with
  | error e1 =>
    rw [buildLines_of_foldLines_error corpus e1 h1] at h
    rw [Except.error.inj h]
  | ok st =>
    have hok := foldLines_lines_ok corpus st h1
    obtain ⟨db, -, hdb, -⟩ := buildLines_run corpus hok
    rw [hdb] at h
    exact Except.noConfusion h

/-- Two corpora that `buildLines` reads alike, line by line, build the same
database or fail at the same line in the same way. -/
theorem buildLines_view (c1 c2 : List (List Nat))
    (hv : List.Forall₂ (fun a b => lineView a = lineView b) c1 c2) :
    (∀ db, buildLines c1 = .ok db → buildLines c2 = .ok db) ∧
      foldFail genInit c1 = foldFail genInit c2 ∧
      ∀ e1, buildLines c1 = .error e1 →
        ∃ (i : Nat) (bad1 bad2 : List Nat) (e2 : GenError),
          c1[i]? = some bad1 ∧ c2[i]? = some bad2 ∧
          foldFail genInit c1 = some (i, e1.kind) ∧
          buildLines c2 = .error e2 ∧ e2.kind = e1.kind ∧
          ((e1 = .parseLine bad1 ∧ e2 = .parseLine bad2 ∧ bad1.length < 40) ∨
            (e1 = .parsePrefix bad1 ∧ e2 = .parsePrefix bad2) ∨
            (e1 = .decodeHash bad1 ∧ e2 = .decodeHash bad2)) := by
  obtain ⟨hopt, hfail, hnone⟩ := foldLines_view c1 c2 hv genInit
  refine ⟨?_, hfail, ?_⟩
  · intro db hdb
    obtain ⟨st, hst, hfill, hrec⟩ := (buildLines_ok_iff c1 db).1 hdb
    rw [hst] at hopt
    cases h2 : foldLines genInit c2 with
    | error e =>
      rw [h2] at hopt
      exact Option.noConfusion hopt
    | ok st2 =>
      rw [h2] at hopt
      have : st = st2 := Option.some.inj hopt
      subst this
      exact (buildLines_ok_iff c2 db).2 ⟨st, h2, hfill, hrec⟩
  · intro e1 he1
    have hl1 := buildLines_error_foldLines c1 e1 he1
    have hne : foldFail genInit c1 ≠ none := by
      intro hn
      obtain ⟨s, hs⟩ := hnone.1 hn
      rw [hs] at hl1
      exact Except.noConfusion hl1
    obtain ⟨pr, hpr⟩ := Option.ne_none_iff_exists'.1 hne
    obtain ⟨i, k⟩ := pr
    obtain ⟨bad1, st1, e, hb1, hpre1, hstep1, hk1, hloop1⟩ := foldFail_some c1 genInit i k hpr
    rw [hloop1] at hl1
    have he : e = e1 := Except.error.inj hl1
    subst he
    have hpr2 : foldFail genInit c2 = some (i, k) := by rw [← hfail, hpr]
    obtain ⟨bad2, st2, e2, hb2, hpre2, hstep2, hk2, hloop2⟩ := foldFail_some c2 genInit i k hpr2
    have hlen1 := (foldLines_inv (c1.take i) genInit st1 genInit_length (by
      show 0 < 2 ^ 24
      omega) hpre1).1
    have hlen2 := (foldLines_inv (c2.take i) genInit st2 genInit_length (by
      show 0 < 2 ^ 24
      omega) hpre2).1
    refine ⟨i, bad1, bad2, e2, hb1, hb2, by rw [hpr, hk1], buildLines_of_foldLines_error c2 e2 hloop2,
      by rw [hk2, hk1], ?_⟩
    have hkk : e.kind = e2.kind := by rw [hk1, hk2]
    rcases genStep_error st1 bad1 e hlen1 hstep1 with ⟨h1, hs1⟩ | ⟨h1, -⟩ | ⟨h1, -⟩ <;>
      rcases genStep_error st2 bad2 e2 hlen2 hstep2 with ⟨h2, -⟩ | ⟨h2, -⟩ | ⟨h2, -⟩ <;>
      subst h1 <;> subst h2 <;> simp [GenError.kind] at hkk <;> simp
    exact hs1

theorem digitVal_lower (c : Nat) : digitVal (lowerHex c) = digitVal c := by
  unfold lowerHex
  by_cases h : 65 ≤ c ∧ c ≤ 70
  · have h1 : ¬ (48 ≤ c ∧ c ≤ 57) := by omega
    have h2 : ¬ (97 ≤ c ∧ c ≤ 122) := by omega
    have h3 : ¬ (48 ≤ c + 32 ∧ c + 32 ≤ 57) := by omega
    have h4 : 97 ≤ c + 32 ∧ c + 32 ≤ 122 := by omega
    have h5 : 65 ≤ c ∧ c ≤ 90 := by omega
    simp only [h, and_self, if_true, digitVal, h1, h2, h3, h4, h5, if_false, Option.some.injEq]
    omega
  · simp only [h, if_false]

theorem parseLoop_lower (base maxVal cutoff : Nat) (s : List Nat) (n : Nat) :
    parseLoop base maxVal cutoff (s.map lowerHex) n = parseLoop base maxVal cutoff s n := by
  induction s generalizing n with
  | nil => rfl
  | cons d ds ih =>
    rw [List.map_cons, parseLoop, parseLoop, digitVal_lower]
    cases digitVal d with
    | none => rfl
    | some v =>
      simp only []
      split_ifs
      · rfl
      · rfl
      · rfl
      · exact ih _

theorem ParseUintBytes_lower (s : List Nat) (b w : Nat) :
    ParseUintBytes (s.map lowerHex) b w = ParseUintBytes s b w := by
  rw [ParseUintBytes, ParseUintBytes, List.length_map, parseLoop_lower]

theorem ParseUint_lower (s : List Nat) (b w : Nat) :
    ParseUint (s.map lowerHex) b w = ParseUint s b w := by
  rw [ParseUint, ParseUint, List.length_map, parseLoop_lower]

theorem Decode_lower (s : List Nat) : Decode (s.map lowerHex) = Decode s := by
  induction s using pairInduction with
  | h0 => rfl
  | h1 x => rfl
  | h2 p q rest ih =>
    simp only [List.map_cons, Decode, fromHexChar_lower, ih]

/-- Two lines that differ only in the letter case of their hexadecimal
digits pass or fail the same checks of `buildLines`, with the same values. -/
theorem view_of_case {a b : List Nat} (h : a.map lowerHex = b.map lowerHex) :
    lineView a = lineView b := by
  have hl : a.length = b.length := by
    have := congrArg List.length h
    simpa using this
  have e6 : ∀ l : List Nat, (l.take 6).map lowerHex = (l.map lowerHex).take 6 := by
    intro l
    simp [List.map_take]
  have e40 : ∀ l : List Nat, ((l.take 40).drop 6).map lowerHex
      = ((l.map lowerHex).take 40).drop 6 := by
    intro l
    simp [List.map_take, List.map_drop]
  have h6 : ParseUintBytes (a.take 6) 16 32 = ParseUintBytes (b.take 6) 16 32 := by
    rw [← ParseUintBytes_lower (a.take 6), ← ParseUintBytes_lower (b.take 6), e6, e6, h]
  have h40 : Decode ((a.take 40).drop 6) = Decode ((b.take 40).drop 6) := by
    rw [← Decode_lower ((a.take 40).drop 6), ← Decode_lower ((b.take 40).drop 6), e40, e40, h]
  rw [lineView, lineView, hl, h6, h40]

/-- Two query prefixes that differ only in the letter case of their
hexadecimal digits get the same response from every server. -/
theorem fetchPrefix_case (s : Server) (q1 q2 : List Nat)
    (h : q1.map lowerHex = q2.map lowerHex) : fetchPrefix s q1 = fetchPrefix s q2 := by
  have hl : q1.length = q2.length := by
    have := congrArg List.length h
    simpa using this
  have hp : ParseUint q1 16 32 = ParseUint q2 16 32 := by
    rw [← ParseUint_lower q1, ← ParseUint_lower q2, h]
  rw [fetchPrefix, fetchPrefix, hl, hp]

/-! ### Characters of a response -/

theorem EncodeToString_chars (bs : List Nat) (h : ∀ b ∈ bs, b < 256) :
    (EncodeToString bs).length = 2 * bs.length ∧
      ∀ c ∈ EncodeToString bs, isLowerHexChar c = true := by
  have htab : ∀ v, v < 16 → isLowerHexChar (hextable.getD v 0) = true := by decide
  induction bs with
  | nil => exact ⟨rfl, fun c hc => by simp [EncodeToString] at hc⟩
  | cons b bs ih =>
    obtain ⟨il, ic⟩ := ih (fun x hx => h x (by simp [hx]))
    have hb : b < 256 := h b (by simp)
    refine ⟨by simp only [EncodeToString, List.length_cons, il]; omega, ?_⟩
    intro c hc
    simp only [EncodeToString, List.mem_cons] at hc
    rcases hc with rfl | rfl | hc
    · exact htab _ (by omega)
    · exact htab _ (by omega)
    · exact ic c hc

theorem ReadAt_bytes (file : List Nat) (n off : Nat) (h : ∀ b ∈ file, b < 256) :
    ∀ b ∈ ReadAt file n off, b < 256 := by
  intro b hb
  unfold ReadAt at hb
  simp only [List.mem_append] at hb
  rcases hb with hb | hb
  · exact h b (List.mem_of_mem_drop (List.mem_of_mem_take hb))
  · rw [List.eq_of_mem_replicate hb]
    omega

theorem encodeTable_bytes (vs : List Nat) : ∀ b ∈ encodeTable vs, b < 256 := by
  induction vs with
  | nil => intro b hb; simp [encodeTable] at hb
  | cons v vs ih =>
    intro b hb
    simp only [encodeTable, putUint32, List.mem_append, List.mem_cons, List.mem_nil_iff,
      or_false] at hb
    rcases hb with (rfl | rfl | rfl | rfl) | hb
    · omega
    · omega
    · omega
    · omega
    · exact ih b hb

theorem Decode_bytes (s : List Nat) : ∀ bs, Decode s = some bs → ∀ b ∈ bs, b < 256 := by
  induction s using pairInduction with
  | h0 => intro bs h b hb; simp [Decode] at h; subst h; simp at hb
  | h1 x => intro bs h; simp [Decode] at h
  | h2 p q rest ih =>
    intro bs h b hb
    simp only [Decode] at h
    cases hp : fromHexChar p with
    | none => simp [hp] at h
    | some x =>
      cases hq : fromHexChar q with
      | none => simp [hp, hq] at h
      | some y =>
        cases hr : Decode rest with
        | none => simp [hp, hq, hr] at h
        | some cs =>
          simp only [hp, hq, hr, Option.some.injEq] at h
          subst h
          simp only [List.mem_cons] at hb
          rcases hb with rfl | hb
          · have := fromHexChar_lt hp
            have := fromHexChar_lt hq
            omega
          · exact ih cs hr b hb

/-- Every byte of the file of a built database is below 256. -/
theorem file_bytes (corpus : List (List Nat)) (db : Database) (h : buildLines corpus = .ok db) :
    ∀ b ∈ db.file, b < 256 := by
  intro b hb
  have hok := buildLines_lines_ok corpus db h
  simp only [Database.file, List.mem_append] at hb
  rcases hb with hb | hb
  · exact encodeTable_bytes _ b hb
  · rw [buildLines_records corpus db h] at hb
    obtain ⟨r, hr, hbr⟩ := List.mem_flatten.1 hb
    obtain ⟨l, hl, rfl⟩ := List.mem_map.1 hr
    exact Decode_bytes _ _ (decode_suffix (hok l hl)).1 b hbr

/-- A 200 response of the lookup comes from a pair of table entries and an
encode loop that ran to its end. -/
theorem fetchRange_json (s : Server) (p : Nat) (hs : List (List Nat))
    (h : fetchRange s p = .json hs) :
    ∃ a b len, lookupOffsets s.addresses p = some (a, b) ∧ len = (b + 2 ^ 32 - a) % 2 ^ 32 ∧
      encodeLoop (ReadAt s.db (17 * len % 2 ^ 32) (4 * addrMapSize + a * 17)) len 0 = some hs := by
  unfold fetchRange at h
  cases hl : lookupOffsets s.addresses p with
  | none =>
    rw [hl] at h
    cases h
  | some ab =>
    obtain ⟨a, b⟩ := ab
    rw [hl] at h
    refine ⟨a, b, _, rfl, rfl, ?_⟩
    cases he : encodeLoop (ReadAt s.db (17 * ((b + 2 ^ 32 - a) % 2 ^ 32) % 2 ^ 32)
        (4 * addrMapSize + a * 17)) ((b + 2 ^ 32 - a) % 2 ^ 32) 0 with
    | none =>
      exfalso
      have h2 : (Outcome.panicked : Outcome) = .json hs := by
        rw [← h]
        simp only []
        rw [he]
      cases h2
    | some out =>
      have h2 : (Outcome.json out : Outcome) = .json hs := by
        rw [← h]
        simp only []
        rw [he]
      cases h2
      rfl

/-- On a server whose file holds bytes, every string of a 200 response has
34 characters, all of them in `0-9a-f`. -/
theorem json_chars (s : Server) (hbytes : ∀ b ∈ s.db, b < 256) (p : Nat) (hs : List (List Nat))
    (h : fetchRange s p = .json hs) :
    ∀ x ∈ hs, x.length = 34 ∧ ∀ c ∈ x, isLowerHexChar c = true := by
  obtain ⟨a, b, len, -, -, henc⟩ := fetchRange_json s p hs h
  generalize hR : ReadAt s.db (17 * len % 2 ^ 32) (4 * addrMapSize + a * 17) = buffer at henc
  have hbuf : ∀ y ∈ buffer, y < 256 := by
    rw [← hR]
    exact ReadAt_bytes _ _ _ hbytes
  obtain ⟨hlen, hfit, hget⟩ := encodeLoop_some buffer len hs henc
  intro x hx
  obtain ⟨j, hj⟩ := List.mem_iff_getElem?.1 hx
  have hjlt : j < hs.length := by
    by_contra hcon
    rw [List.getElem?_eq_none (by omega)] at hj
    cases hj
  rw [hget j hjlt, Option.some.injEq] at hj
  have hfit2 := hfit (by omega)
  have hchunk : ((buffer.take ((j + 1) * 17)).drop (j * 17)).length = 17 := by
    rw [List.length_drop, List.length_take]
    have : (j + 1) * 17 ≤ len * 17 := Nat.mul_le_mul_right 17 (by omega)
    omega
  obtain ⟨e1, e2⟩ := EncodeToString_chars ((buffer.take ((j + 1) * 17)).drop (j * 17))
    (fun y hy => hbuf y (List.mem_of_mem_take (List.mem_of_mem_drop hy)))
  rw [hj] at e1 e2
  exact ⟨by rw [e1, hchunk], e2⟩

/-- The query on a file made of a header and records of 17 bytes, when the
window that the two table entries give lies inside the records and its bytes
fit a `uint32`: the answer is the hex strings of the window. -/
theorem fetchRange_window (addresses header : List Nat) (recs : List (List Nat))
    (p a b len : Nat) (hall : ∀ r ∈ recs, r.length = 17)
    (hh : header.length = 4 * addrMapSize)
    (h1 : addresses[p]? = some a) (h2 : addresses[p + 1]? = some b)
    (hlen : len = (b + 2 ^ 32 - a) % 2 ^ 32)
    (hin : a + len ≤ recs.length) (hfit : 17 * len < 2 ^ 32) :
    fetchRange { addresses := addresses, db := header ++ recs.flatten } p =
      .json (((recs.drop a).take len).map EncodeToString) := by
  have hbuf : 17 * len % 2 ^ 32 = 17 * len := Nat.mod_eq_of_lt hfit
  have hdl : recs.flatten.length = 17 * recs.length := flatten_length_const 17 recs hall
  have hread : ReadAt (header ++ recs.flatten) (17 * len)
      (4 * addrMapSize + a * 17) = ((recs.drop a).take len).flatten := by
    rw [← hh, ReadAt_data _ _ _ _ (by rw [hdl]; omega), Nat.mul_comm a 17,
      flatten_drop_const 17 recs hall,
      flatten_take_const 17 _ (fun r hr => hall r (List.mem_of_mem_drop hr))]
  have hrl : ((recs.drop a).take len).length = len := by
    simp only [List.length_take, List.length_drop]
    omega
  have henc := encodeLoop_records ((recs.drop a).take len)
    (fun r hr => hall r (List.mem_of_mem_drop (List.mem_of_mem_take hr)))
  rw [hrl] at henc
  unfold fetchRange
  rw [lookupOffsets_some addresses p a b h1 h2]
  simp only []
  rw [← hlen, hbuf, hread, henc]

/-- The table of the loop body without the wrap of the counter: after any
lines, sorted or not, the slots up to `previousPrefix` hold, modulo `2^32`,
line numbers that never decrease with the slot and do not exceed the number
of lines. -/
theorem foldLines_unwrapped (corpus : List (List Nat)) :
    ∀ st, foldLines genInit corpus = .ok st →
      ∃ T : Nat → Nat,
        (∀ k, k ≤ st.previousPrefix → st.addresses[k]? = some (T k % 2 ^ 32)) ∧
        (∀ i j, i ≤ j → j ≤ st.previousPrefix → T i ≤ T j) ∧
        (∀ k, k ≤ st.previousPrefix → T k ≤ corpus.length) := by
  induction corpus using List.reverseRecOn with
  | nil =>
    intro st h
    simp only [foldLines, Except.ok.injEq] at h
    subst h
    refine ⟨fun _ => 0, ?_, fun _ _ _ _ => le_refl _, fun _ _ => Nat.zero_le _⟩
    intro k hk
    have hk0 : k = 0 := Nat.le_zero.1 hk
    subst hk0
    rw [genInit_get 0 addrMapSize_pos]
    rfl
  | append_singleton ls l ih =>
    intro st h
    have hok := foldLines_lines_ok _ st h
    obtain ⟨st0, h0, hstep⟩ := foldLines_snoc ls l st h
    obtain ⟨T, hT1, hT2, hT3⟩ := ih st0 h0
    obtain ⟨st0', h0', hlen, hcur, -⟩ := foldLines_run ls (fun a ha => hok a (by simp [ha]))
    rw [h0] at h0'
    cases h0'
    obtain ⟨st1, h1, -, -, hprev1, -, htab1⟩ := genStep_ok st0 l hlen (hok l (by simp))
    rw [hstep] at h1
    cases h1
    refine ⟨fun k => if st0.previousPrefix < k ∧ k ≤ pfxOf l then ls.length else T k,
      ?_, ?_, ?_⟩
    · intro k hk
      rw [hprev1] at hk
      rw [htab1 k]
      by_cases hc : st0.previousPrefix < k ∧ k ≤ pfxOf l
      · simp only [hc, and_self, if_true, hcur]
      · simp only [hc, if_false]
        exact hT1 k (by omega)
    · intro i j hij hj
      rw [hprev1] at hj
      simp only []
      by_cases hcj : st0.previousPrefix < j ∧ j ≤ pfxOf l
      · rw [if_pos hcj]
        by_cases hci : st0.previousPrefix < i ∧ i ≤ pfxOf l
        · rw [if_pos hci]
        · rw [if_neg hci]
          exact hT3 i (by omega)
      · have hci : ¬ (st0.previousPrefix < i ∧ i ≤ pfxOf l) := by omega
        rw [if_neg hcj, if_neg hci]
        exact hT2 i j hij (by omega)
    · intro k hk
      rw [hprev1] at hk
      simp only [List.length_append, List.length_singleton]
      by_cases hc : st0.previousPrefix < k ∧ k ≤ pfxOf l
      · rw [if_pos hc]
        omega
      · rw [if_neg hc]
        have := hT3 k (by omega)
        omega

/-- The built table without the wrap of the counter: for any lines, sorted
or not, the entries are, modulo `2^32`, line numbers that never decrease with
the slot and do not exceed the number of lines. -/
theorem buildLines_unwrapped (lines : List (List Nat)) (db : Database)
    (h : buildLines lines = .ok db) :
    ∃ T : Nat → Nat,
      (∀ k, k ≤ 2 ^ 24 → db.addresses[k]? = some (T k % 2 ^ 32)) ∧
      (∀ i j, i ≤ j → j ≤ 2 ^ 24 → T i ≤ T j) ∧
      (∀ k, k ≤ 2 ^ 24 → T k ≤ lines.length) := by
  obtain ⟨db1, st, hdb, hst, -, -, hprev, hlt, htab⟩ := buildLines_run lines
    (buildLines_lines_ok lines db h)
  rw [h] at hdb
  cases hdb
  obtain ⟨T, hT1, hT2, hT3⟩ := foldLines_unwrapped lines st hst
  rw [hprev] at hT1 hT2 hT3
  refine ⟨fun k => if lastPfx lines < k then lines.length else T k, ?_, ?_, ?_⟩
  · intro k hk
    rw [htab k]
    by_cases hc : lastPfx lines < k
    · have hc2 : lastPfx lines < k ∧ k ≤ 2 ^ 24 := ⟨hc, hk⟩
      simp only [hc, hc2, and_self, if_true]
    · have hc2 : ¬ (lastPfx lines < k ∧ k ≤ 2 ^ 24) := fun hx => hc hx.1
      simp only [hc, hc2, if_false]
      exact hT1 k (by omega)
  · intro i j hij hj
    simp only []
    by_cases hcj : lastPfx lines < j
    · rw [if_pos hcj]
      by_cases hci : lastPfx lines < i
      · rw [if_pos hci]
      · rw [if_neg hci]
        exact hT3 i (by omega)
    · have hci : ¬ lastPfx lines < i := by omega
      rw [if_neg hcj, if_neg hci]
      exact hT2 i j hij (by omega)
  · intro k hk
    simp only []
    by_cases hc : lastPfx lines < k
    · rw [if_pos hc]
    · rw [if_neg hc]
      exact hT3 k (by omega)

/-- Build from any lines, sorted or not, start the server on the file, query
a prefix value: every 200 response is the list of the lower-case suffixes of
consecutive lines, starting at the line whose number is the table entry of
the prefix. -/
theorem built_window (lines : List (List Nat)) (db : Database) (s : Server)
    (hbuild : buildLines lines = .ok db) (hserve : serve db.file = some s)
    (p : Nat) (hp : p < 2 ^ 24)
    (hs : List (List Nat)) (hjson : fetchRange s p = .json hs) :
    ∃ start, s.addresses[p]? = some start ∧ start + hs.length ≤ lines.length ∧
      hs = ((lines.drop start).take hs.length).map (fun l => (suffixOf l).map lowerHex) := by
  have hok := buildLines_lines_ok lines db hbuild
  rw [serve_file lines db hbuild] at hserve
  cases hserve
  obtain ⟨T, hT1, hT2, hT3⟩ := buildLines_unwrapped lines db hbuild
  have hc2 := hT3 (p + 1) (by omega)
  have hmono := hT2 p (p + 1) (by omega) (by omega)
  have h1 := hT1 p (by omega)
  have h2 := hT1 (p + 1) (by omega)
  obtain ⟨a, b, len, hlook, hlen, henc⟩ := fetchRange_json _ p hs hjson
  rw [lookupOffsets_some db.addresses p _ _ h1 h2, Option.some.injEq, Prod.mk.injEq] at hlook
  obtain ⟨ha, hb⟩ := hlook
  obtain ⟨hl, hfit, -⟩ := encodeLoop_some _ len hs henc
  rw [ReadAt_length] at hfit
  have hfit32 : 17 * len < 2 ^ 32 := by
    by_cases hz : len = 0
    · rw [hz]
      omega
    · have := hfit (by omega)
      omega
  have hin : a + len ≤ lines.length := by omega
  have hall : ∀ r ∈ lines.map recordOf, r.length = 17 := by
    intro r hr
    obtain ⟨l, hlm, rfl⟩ := List.mem_map.1 hr
    exact (decode_suffix (hok l hlm)).2
  have hheader : (encodeTable db.addresses).length = 4 * addrMapSize := by
    rw [encodeTable_length, buildLines_length lines db hbuild]
  have hw := fetchRange_window db.addresses (encodeTable db.addresses) (lines.map recordOf) p a b
    len hall hheader (ha ▸ h1) (hb ▸ h2) hlen (by rw [List.length_map]; exact hin) hfit32
  have hfile : db.file = encodeTable db.addresses ++ (lines.map recordOf).flatten := by
    rw [Database.file, buildLines_records lines db hbuild]
  rw [hfile] at hjson
  rw [hw, Outcome.json.injEq] at hjson
  refine ⟨a, ha ▸ h1, by rw [hl]; exact hin, ?_⟩
  rw [hl, ← hjson, ← List.map_drop, ← List.map_take, List.map_map]
  apply List.map_congr_left
  intro l hlm
  exact encode_record (hok l (List.mem_of_mem_drop (List.mem_of_mem_take hlm)))

theorem window_get {α β : Type} (corpus : List α) (f : α → β) (start n i : Nat) (x : β)
    (h : (((corpus.drop start).take n).map f)[i]? = some x) :
    ∃ line, corpus[start + i]? = some line ∧ x = f line := by
  rw [List.getElem?_map] at h
  cases hL : ((corpus.drop start).take n)[i]? with
  | none => simp [hL] at h
  | some line =>
    simp only [hL, Option.map_some', Option.some.injEq] at h
    refine ⟨line, ?_, h.symm⟩
    have hi : i < n := by
      by_contra hcon
      rw [List.getElem?_eq_none (by rw [List.length_take]; omega)] at hL
      cases hL
    rw [List.getElem?_take_of_lt hi, List.getElem?_drop] at hL
    exact hL

/-- C17. Hex-case insensitivity and lower-case output. Two corpora whose
corresponding lines differ only in the letter case of their hexadecimal
digits build on the same condition, and build byte-identical database files.
Two query prefixes that differ only in letter case, such as `ABCDEF` and
`abcdef`, get the same response from every server. On a database built by
`generateDB` from any corpus, sorted or not, every string of a 200 response
of `fetchPrefix` has 34 characters, all of them in `0-9a-f`, and the string
number `i` of the response is the lower-case form of the characters 6
through 39 of the corpus line number `start + i`, where `start` is the table
entry of the prefix: the line whose record the string is read from. The
one-line corpora `lineUpperPfx` and `lineLowerPfx` build the same database,
which answers `ABCDEF` and `abcdef` with the same string, and the database
of `lineUpper` answers with 34 times `a`. -/
theorem hex_case_insensitive :
    (∀ c1 c2 : List (List Nat),
      List.Forall₂ (fun a b => a.map lowerHex = b.map lowerHex) c1 c2 →
        (∀ db, generateDB c1 = .ok db ↔ generateDB c2 = .ok db) ∧
        (∀ db1 db2, generateDB c1 = .ok db1 → generateDB c2 = .ok db2 →
          db1.file = db2.file) ∧
        ((∃ e, generateDB c1 = .error e) ↔ ∃ e, generateDB c2 = .error e)) ∧
    (∀ (s : Server) (q1 q2 : List Nat), q1.map lowerHex = q2.map lowerHex →
      fetchPrefix s q1 = fetchPrefix s q2) ∧
    (∀ s : Server, fetchPrefix s (ascii "ABCDEF") = fetchPrefix s (ascii "abcdef")) ∧
    (∀ (corpus : List (List Nat)) (db : Database) (s : Server) (q : List Nat)
        (hs : List (List Nat)),
      generateDB corpus = .ok db → serve db.file = some s → fetchPrefix s q = .json hs →
        (∀ x ∈ hs, x.length = 34 ∧ ∀ ch ∈ x, isLowerHexChar ch = true) ∧
        ∃ start, s.addresses[hexVal q]? = some start ∧ start + hs.length ≤ corpus.length ∧
          ∀ (i : Nat) (x : List Nat), hs[i]? = some x →
            ∃ line, corpus[start + i]? = some line ∧
              x = ((line.take 40).drop 6).map lowerHex) ∧
    (∃ db s, generateDB [lineUpperPfx] = .ok db ∧ generateDB [lineLowerPfx] = .ok db ∧
      serve db.file = some s ∧
      fetchPrefix s (ascii "ABCDEF") = .json [List.replicate 34 48] ∧
      fetchPrefix s (ascii "abcdef") = .json [List.replicate 34 48]) ∧
    (∃ db s, generateDB [lineUpper] = .ok db ∧ serve db.file = some s ∧
      fetchPrefix s (ascii "000000") = .json [List.replicate 34 97]) := by
  have hA : ∀ c1 c2 : List (List Nat),
      List.Forall₂ (fun a b => a.map lowerHex = b.map lowerHex) c1 c2 →
        (∀ db, generateDB c1 = .ok db ↔ generateDB c2 = .ok db) ∧
        (∀ db1 db2, generateDB c1 = .ok db1 → generateDB c2 = .ok db2 →
          db1.file = db2.file) ∧
        ((∃ e, generateDB c1 = .error e) ↔ ∃ e, generateDB c2 = .error e) := by
    intro c1 c2 h
    have hscan : List.Forall₂ (fun a b => a.map lowerHex = b.map lowerHex)
        (scanLines c1) (scanLines c2) := by
      refine scanLines_rel c1 c2 (List.Forall₂.imp (fun a b hab => ⟨hab, ?_⟩) h)
      have hl : a.length = b.length := by
        have := congrArg List.length hab
        simpa using this
      rw [hl]
    have hv : List.Forall₂ (fun a b => lineView a = lineView b) (scanLines c1)
        (scanLines c2) :=
      List.Forall₂.imp (fun _ _ hab => view_of_case hab) hscan
    obtain ⟨hok12, -, herr12⟩ := buildLines_view _ _ hv
    obtain ⟨hok21, -, herr21⟩ := buildLines_view _ _
      (List.Forall₂.imp (fun _ _ hab => hab.symm) hv.flip)
    rw [generateDB_scan c1, generateDB_scan c2]
    refine ⟨fun db => ⟨hok12 db, hok21 db⟩, ?_, ?_⟩
    · intro db1 db2 h1 h2
      have := hok12 db1 h1
      rw [h2] at this
      rw [Except.ok.inj this]
    · constructor
      · rintro ⟨e, he⟩
        obtain ⟨i, b1, b2, e2, -, -, -, h2, -⟩ := herr12 e he
        exact ⟨e2, h2⟩
      · rintro ⟨e, he⟩
        obtain ⟨i, b1, b2, e2, -, -, -, h2, -⟩ := herr21 e he
        exact ⟨e2, h2⟩
  have hB : ∀ (s : Server) (q1 q2 : List Nat), q1.map lowerHex = q2.map lowerHex →
      fetchPrefix s q1 = fetchPrefix s q2 := fetchPrefix_case
  refine ⟨hA, hB, fun s => hB s _ _ (by decide), ?_, ?_, ?_⟩
  · intro corpus db s q hs hbuild hserve hresp
    rw [generateDB_scan] at hbuild
    obtain ⟨h6, hhex, hjson⟩ := fetchPrefix_json s q hs hresp
    constructor
    · have hbytes := file_bytes _ db hbuild
      rw [serve_file _ db hbuild] at hserve
      cases hserve
      exact json_chars _ hbytes _ hs hjson
    · obtain ⟨start, hstart, hin, heq⟩ := built_window (scanLines corpus) db s hbuild hserve
        _ (hexVal_six_lt _ h6 hhex) hs hjson
      have hle := scanLines_length_le corpus
      refine ⟨start, hstart, by omega, ?_⟩
      intro i x hx
      rw [heq] at hx
      obtain ⟨line, hline, hxl⟩ := window_get (scanLines corpus)
        (fun l => (suffixOf l).map lowerHex) start _ i x hx
      exact ⟨line, scanLines_get corpus _ line hline, hxl⟩
  · rw [generateDB_short [lineUpperPfx] (by decide), generateDB_short [lineLowerPfx] (by decide)]
    obtain ⟨db, s, hdb, hs⟩ := serve_built [lineUpperPfx] (by decide)
    have hlow : buildLines [lineLowerPfx] = .ok db := by
      have := ((hA [lineUpperPfx] [lineLowerPfx]
        (List.Forall₂.cons (by decide) List.Forall₂.nil)).1 db).1
      rw [generateDB_short [lineUpperPfx] (by decide),
        generateDB_short [lineLowerPfx] (by decide)] at this
      exact this hdb
    have hq : fetchPrefix s (ascii "abcdef") = fetchRange s (hexVal (ascii "abcdef")) :=
      fetchPrefix_accept _ (ascii "abcdef") (by decide) (by decide)
    have hlo : fetchPrefix s (ascii "abcdef") = .json [List.replicate 34 48] := by
      rw [hq, query_built [lineUpperPfx] db s hdb hs (by decide) (by decide) _ (by decide)
        (by decide)]
      decide
    refine ⟨db, s, hdb, hlow, hs, ?_, hlo⟩
    rw [hB s (ascii "ABCDEF") (ascii "abcdef") (by decide)]
    exact hlo
  · rw [generateDB_short [lineUpper] (by decide)]
    obtain ⟨db, s, hdb, hs⟩ := serve_built [lineUpper] (by decide)
    refine ⟨db, s, hdb, hs, ?_⟩
    have hq : fetchPrefix s (ascii "000000") = fetchRange s 0 :=
      fetchPrefix_accept _ (ascii "000000") (by decide) (by decide)
    rw [hq, query_built [lineUpper] db s hdb hs (by decide) (by decide) 0 (by omega) (by decide)]
    decide

end Hibp
